import Mathlib

/-!
# Verification of the codecracker cryptanalysis pipeline

This file gives a shallow embedding in Lean 4 of the core of the
`codecracker` repository (cipher-type detection, the solver framework,
the plaintext-quality scorer and the `crack`/`decrypt`/`encrypt`
orchestrator), together with theorems settling the frozen claims about
that code.

Modelling conventions:
* JavaScript strings are modelled as `List Char` (`Str`); all concrete
  inputs used below are ASCII, where this model is exact.
* JavaScript `number` is modelled as `ℚ` where the source only performs
  field arithmetic and comparisons on rationals, and as `ℝ` where the
  source uses `Math.exp` / `Math.log2` (Shannon entropy, chi-squared
  normalisation).  Sorting on real-valued keys is modelled by a stable
  insertion sort, matching the (stable) `Array.prototype.sort`.
* `async`/`Promise` wrappers are dropped: all the embedded code is
  synchronous, deterministic computation.
* Fallible operations (`throw`) are modelled with `Except`/`Option`.
* External collaborators that are not part of the sources (the injected
  English word list, node:crypto primitives) are fields of an `Env`
  parameter; functions of the repository that consume them are embedded
  faithfully on top of those fields.
-/

namespace CodeCracker

/-- JS strings, modelled as lists of characters. -/
abbrev Str := List Char

/-- Coerce a Lean string literal to the `Str` model. -/
def str (s : String) : Str := s.data

/-- The characters treated as whitespace by JavaScript `trim` /`\s`
(restricted to the ASCII range, which is all the embedded code ever
meets). -/
def isWhite (c : Char) : Bool :=
  c = ' ' || c = '\t' || c = '\n' || c = '\x0d' || c = '\x0b' || c = '\x0c'

/-- `String.prototype.trim`: strip leading and trailing whitespace. -/
def trim (s : Str) : Str :=
  ((s.dropWhile isWhite).reverse.dropWhile isWhite).reverse

/-- `charCodeAt` on a one-scalar character. -/
def code (c : Char) : ℕ := c.toNat

def isUpperCh (c : Char) : Bool := 65 ≤ code c && code c ≤ 90
def isLowerCh (c : Char) : Bool := 97 ≤ code c && code c ≤ 122
def isAlphaCh (c : Char) : Bool := isUpperCh c || isLowerCh c
def isDigitCh (c : Char) : Bool := 48 ≤ code c && code c ≤ 57

/-- `String.prototype.toLowerCase`, on the ASCII range. -/
def toLowerCh (c : Char) : Char :=
  if isUpperCh c then Char.ofNat (code c + 32) else c

/-- `String.prototype.toUpperCase`, on the ASCII range. -/
def toUpperCh (c : Char) : Char :=
  if isLowerCh c then Char.ofNat (code c - 32) else c

def toLowerStr (s : Str) : Str := s.map toLowerCh
def toUpperStr (s : Str) : Str := s.map toUpperCh

/-! ## utils/text.ts -/

/-- `alphaOnly`: keep only letters, lowercased. -/
def alphaOnly (s : Str) : Str := (s.filter isAlphaCh).map toLowerCh

/-- `letterCounts`: occurrences of each lowercase letter (26 buckets).
The source lowercases the text and counts codes in `[97, 123)`. -/
def letterCounts (s : Str) : List ℕ :=
  (List.range 26).map fun i => ((toLowerStr s).filter fun c => code c = 97 + i).length

/-- `printableRatio` of `utils/text.ts` (the statistics primitive):
fraction of characters with code in `[32, 126]`; `0` for empty text.
Note that this primitive does **not** count tab/CR/LF. -/
def printableRatio (s : Str) : ℚ :=
  if s.length = 0 then 0
  else ((s.filter fun c => 32 ≤ code c && code c ≤ 126).length : ℚ) / s.length

/-- `spaceFrequency`: fraction of `' '` characters; `0` for empty text. -/
def spaceFrequency (s : Str) : ℚ :=
  if s.length = 0 then 0
  else ((s.filter fun c => c = ' ').length : ℚ) / s.length

/-- Count occurrences of the bigram `bg` among adjacent pairs of
`alphaOnly` text (the `bigramCounts` map lookup, `0` when absent). -/
def bigramCount (s : Str) (bg : Str) : ℕ :=
  let clean := alphaOnly s
  ((List.range (clean.length - 1)).filter
    fun i => clean.drop i |>.take 2 |>.beq bg).length

/-- The private `getPrintableRatio` helper shared by the solvers:
unlike the `utils/text.ts` primitive it also counts tab (9), LF (10)
and CR (13) as printable. -/
def solverPrintableRatio (s : Str) : ℚ :=
  if s.length = 0 then 0
  else ((s.filter fun c =>
      (32 ≤ code c && code c ≤ 126) || code c = 9 || code c = 10 || code c = 13).length : ℚ)
    / s.length

/-! ## Classic character transforms -/

/-- Caesar decryption with a given shift (`CaesarSolver.decrypt`).
`(code - base - shift + 26) % 26` on letters, other characters pass
through.  The shift is an integer (JS `number`); `Int.emod` matches the
JS `%` here because the dividend is first made nonnegative by `+ 26`
only in the source for shifts in `[1, 25]`; we keep the exact source
expression using mathematical integers. -/
def caesarShiftChar (shift : ℤ) (c : Char) : Char :=
  if isUpperCh c then
    Char.ofNat ((((code c : ℤ) - 65 - shift + 26) % 26 + 65)).toNat
  else if isLowerCh c then
    Char.ofNat ((((code c : ℤ) - 97 - shift + 26) % 26 + 97)).toNat
  else c

def caesarDecrypt (s : Str) (shift : ℤ) : Str := s.map (caesarShiftChar shift)

/-- `CaesarSolver.encrypt` character map: `(code - base + shift) % 26`. -/
def caesarEncChar (shift : ℤ) (c : Char) : Char :=
  if isUpperCh c then
    Char.ofNat ((Int.tmod ((code c : ℤ) - 65 + shift) 26 + 65)).toNat
  else if isLowerCh c then
    Char.ofNat ((Int.tmod ((code c : ℤ) - 97 + shift) 26 + 97)).toNat
  else c

def caesarEncrypt (s : Str) (shift : ℤ) : Str := s.map (caesarEncChar shift)

/-- ROT13 (`Rot13Solver.decrypt`, self-inverse). -/
def rot13Char (c : Char) : Char :=
  if isUpperCh c then Char.ofNat ((code c - 65 + 13) % 26 + 65)
  else if isLowerCh c then Char.ofNat ((code c - 97 + 13) % 26 + 97)
  else c

def rot13 (s : Str) : Str := s.map rot13Char

/-- Atbash (`AtbashSolver.decrypt`, self-inverse). -/
def atbashChar (c : Char) : Char :=
  if isUpperCh c then Char.ofNat (90 - (code c - 65))
  else if isLowerCh c then Char.ofNat (122 - (code c - 97))
  else c

def atbash (s : Str) : Str := s.map atbashChar

/-! ## detection/charset.ts -/

def isHexDigitCh (c : Char) : Bool :=
  isDigitCh c || (97 ≤ code c && code c ≤ 102) || (65 ≤ code c && code c ≤ 70)

/-- `isHexString`: `/^[0-9a-fA-F]+$/` on the trimmed text, with even length. -/
def isHexString (t : Str) : Bool :=
  (trim t ≠ [] && (trim t).all isHexDigitCh) && (trim t).length % 2 = 0

def isB64Ch (c : Char) : Bool :=
  isAlphaCh c || isDigitCh c || c = '+' || c = '/'

/-- Count of trailing `'='` characters. -/
def trailingEq (t : Str) : ℕ := (t.reverse.takeWhile fun c => c = '=').length

/-- `/^[A-Za-z0-9+/]+={0,2}$/`: a nonempty run of base64 characters
followed by at most two `'='`. -/
def b64Shape (t : Str) : Bool :=
  let p := trailingEq t
  p ≤ 2 && t.length > p && (t.take (t.length - p)).all isB64Ch

/-- `isBase64String`: shape test plus length `≥ 4` and `% 4 = 0`. -/
def isBase64String (t : Str) : Bool :=
  ((trim t).length ≥ 4 && b64Shape (trim t)) && (trim t).length % 4 = 0

def isB32Ch (c : Char) : Bool :=
  -- `/^[A-Z2-7]+=*$/i`: case-insensitive letters plus digits 2-7
  isAlphaCh c || (50 ≤ code c && code c ≤ 55)

/-- `isBase32String`: `/^[A-Z2-7]+=*$/i` with length `≥ 8` and `% 8 = 0`. -/
def isBase32String (t : Str) : Bool :=
  let tr := trim t
  let p := trailingEq tr
  ((tr.length ≥ 8 && tr.length % 8 = 0) && tr.length > p) &&
    (tr.take (tr.length - p)).all isB32Ch

/-- `isBinaryString`: `/^[01][\s01]+$/` on the trimmed text. -/
def isBinaryString (t : Str) : Bool :=
  match trim t with
  | [] => false
  | c :: rest =>
      (c = '0' || c = '1') && rest ≠ [] &&
        rest.all fun d => d = '0' || d = '1' || isWhite d

/-- `isMorseString`: `/^[.\-\/ ]+$/` on the trimmed text (the class
contains a literal space, not `\s`), and the *untrimmed* text must
contain a dot or a dash. -/
def isMorseString (t : Str) : Bool :=
  (trim t ≠ [] &&
    (trim t).all fun c => c = '.' || c = '-' || c = '/' || c = ' ') &&
    (t.contains '.' || t.contains '-')

/-- `hasUrlEncoding`: `/%[0-9A-Fa-f]{2}/` matches somewhere. -/
def hasUrlEncoding : Str → Bool
  | '%' :: a :: b :: rest =>
      (isHexDigitCh a && isHexDigitCh b) || hasUrlEncoding (a :: b :: rest)
  | _ :: rest => hasUrlEncoding rest
  | [] => false

/-- The fields of `analyzeCharset` that the detector consumes. -/
structure CharsetProfile where
  totalChars : ℕ
  alphaCount : ℕ
  alphaRatio : ℚ

/-- `analyzeCharset`, restricted to the fields used by `detect`. -/
def analyzeCharset (t : Str) : CharsetProfile :=
  let len := t.length
  let alpha := (t.filter isAlphaCh).length
  { totalChars := len
    alphaCount := alpha
    alphaRatio := if len > 0 then (alpha : ℚ) / len else 0 }

end CodeCracker

namespace CodeCracker

/-! ## Splitting helpers (JS `String.split`) -/

/-- Tokens of maximal non-whitespace runs: the effect of
`word.trim().split(/\s+/)` followed by skipping empty letters. -/
def tokensWs (s : Str) : List Str :=
  (s.foldr (fun c acc =>
    if isWhite c then [] :: acc
    else match acc with
      | [] => [[c]]
      | t :: ts => (c :: t) :: ts) []).filter (· ≠ [])

/-- `input.split(' / ')`: split on the exact three-character word
separator, left to right. -/
def splitWordSep (s : Str) (acc : Str := []) : List Str :=
  match s with
  | ' ' :: '/' :: ' ' :: rest => acc.reverse :: splitWordSep rest []
  | c :: rest => splitWordSep rest (c :: acc)
  | [] => [acc.reverse]
termination_by structural s

/-- `plaintext.split(' ')`: split on every single space. -/
def splitSingleSpace (s : Str) (acc : Str := []) : List Str :=
  match s with
  | ' ' :: rest => acc.reverse :: splitSingleSpace rest []
  | c :: rest => splitSingleSpace rest (c :: acc)
  | [] => [acc.reverse]

/-! ## data/morse.ts (modelled)

Modelled from the spec: the repository's `data/morse.ts` (the
`MORSE_TO_CHAR` / `CHAR_TO_MORSE` tables) is not among the sources; the
spec describes Morse as "space-separated letters, ` / `-separated
words" with the standard international code, and the tests pin
`H=....`, `E=.`, `L=.-..`, `O=---` and digit support.  We use the
standard ITU table for letters and digits. -/

def MORSE_TO_CHAR : List (Str × Char) :=
  [(str ".-", 'A'), (str "-...", 'B'), (str "-.-.", 'C'), (str "-..", 'D'),
   (str ".", 'E'), (str "..-.", 'F'), (str "--.", 'G'), (str "....", 'H'),
   (str "..", 'I'), (str ".---", 'J'), (str "-.-", 'K'), (str ".-..", 'L'),
   (str "--", 'M'), (str "-.", 'N'), (str "---", 'O'), (str ".--.", 'P'),
   (str "--.-", 'Q'), (str ".-.", 'R'), (str "...", 'S'), (str "-", 'T'),
   (str "..-", 'U'), (str "...-", 'V'), (str ".--", 'W'), (str "-..-", 'X'),
   (str "-.--", 'Y'), (str "--..", 'Z'),
   (str "-----", '0'), (str ".----", '1'), (str "..---", '2'),
   (str "...--", '3'), (str "....-", '4'), (str ".....", '5'),
   (str "-....", '6'), (str "--...", '7'), (str "---..", '8'),
   (str "----.", '9')]

def CHAR_TO_MORSE : List (Char × Str) := MORSE_TO_CHAR.map fun p => (p.2, p.1)

def morseLookup (tok : Str) : Option Char :=
  (MORSE_TO_CHAR.find? fun p => p.1.beq tok).map (·.2)

def charToMorse (c : Char) : Option Str :=
  (CHAR_TO_MORSE.find? fun p => p.1 = c).map (·.2)

/-- `MorseSolver.decodeMorse` on one word: decode each whitespace-token;
`none` models the `return ''` taken on an unknown sequence. -/
def decodeMorseWord (w : Str) : Option Str :=
  (tokensWs (trim w)).foldl
    (fun acc tok => acc.bind fun s => (morseLookup tok).map fun ch => s ++ [ch])
    (some [])

/-- `MorseSolver.decodeMorse`: split into words on `' / '`, decode each,
join with single spaces; an unknown sequence anywhere yields `''`. -/
def decodeMorse (input : Str) : Str :=
  match (splitWordSep input).mapM decodeMorseWord with
  | some ws => (ws.intersperse (str " ")).flatten
  | none => []

/-- `MorseSolver.encrypt`: uppercase, split words on single spaces, drop
characters without a Morse code, join letters with `' '` and words with
`' / '` (skipping words that produced no letters). -/
def encodeMorse (plaintext : Str) : Str :=
  let words := splitSingleSpace (toUpperStr plaintext)
  let morseWords := (words.map fun w =>
      ((w.filterMap charToMorse).intersperse (str " ")).flatten).filter (· ≠ [])
  ((morseWords.intersperse (str " / ")).flatten)

/-! ## Rail fence (`RailFenceSolver.decrypt`) -/

/-- The zig-zag rail assignment: rail of each position. -/
def railAssignGo (rails : ℕ) : ℕ → ℤ → ℕ → List ℕ
  | _, _, 0 => []
  | rail, dir, n + 1 =>
    let dir' : ℤ := if rail = 0 then 1 else if rail = rails - 1 then -1 else dir
    rail :: railAssignGo rails ((rail : ℤ) + dir').toNat dir' n

def railAssignment (rails len : ℕ) : List ℕ := railAssignGo rails 0 1 len

/-- Split a string into consecutive chunks of the given lengths. -/
def splitByLens : List ℕ → Str → List Str
  | [], _ => []
  | n :: ns, s => s.take n :: splitByLens ns (s.drop n)

/-- Read the ciphertext chunks back in zig-zag order. -/
def zigzagRead : List ℕ → List Str → Str
  | [], _ => []
  | r :: rs, chunks =>
    match (chunks.getD r []) with
    | [] => zigzagRead rs chunks
    | c :: cr => c :: zigzagRead rs (chunks.set r cr)

def railDecrypt (s : Str) (rails : ℕ) : Str :=
  let len := s.length
  if rails ≤ 1 ∨ rails ≥ len then s
  else
    let assign := railAssignment rails len
    let lens := (List.range rails).map fun r => (assign.filter (· = r)).length
    zigzagRead assign (splitByLens lens s)

/-- `RailFenceSolver.encrypt`: write the plaintext along the zig-zag and
read the rails in order. -/
def railEncrypt (s : Str) (rails : ℕ) : Str :=
  let assign := railAssignment rails s.length
  (List.range rails).flatMap fun r =>
    ((assign.zip s).filter fun p => p.1 = r).map (·.2)

/-! ## Columnar transposition (`ColumnarTranspositionSolver`) -/

def columnarDecrypt (s : Str) (perm : List ℕ) : Str :=
  let numCols := perm.length
  let len := s.length
  let full := len / numCols
  let extra := len % numCols
  let colLens := perm.map fun p => full + if p < extra then 1 else 0
  let cols := splitByLens colLens s
  let orig := (List.range numCols).map fun cIdx =>
    match (List.range numCols).find? (fun i => perm.getD i 0 = cIdx) with
    | some i => cols.getD i []
    | none => []
  let maxRows := full + (if extra > 0 then 1 else 0)
  (List.range maxRows).flatMap fun row =>
    (List.range numCols).filterMap fun c => (orig.getD c []).get? row

def listSwap (l : List ℕ) (i j : ℕ) : List ℕ :=
  let a := l.getD i 0
  let b := l.getD j 0
  (l.set i b).set j a

/-- `generatePermutations`, with the exact recursive swap order of the
source (the pushed permutation order matters for result order). -/
def genPermsGo : ℕ → List ℕ → ℕ → List (List ℕ)
  | 0, arr, _ => [arr]
  | fuel + 1, arr, start =>
    ((List.range (fuel + 1)).map (· + start)).flatMap
      fun i => genPermsGo fuel (listSwap arr start i) (start + 1)

def generatePermutations (n : ℕ) : List (List ℕ) :=
  genPermsGo n (List.range n) 0

/-- `ColumnarTranspositionSolver.encrypt`: derive the permutation from
the keyword (stable sort of its letters), write row by row, read
columns in permutation order. -/
def columnarKeyPerm (key : Str) : List ℕ :=
  (((toLowerStr key).enum.mergeSort fun a b =>
      a.2 < b.2 || (a.2 = b.2 && a.1 ≤ b.1)).map (·.1))

def columnarEncrypt (s : Str) (perm : List ℕ) : Str :=
  let numCols := perm.length
  let cols := (List.range numCols).map fun c =>
    ((List.range s.length).filter fun i => i % numCols = c).filterMap s.get?
  perm.flatMap fun c => cols.getD c []

end CodeCracker

namespace CodeCracker

/-! ## Byte-level codecs

`Buffer.from(· , 'utf-8')` / `Buffer.prototype.toString('utf-8')` and
the base64/base32/hex/binary codecs used by the encoding solvers.  The
UTF-8 decoder is exact on ASCII and on well-formed sequences; for
malformed input it produces U+FFFD replacement characters (like Node),
with a placement that approximates Node byte-for-byte only where no
claim depends on it. -/

def replCh : Char := Char.ofNat 0xFFFD

/-- `Buffer.from(s, 'utf-8')`: UTF-8 encode one scalar. -/
def utf8EncodeChar (c : Char) : List ℕ :=
  let v := code c
  if v < 0x80 then [v]
  else if v < 0x800 then [0xC0 + v / 64, 0x80 + v % 64]
  else if v < 0x10000 then
    [0xE0 + v / 4096, 0x80 + v / 64 % 64, 0x80 + v % 64]
  else [0xF0 + v / 262144, 0x80 + v / 4096 % 64, 0x80 + v / 64 % 64, 0x80 + v % 64]

def utf8Encode (s : Str) : List ℕ := s.flatMap utf8EncodeChar

def isCont (b : ℕ) : Bool := 0x80 ≤ b && b ≤ 0xBF

/-- Lossy UTF-8 decoding (`buffer.toString('utf-8')`), with the match
split by arity so that each recursion consumes the bytes its branch
decodes (truncated sequences at the end fall into the short arms). -/
def utf8Decode : List ℕ → Str
  | [] => []
  | [b] =>
    if b < 0x80 then [Char.ofNat b]
    else if 0xC2 ≤ b && b ≤ 0xDF then [replCh]
    else if 0xE0 ≤ b && b ≤ 0xEF then [replCh]
    else if 0xF0 ≤ b && b ≤ 0xF4 then [replCh]
    else [replCh]
  | [b, b2] =>
    if b < 0x80 then Char.ofNat b :: utf8Decode [b2]
    else if 0xC2 ≤ b && b ≤ 0xDF then
      if isCont b2 then [Char.ofNat ((b - 0xC0) * 64 + (b2 - 0x80))]
      else replCh :: utf8Decode [b2]
    else if 0xE0 ≤ b && b ≤ 0xEF then
      if isCont b2 then [replCh] else [replCh, replCh]
    else if 0xF0 ≤ b && b ≤ 0xF4 then [replCh]
    else replCh :: utf8Decode [b2]
  | [b, b2, b3] =>
    if b < 0x80 then Char.ofNat b :: utf8Decode [b2, b3]
    else if 0xC2 ≤ b && b ≤ 0xDF then
      if isCont b2 then Char.ofNat ((b - 0xC0) * 64 + (b2 - 0x80)) :: utf8Decode [b3]
      else replCh :: utf8Decode [b2, b3]
    else if 0xE0 ≤ b && b ≤ 0xEF then
      if isCont b2 && isCont b3 then
        let v := (b - 0xE0) * 4096 + (b2 - 0x80) * 64 + (b3 - 0x80)
        [if 0xD800 ≤ v && v ≤ 0xDFFF then replCh else Char.ofNat v]
      else replCh :: utf8Decode [b2, b3]
    else if 0xF0 ≤ b && b ≤ 0xF4 then [replCh]
    else replCh :: utf8Decode [b2, b3]
  | b :: b2 :: b3 :: b4 :: rest4 =>
    if b < 0x80 then Char.ofNat b :: utf8Decode (b2 :: b3 :: b4 :: rest4)
    else if 0xC2 ≤ b && b ≤ 0xDF then
      if isCont b2 then
        Char.ofNat ((b - 0xC0) * 64 + (b2 - 0x80)) :: utf8Decode (b3 :: b4 :: rest4)
      else replCh :: utf8Decode (b2 :: b3 :: b4 :: rest4)
    else if 0xE0 ≤ b && b ≤ 0xEF then
      if isCont b2 && isCont b3 then
        let v := (b - 0xE0) * 4096 + (b2 - 0x80) * 64 + (b3 - 0x80)
        (if 0xD800 ≤ v && v ≤ 0xDFFF then replCh else Char.ofNat v) ::
          utf8Decode (b4 :: rest4)
      else replCh :: utf8Decode (b2 :: b3 :: b4 :: rest4)
    else if 0xF0 ≤ b && b ≤ 0xF4 then
      if (isCont b2 && isCont b3) && isCont b4 then
        let v := (b - 0xF0) * 262144 + (b2 - 0x80) * 4096 + (b3 - 0x80) * 64 + (b4 - 0x80)
        (if v < 0x110000 then Char.ofNat v else replCh) :: utf8Decode rest4
      else replCh :: utf8Decode (b2 :: b3 :: b4 :: rest4)
    else replCh :: utf8Decode (b2 :: b3 :: b4 :: rest4)

/-- Strict UTF-8 decoding: `none` on any malformed sequence (used by
`decodeURIComponent`, which throws `URIError` there). -/
def utf8Strict : List ℕ → Option Str
  | [] => some []
  | b :: rest =>
    if b < 0x80 then (utf8Strict rest).map (Char.ofNat b :: ·)
    else if 0xC2 ≤ b && b ≤ 0xDF then
      match rest with
      | b2 :: rest2 =>
        if isCont b2 then
          (utf8Strict rest2).map (Char.ofNat ((b - 0xC0) * 64 + (b2 - 0x80)) :: ·)
        else none
      | [] => none
    else if 0xE0 ≤ b && b ≤ 0xEF then
      match rest with
      | b2 :: b3 :: rest3 =>
        if isCont b2 && isCont b3 then
          let v := (b - 0xE0) * 4096 + (b2 - 0x80) * 64 + (b3 - 0x80)
          if 0xD800 ≤ v && v ≤ 0xDFFF then none
          else (utf8Strict rest3).map (Char.ofNat v :: ·)
        else none
      | _ => none
    else if 0xF0 ≤ b && b ≤ 0xF4 then
      match rest with
      | b2 :: b3 :: b4 :: rest4 =>
        if (isCont b2 && isCont b3) && isCont b4 then
          let v := (b - 0xF0) * 262144 + (b2 - 0x80) * 4096 + (b3 - 0x80) * 64 + (b4 - 0x80)
          if v < 0x110000 then (utf8Strict rest4).map (Char.ofNat v :: ·) else none
        else none
      | _ => none
    else none

/-! ### base64 (`Buffer` codec used by `Base64Solver`) -/

def b64Alphabet : Str :=
  str "ABCDEFGHIJKLMNOPQRSTUVWXYZabcdefghijklmnopqrstuvwxyz0123456789+/"

def b64Chr (i : ℕ) : Char := b64Alphabet.getD i 'A'

def b64Index (c : Char) : Option ℕ := b64Alphabet.findIdx? (· = c)

/-- `buffer.toString('base64')` over 3-byte groups, `=`-padded. -/
def base64Encode : List ℕ → Str
  | [] => []
  | [a] => [b64Chr (a / 4), b64Chr (a % 4 * 16), '=', '=']
  | [a, b] => [b64Chr (a / 4), b64Chr (a % 4 * 16 + b / 16), b64Chr (b % 16 * 4), '=']
  | a :: b :: c :: rest =>
    [b64Chr (a / 4), b64Chr (a % 4 * 16 + b / 16),
     b64Chr (b % 16 * 4 + c / 64), b64Chr (c % 64)] ++ base64Encode rest

/-- Sextets to bytes, dropping leftover bits (Node `Buffer.from(·, 'base64')`). -/
def b64DecodeSextets : List ℕ → List ℕ
  | a :: b :: c :: d :: rest =>
    [a * 4 + b / 16, b % 16 * 16 + c / 4, c % 4 * 64 + d] ++ b64DecodeSextets rest
  | [a, b] => [a * 4 + b / 16]
  | [a, b, c] => [a * 4 + b / 16, b % 16 * 16 + c / 4]
  | _ => []

/-- `Buffer.from(s, 'base64')`: ignore `'='`; map alphabet characters to
sextets (characters outside the alphabet are ignored, as in Node; the
solvers have already regex-validated the shape). -/
def base64DecodeBytes (s : Str) : List ℕ :=
  b64DecodeSextets ((s.filter (· ≠ '=')).filterMap b64Index)

/-! ### base32 (hand-rolled in the solver using bit strings) -/

def B32_ALPHABET : Str := str "ABCDEFGHIJKLMNOPQRSTUVWXYZ234567"

/-- Big-endian bits of `n`, `w` wide (`toString(2).padStart(w, '0')`). -/
def bitsOfNat (w n : ℕ) : List Bool :=
  (List.range w).map fun i => n / 2 ^ (w - 1 - i) % 2 = 1

def natOfBits (bits : List Bool) : ℕ :=
  bits.foldl (fun a b => 2 * a + if b then 1 else 0) 0

/-- Groups of five bits, the last group padded with `0`s
(`bits.slice(i, i+5).padEnd(5, '0')`). -/
def chunks5 (l : List Bool) : List (List Bool) :=
  if l = [] then []
  else (l.take 5 ++ List.replicate (5 - (l.take 5).length) false) :: chunks5 (l.drop 5)
termination_by l.length
decreasing_by
  simp only [List.length_drop]
  cases l with
  | nil => simp_all
  | cons a l => simp; omega

/-- Whole bytes from a bit stream (`for (i = 0; i + 8 <= len; i += 8)`). -/
def bytesOfBits (l : List Bool) : List ℕ :=
  if 8 ≤ l.length then natOfBits (l.take 8) :: bytesOfBits (l.drop 8) else []
termination_by l.length
decreasing_by simp only [List.length_drop]; omega

/-- `Base32Solver.encrypt` bit pipeline (before `'='` padding). -/
def base32EncodeCore (bytes : List ℕ) : Str :=
  (chunks5 (bytes.flatMap (bitsOfNat 8))).map fun c => B32_ALPHABET.getD (natOfBits c) 'A'

/-- `Base32Solver.encrypt`: pad with `'='` to a multiple of 8. -/
def base32Encode (bytes : List ℕ) : Str :=
  let core := base32EncodeCore bytes
  core ++ List.replicate ((8 - core.length % 8) % 8) '='

/-- `Base32Solver.decodeBase32`: strip trailing padding, 5 bits per
character (`none` models the `throw` on a character outside the
alphabet), then whole bytes, UTF-8 decoded by `Buffer.from(...)`. -/
def base32DecodeBytes (s : Str) : Option (List ℕ) :=
  let stripped := s.take (s.length - trailingEq s)
  (stripped.mapM fun c => B32_ALPHABET.findIdx? (· = c)).map
    fun idxs => bytesOfBits (idxs.flatMap (bitsOfNat 5))

/-! ### hex -/

def hexDigitVal (c : Char) : Option ℕ :=
  if isDigitCh c then some (code c - 48)
  else if 97 ≤ code c && code c ≤ 102 then some (code c - 87)
  else if 65 ≤ code c && code c ≤ 70 then some (code c - 55)
  else none

/-- `Buffer.from(s, 'hex')`: consecutive hex-digit pairs to bytes. -/
def hexDecodeBytes : Str → List ℕ
  | a :: b :: rest =>
    match hexDigitVal a, hexDigitVal b with
    | some x, some y => (16 * x + y) :: hexDecodeBytes rest
    | _, _ => []
  | _ => []

def hexDigitLower (n : ℕ) : Char := (str "0123456789abcdef").getD n '0'

/-- `buffer.toString('hex')` (lowercase). -/
def hexEncode (bytes : List ℕ) : Str :=
  bytes.flatMap fun b => [hexDigitLower (b / 16), hexDigitLower (b % 16)]

/-! ### binary (`BinarySolver.decodeBinary`) -/

/-- Strip all whitespace, require a multiple of 8 bits, then
`String.fromCharCode(parseInt(byte, 2))` per 8-bit group (note: *not*
UTF-8 decoding -- char codes directly). -/
def binaryDecode (input : Str) : Str :=
  let bits := input.filter (!isWhite ·)
  if bits.length % 8 ≠ 0 then []
  else (bytesOfBits (bits.map (· = '1'))).map Char.ofNat

/-! ### URL percent-coding -/

/-- `encodeURIComponent` unreserved characters: `A-Za-z0-9-_.!~*'()`. -/
def isUnreservedCh (c : Char) : Bool :=
  isAlphaCh c || isDigitCh c ||
    c = '-' || c = '_' || c = '.' || c = '!' || c = '~' || c = '*' ||
    code c = 39 || c = '(' || c = ')'

def hexDigitUpper (n : ℕ) : Char := (str "0123456789ABCDEF").getD n '0'

def encodeURIComponent (s : Str) : Str :=
  s.flatMap fun c =>
    if isUnreservedCh c then [c]
    else (utf8EncodeChar c).flatMap fun b => ['%', hexDigitUpper (b / 16), hexDigitUpper (b % 16)]

/-- One `%XX` escape: the byte and the remaining input. -/
def readPct : Str → Option (ℕ × Str)
  | '%' :: a :: b :: rest => do
    let x ← hexDigitVal a
    let y ← hexDigitVal b
    some (16 * x + y, rest)
  | _ => none

/-- `decodeURIComponent`: percent-escapes decode to bytes, consecutive
escaped bytes must form valid UTF-8 (`none` models the `URIError`
throw); other characters pass through.  Runs on fuel `≥ s.length`,
which always suffices since every step consumes at least one input
character. -/
def urlDecodeGo : ℕ → Str → Option Str
  | 0, s => if s = [] then some [] else none
  | fuel + 1, s =>
    match s with
    | [] => some []
    | '%' :: rest =>
      match readPct ('%' :: rest) with
      | none => none
      | some (b, rest2) =>
        if b < 0x80 then (urlDecodeGo fuel rest2).map (Char.ofNat b :: ·)
        else if 0xC2 ≤ b && b ≤ 0xDF then
          match readPct rest2 with
          | some (b2, rest3) =>
            if isCont b2 then
              (urlDecodeGo fuel rest3).map (Char.ofNat ((b - 0xC0) * 64 + (b2 - 0x80)) :: ·)
            else none
          | none => none
        else if 0xE0 ≤ b && b ≤ 0xEF then
          match readPct rest2 with
          | some (b2, rest3) =>
            match readPct rest3 with
            | some (b3, rest4) =>
              if isCont b2 && isCont b3 then
                let v := (b - 0xE0) * 4096 + (b2 - 0x80) * 64 + (b3 - 0x80)
                if 0xD800 ≤ v && v ≤ 0xDFFF then none
                else (urlDecodeGo fuel rest4).map (Char.ofNat v :: ·)
              else none
            | none => none
          | none => none
        else if 0xF0 ≤ b && b ≤ 0xF4 then
          match readPct rest2 with
          | some (b2, rest3) =>
            match readPct rest3 with
            | some (b3, rest4) =>
              match readPct rest4 with
              | some (b4, rest5) =>
                if (isCont b2 && isCont b3) && isCont b4 then
                  let v := (b - 0xF0) * 262144 + (b2 - 0x80) * 4096
                    + (b3 - 0x80) * 64 + (b4 - 0x80)
                  if v < 0x110000 then (urlDecodeGo fuel rest5).map (Char.ofNat v :: ·)
                  else none
                else none
              | none => none
            | none => none
          | none => none
        else none
    | c :: rest => (urlDecodeGo fuel rest).map (c :: ·)

def urlDecode (s : Str) : Option Str := urlDecodeGo s.length s

/-! ### `parseInt(s, 10)` -/

/-- JS `parseInt(str, 10)`: skip leading whitespace, optional sign,
then the maximal digit prefix; `none` models `NaN`. -/
def parseIntBase10 (s : Str) : Option ℤ :=
  let t := s.dropWhile isWhite
  let signAndRest : ℤ × Str :=
    match t with
    | '-' :: r => (-1, r)
    | '+' :: r => (1, r)
    | _ => (1, t)
  let digits := signAndRest.2.takeWhile isDigitCh
  if digits = [] then none
  else some (signAndRest.1 * digits.foldl (fun a c => 10 * a + ((code c : ℤ) - 48)) 0)

end CodeCracker

namespace CodeCracker

/-! ## data/frequencies.ts -/

/-- `ENGLISH_LETTER_FREQ` in `a..z` order (`Object.values` order). -/
def ENGLISH_LETTER_FREQ : List ℚ :=
  [0.08167, 0.01492, 0.02782, 0.04253, 0.12702,
   0.02228, 0.02015, 0.06094, 0.06966, 0.00153,
   0.00772, 0.04025, 0.02406, 0.06749, 0.07507,
   0.01929, 0.00095, 0.05987, 0.06327, 0.09056,
   0.02758, 0.00978, 0.02360, 0.00150, 0.01974,
   0.00074]

/-- `ENGLISH_BIGRAM_FREQ` (top ~50 bigrams with frequencies). -/
def ENGLISH_BIGRAM_FREQ : List (Str × ℚ) :=
  [(str "th", 0.0356), (str "he", 0.0307), (str "in", 0.0243), (str "er", 0.0205),
   (str "an", 0.0199), (str "re", 0.0185), (str "on", 0.0176), (str "at", 0.0149),
   (str "en", 0.0145), (str "nd", 0.0135), (str "ti", 0.0134), (str "es", 0.0134),
   (str "or", 0.0128), (str "te", 0.0120), (str "of", 0.0117), (str "ed", 0.0117),
   (str "is", 0.0113), (str "it", 0.0112), (str "al", 0.0109), (str "ar", 0.0107),
   (str "st", 0.0105), (str "to", 0.0104), (str "nt", 0.0104), (str "ng", 0.0095),
   (str "se", 0.0093), (str "ha", 0.0093), (str "as", 0.0087), (str "ou", 0.0087),
   (str "io", 0.0083), (str "le", 0.0083), (str "ve", 0.0083), (str "co", 0.0079),
   (str "me", 0.0079), (str "de", 0.0076), (str "hi", 0.0076), (str "ri", 0.0073),
   (str "ro", 0.0073), (str "ic", 0.0070), (str "ne", 0.0069), (str "ea", 0.0069),
   (str "ra", 0.0069), (str "ce", 0.0065), (str "li", 0.0062), (str "ch", 0.0060),
   (str "ll", 0.0058), (str "be", 0.0058), (str "ma", 0.0057), (str "si", 0.0055),
   (str "om", 0.0055), (str "ur", 0.0054)]

def ENGLISH_IOC : ℚ := 0.0667
def RANDOM_IOC : ℚ := 0.0385

/-! ## utils/math.ts -/

/-- `chiSquared`: sum over the observed positions, skipping buckets
with nonpositive expected value. -/
def chiSquared (observed expected : List ℚ) : ℚ :=
  ((observed.zip expected).map fun p =>
    if p.2 > 0 then (p.1 - p.2) ^ 2 / p.2 else 0).sum

/-- `mod`: `((a % n) + n) % n` (a nonnegative remainder for positive `n`). -/
def jsMod (a n : ℤ) : ℤ := (Int.emod a n + n) % n

/-! ## analysis/dictionary.ts

`ENGLISH_WORDS` (`data/words.ts`) is not among the sources; the word
set is the `words` field of `Env` below, and `dictionaryWordRatio` is
embedded faithfully on top of it. -/

/-- The separator class `[\s,.!?;:'"()\[\]{}\-\/\\]` of the token split. -/
def isTokenSep (c : Char) : Bool :=
  isWhite c || c = ',' || c = '.' || c = '!' || c = '?' || c = ';' || c = ':' ||
    code c = 39 || code c = 34 || c = '(' || c = ')' || c = '[' || c = ']' ||
    code c = 123 || code c = 125 || c = '-' || c = '/' || c = '\\'

/-- Maximal runs of non-separator characters (the nonempty pieces of
`split(/[...]+/)`). -/
def tokensBy (sep : Char → Bool) (s : Str) : List Str :=
  (s.foldr (fun c acc =>
    if sep c then [] :: acc
    else match acc with
      | [] => [[c]]
      | t :: ts => (c :: t) :: ts) []).filter (· ≠ [])

/-- `dictionaryWordRatio`: character-weighted fraction of tokens found
in the word set. -/
def dictionaryWordRatio (words : Str → Bool) (text : Str) : ℚ :=
  if text.length = 0 then 0
  else
    let tokens := tokensBy isTokenSep (toLowerStr text)
    if tokens = [] then 0
    else
      let cleans := (tokens.map fun t => t.filter fun c => 97 ≤ code c && code c ≤ 122).filter
        (·.length ≠ 0)
      let totalChars := (cleans.map (·.length)).sum
      let matchedChars := ((cleans.filter fun t => words t).map (·.length)).sum
      if totalChars > 0 then (matchedChars : ℚ) / totalChars else 0

/-! ## analysis/frequency.ts, entropy.ts -/

def letterFrequencies (s : Str) : List ℚ :=
  let counts := letterCounts s
  let total := counts.sum
  if total = 0 then counts.map (fun c => (c : ℚ))
  else counts.map fun c => (c : ℚ) / total

def clamp01 (x : ℝ) : ℝ := min 1 (max 0 x)

/-- `letterFrequencyFit`: normalised chi-squared letter-frequency fit,
`exp(-chiPerLetter/3)` clamped to `[0,1]`; `0` below two letters. -/
noncomputable def letterFrequencyFit (s : Str) : ℝ :=
  let totalLetters := (alphaOnly s).length
  if totalLetters < 2 then 0
  else
    let observed := (letterFrequencies s).map fun f => f * (totalLetters : ℚ)
    let expectedCounts := ENGLISH_LETTER_FREQ.map fun f => f * (totalLetters : ℚ)
    let chi := chiSquared observed expectedCounts
    clamp01 (Real.exp (-((chi / totalLetters : ℚ) : ℝ) / 3))

/-- `bigramFrequencyFit`: expected-frequency-weighted average of
`max(0, 1 - |observed - expected|/expected)` over the top bigrams;
`0` below five bigrams. -/
def bigramFrequencyFit (s : Str) : ℚ :=
  let clean := alphaOnly s
  let totalBigrams : ℚ := max 1 ((clean.length : ℚ) - 1)
  if totalBigrams < 5 then 0
  else
    let scores := ENGLISH_BIGRAM_FREQ.map fun p =>
      let observedFreq := (bigramCount s p.1 : ℚ) / totalBigrams
      let weight := p.2
      (weight * max 0 (1 - |observedFreq - p.2| / p.2), weight)
    let matchScore := (scores.map (·.1)).sum
    let totalWeight := (scores.map (·.2)).sum
    if totalWeight > 0 then matchScore / totalWeight else 0

/-- `shannonEntropy` in bits per character.  The source sums
`-p log2 p` over the character-frequency map; summation order is
irrelevant over `ℝ`, so we sum over the finset of characters. -/
noncomputable def shannonEntropy (s : Str) : ℝ :=
  if s.length = 0 then 0
  else ∑ c ∈ s.toFinset,
    (-(((s.count c : ℝ) / s.length) * Real.logb 2 ((s.count c : ℝ) / s.length)))

/-- `entropyScore`: `max(0, 1 - |entropy - 4|/4)`. -/
noncomputable def entropyScore (s : Str) : ℝ :=
  max 0 (1 - |shannonEntropy s - 4| / 4)

/-! ## analysis/chi-squared.ts -/

/-- `chiSquaredVsEnglish`: chi-squared of letter counts against
English expectations.  The source returns `Infinity` on letterless
text; we model the statistic as a rational together with that special
case (`none` = `Infinity`), which compares greater than everything. -/
def chiSquaredVsEnglish (s : Str) : Option ℚ :=
  let clean := alphaOnly s
  if clean.length = 0 then none
  else
    let observed := (letterCounts s).map fun c => (c : ℚ)
    let expected := ENGLISH_LETTER_FREQ.map fun f => f * (clean.length : ℚ)
    some (chiSquared observed expected)

/-! ## analysis/scoring.ts -/

structure PlaintextScore where
  total : ℝ
  dictionaryWordRatio : ℝ
  frequencyFit : ℝ
  bigramFit : ℝ
  entropyScore : ℝ
  printableRatio : ℝ
  spaceFrequency : ℝ

/-- `scorePlaintext` with the dictionary scorer installed by
`index.ts` (`setDictionaryScorer(dictionaryWordRatio)`), over the
word set `words`.  Note the `spaceFrequency` field holds the peaked
*score*, exactly as the source constructs the record. -/
noncomputable def scorePlaintext (words : Str → Bool) (text : Str) : PlaintextScore :=
  let dictRatio : ℝ := (dictionaryWordRatio words text : ℚ)
  let freqFit := letterFrequencyFit text
  let bigFit : ℝ := (bigramFrequencyFit text : ℚ)
  let entScore := entropyScore text
  let printRatio : ℝ := (printableRatio text : ℚ)
  let sf : ℝ := (spaceFrequency text : ℚ)
  let spaceScore := max 0 (1 - |sf - 0.17| / 0.17)
  { total := clamp01 (0.35 * dictRatio + 0.25 * freqFit + 0.15 * bigFit +
      0.10 * entScore + 0.10 * printRatio + 0.05 * spaceScore)
    dictionaryWordRatio := dictRatio
    frequencyFit := freqFit
    bigramFit := bigFit
    entropyScore := entScore
    printableRatio := printRatio
    spaceFrequency := spaceScore }

/-- `finalConfidence`: `clamp(0.4·detection + 0.6·quality, 0, 1)`. -/
noncomputable def finalConfidence (detectionConfidence plaintextQuality : ℝ) : ℝ :=
  clamp01 (0.4 * detectionConfidence + 0.6 * plaintextQuality)

end CodeCracker

namespace CodeCracker

/-! ## Stable sorting (JS `Array.prototype.sort`, which is stable)

`insertGeB ge` places `x` before the first element `y` with `ge x y`;
combined with `foldr`, elements are inserted from right to left, so an
earlier element is placed before an equal later one: a stable
descending sort for `ge a b = (key b ≤ key a)`. -/

def insertGeB (ge : α → α → Bool) (x : α) : List α → List α
  | [] => [x]
  | y :: ys => if ge x y then x :: y :: ys else y :: insertGeB ge x ys

def sortGeB (ge : α → α → Bool) (l : List α) : List α :=
  l.foldr (insertGeB ge) []

/-- Noncomputable boolean `b ≤ a` on reals, for real-keyed comparators. -/
noncomputable def rGe (a b : ℝ) : Bool := @decide (b ≤ a) (Classical.propDecidable _)

/-- Noncomputable boolean equality on reals, used to state tie classes
of the confidence sort. -/
noncomputable def rEq (a b : ℝ) : Bool := @decide (a = b) (Classical.propDecidable _)

/-- `Array.prototype.slice(0, e)` with a JS (possibly negative) end. -/
def jsSliceEnd (e : ℤ) (l : List α) : List α :=
  if e < 0 then l.take ((l.length : ℤ) + e).toNat else l.take e.toNat

/-! ## detection/statistics.ts -/

/-- `indexOfCoincidence`: `Σ c(c-1) / (n(n-1))`; `0` below two letters. -/
def indexOfCoincidence (s : Str) : ℚ :=
  let counts := letterCounts s
  let n := counts.sum
  if n < 2 then 0
  else ((counts.map fun c => (c : ℚ) * ((c : ℚ) - 1)).sum) / ((n : ℚ) * ((n : ℚ) - 1))

inductive IoCClass | mono | poly | unknownC
deriving DecidableEq

/-- `classifyByIoC` with the English/random midpoint `± 0.005`. -/
def classifyByIoC (s : Str) : IoCClass :=
  let ioc := indexOfCoincidence s
  let monoThreshold := (ENGLISH_IOC + RANDOM_IOC) / 2
  if ioc > monoThreshold + 0.005 then .mono
  else if ioc < monoThreshold - 0.005 then .poly
  else .unknownC

/-- First-occurrence-order deduplication (JS `Map`/`Set` key order). -/
def firstDedup [DecidableEq α] (l : List α) (seen : List α := []) : List α :=
  match l with
  | [] => []
  | x :: xs => if x ∈ seen then firstDedup xs seen else x :: firstDedup xs (x :: seen)

/-- Insertion-ordered counter update (JS `Map.set` on an existing key
keeps its position). -/
def assocIncr (l : List (ℕ × ℕ)) (k : ℕ) : List (ℕ × ℕ) :=
  if l.any (·.1 = k) then l.map fun p => if p.1 = k then (p.1, p.2 + 1) else p
  else l ++ [(k, 1)]

/-- `kasiskiExamination` of `detection/statistics.ts` (default
`maxKeyLen = 20`): repeated-trigram distances, factor counting over
`2..min(maxKeyLen, d)`, factors sorted by count descending (stable). -/
def kasiskiExamination (s : Str) (maxKeyLen : ℕ := 20) : List ℕ :=
  let clean := alphaOnly s
  if clean.length < 20 then []
  else
    let n := clean.length - 2
    let triAt := fun i => (clean.drop i).take 3
    let tris := firstDedup ((List.range n).map triAt)
    let distances := tris.flatMap fun t =>
      let positions := (List.range n).filter fun i => (triAt i).beq t
      positions.flatMap fun i =>
        (positions.filter (fun j => i < j)).map fun j => j - i
    if distances = [] then []
    else
      let factorCounts := distances.foldl (fun acc d =>
        (((List.range' 2 (min maxKeyLen d - 1)).filter fun f => d % f = 0)).foldl
          assocIncr acc) []
      (sortGeB (fun a b => b.2 ≤ a.2) factorCounts).map (·.1)

/-! ## Cipher types and result records -/

inductive CipherType
  | caesar | rot13 | atbash | vigenere | substitution
  | railFence | playfair | columnarTransposition
  | base64 | base32 | hex | binary | urlEncoding | morse
  | xor | hashLookup | aes | rsa
deriving DecidableEq

/-- The string names of the `CipherType` union. -/
def CipherType.name : CipherType → String
  | .caesar => "caesar" | .rot13 => "rot13" | .atbash => "atbash"
  | .vigenere => "vigenere" | .substitution => "substitution"
  | .railFence => "rail-fence" | .playfair => "playfair"
  | .columnarTransposition => "columnar-transposition"
  | .base64 => "base64" | .base32 => "base32" | .hex => "hex"
  | .binary => "binary" | .urlEncoding => "url-encoding" | .morse => "morse"
  | .xor => "xor" | .hashLookup => "hash-lookup" | .aes => "aes" | .rsa => "rsa"

/-- `key?: string | number` on results. -/
inductive KeyV
  | num (n : ℤ)
  | strv (s : Str)
deriving DecidableEq

/-- `key?: string | Buffer` in options. -/
inductive KeyIn
  | strv (s : Str)
  | buf (bytes : List ℕ)
deriving DecidableEq

/-- `String(key)` as used by `parseInt(String(options.key), 10)`. -/
def KeyIn.asString : KeyIn → Str
  | .strv s => s
  | .buf b => utf8Decode b

/-- One `{cipherType, key}` entry of a `details.layers` list. -/
structure LayerEntry where
  cipherType : CipherType
  key : Option KeyV
deriving DecidableEq

/-- The claim-relevant keys of the `details` record; the spread
`{...details, k: v}` is record update, and solver-specific metadata
keys not referenced by any claim are not tracked. -/
structure Details where
  qualityScore : Option PlaintextScore := none
  layers : Option (List LayerEntry) := none

structure CrackResult where
  plaintext : Str
  cipherType : CipherType
  confidence : ℝ
  key : Option KeyV := none
  details : Details := {}

structure CrackResponse where
  results : List CrackResult
  warnings : List Str

structure DetectionCandidate where
  cipherType : CipherType
  confidence : ℝ

structure SolverOptions where
  key : Option KeyIn := none
  iv : Option KeyIn := none
  maxResults : Option ℤ := none

structure EncryptOptions where
  key : Option KeyIn := none
  iv : Option KeyIn := none

structure EncryptResult where
  ciphertext : Str
  cipherType : CipherType
  key : Option KeyV := none

/-- The polymorphic solver contract (`types.ts` / `BaseSolver`):
`canEncrypt` defaults to `false`, `encrypt` is optional and may throw
(`Except`). -/
structure Solver where
  cipherType : CipherType
  solve : Str → SolverOptions → List CrackResult
  canEncrypt : Bool := false
  encrypt : Option (Str → EncryptOptions → Except Str EncryptResult) := none

/-- External collaborators of the core: the injected English word set
(`data/words.ts` is not among the sources) and the node:crypto
primitives used by the hash-lookup/AES/RSA solvers. -/
structure Env where
  words : Str → Bool
  md5hex : Str → Str
  sha1hex : Str → Str
  sha256hex : Str → Str
  aesDecryptCBC : (key : List ℕ) → (iv : List ℕ) → (data : List ℕ) → Option (List ℕ)
  aesEncryptCBC : (key : List ℕ) → (iv : List ℕ) → (data : List ℕ) → List ℕ
  rsaDecryptOAEP : (key : Str) → (data : List ℕ) → Option (List ℕ)
  rsaEncryptOAEP : (key : Str) → (data : List ℕ) → Option (List ℕ)

/-! ## detection/patterns.ts -/

/-- The regex class `[a-zA-Z\s]` (alphabetic text). -/
def isAlphaWs (c : Char) : Bool := isAlphaCh c || isWhite c

/-- The regex class `[a-zA-Z\s.,!?]` (alpha text with punctuation). -/
def isAlphaPunct (c : Char) : Bool :=
  isAlphaCh c || isWhite c || c = '.' || c = ',' || c = '!' || c = '?'

/-- `detectByPattern` (phase 1): shape tests pushing fixed-confidence
candidates, then a stable confidence-descending sort. -/
noncomputable def detectByPattern (t : Str) : List DetectionCandidate :=
  let trimmed := trim t
  let len := trimmed.length
  let base : List DetectionCandidate :=
    (if isMorseString trimmed ∧ len ≥ 3 then [⟨.morse, 0.9⟩] else []) ++
    (if isBinaryString trimmed ∧ len ≥ 8 then [⟨.binary, 0.85⟩] else []) ++
    (if hasUrlEncoding trimmed then [⟨.urlEncoding, 0.85⟩] else []) ++
    (if isHexString trimmed then
      (if len = 32 ∨ len = 40 ∨ len = 64 ∨ len = 128 then [⟨.hashLookup, 0.8⟩]
       else if len ≥ 2 then [⟨.hex, 0.7⟩] else [])
     else []) ++
    (if isBase32String trimmed ∧ len ≥ 8 then [⟨.base32, 0.7⟩] else []) ++
    (if isBase64String trimmed ∧ len ≥ 4 then
      [⟨.base64, if trimmed.getLast? = some '=' then 0.75 else 0.5⟩] else []) ++
    (if (trimmed ≠ [] ∧ trimmed.all isAlphaWs) ∧ len ≥ 5 then
      [⟨.rot13, 0.3⟩, ⟨.caesar, 0.3⟩, ⟨.atbash, 0.25⟩,
       ⟨.vigenere, 0.2⟩, ⟨.substitution, 0.15⟩] else [])
  let cands := base ++
    (if ((trimmed ≠ [] ∧ trimmed.all isAlphaPunct) ∧ len ≥ 10) ∧
        ¬ base.any (·.cipherType = CipherType.railFence) then
      [⟨.railFence, 0.15⟩, ⟨.columnarTransposition, 0.15⟩] else [])
  sortGeB (fun a b => rGe a.confidence b.confidence) cands

/-- The merge step of `detect`: per cipher type keep the maximum
confidence; a JS `Map.set` on an existing key keeps its insertion
position. -/
noncomputable def mergeCands (l : List DetectionCandidate) : List DetectionCandidate :=
  l.foldl (fun acc c =>
    if acc.any (·.cipherType = c.cipherType) then
      acc.map fun e =>
        if e.cipherType = c.cipherType ∧ rGe c.confidence e.confidence ∧
            e.confidence ≠ c.confidence then c else e
    else acc ++ [c]) []

/-! ## detection/detector.ts -/

/-- `detect`: pattern phase, statistical phase (gated on alpha ratio
`> 0.7` and length `≥ 20`), merge, and a final stable sort. -/
noncomputable def detect (ciphertext : Str) : List DetectionCandidate :=
  if trim ciphertext = [] then []
  else
    let trimmed := trim ciphertext
    let patternCands := detectByPattern trimmed
    let charset := analyzeCharset trimmed
    let statCands : List DetectionCandidate :=
      if charset.alphaRatio > 0.7 ∧ charset.totalChars ≥ 20 then
        (match classifyByIoC trimmed with
         | .poly =>
            [⟨.vigenere, min 0.7 (0.3 + ((kasiskiExamination trimmed 20).length : ℝ) * 0.05)⟩]
         | .mono =>
            [⟨.caesar, 0.4⟩, ⟨.substitution, 0.35⟩, ⟨.rot13, 0.3⟩, ⟨.atbash, 0.25⟩]
         | .unknownC => []) ++
        (if shannonEntropy trimmed > 5 then [⟨.xor, 0.2⟩] else [])
      else []
    sortGeB (fun a b => rGe a.confidence b.confidence)
      (mergeCands (patternCands ++ statCands))

end CodeCracker

namespace CodeCracker

/-! ## solvers/classic: Vigenere machinery -/

/-- `VigenereSolver.decrypt`: letters shift by the next key letter
(`keyIndex` advances only on letters); other characters pass through. -/
def vigenereDecrypt (text key : Str) : Str :=
  (text.foldl (fun (acc : Str × ℕ) ch =>
    if isUpperCh ch then
      let shift := (code (key.getD (acc.2 % key.length) 'a') : ℤ) - 97
      (acc.1 ++ [Char.ofNat ((jsMod ((code ch : ℤ) - 65 - shift) 26).toNat + 65)], acc.2 + 1)
    else if isLowerCh ch then
      let shift := (code (key.getD (acc.2 % key.length) 'a') : ℤ) - 97
      (acc.1 ++ [Char.ofNat ((jsMod ((code ch : ℤ) - 97 - shift) 26).toNat + 97)], acc.2 + 1)
    else (acc.1 ++ [ch], acc.2)) ([], 0)).1

/-- `Infinity`-aware strict order for the chi-squared minimisation
(`none` is `Infinity`). -/
def ltInf (a b : Option ℚ) : Bool :=
  match a, b with
  | some x, some y => x < y
  | some _, none => true
  | none, _ => false

/-- `VigenereSolver.findKeyByFrequencyAnalysis`: per column, the shift
minimising chi-squared against English (strict improvement, first
minimum wins, initial best shift 0). -/
def findKeyByFrequencyAnalysis (text : Str) (keyLength : ℕ) : Str :=
  (List.range keyLength).map fun col =>
    let column := (text.enum.filter fun p => p.1 % keyLength = col % keyLength ∧
      keyLength ∣ (p.1 - col) ∧ col ≤ p.1).map (·.2)
    let best := (List.range 26).foldl (fun (acc : ℕ × Option ℚ) (shift : ℕ) =>
      let decrypted := column.map fun ch =>
        Char.ofNat ((jsMod ((code ch : ℤ) - 97 - (shift : ℤ)) 26).toNat + 97)
      let chi := chiSquaredVsEnglish decrypted
      if ltInf chi acc.2 then (shift, chi) else acc) (0, none)
    Char.ofNat (best.1 + 97)

/-- `VigenereSolver.kasiskiExamination` (the solver's own copy):
factors `2..20`, fallback `[2..10]`, top 8 by count. -/
def vigKasiski (text : Str) : List ℕ :=
  let n := text.length - 2
  let triAt := fun i => (text.drop i).take 3
  let tris := firstDedup ((List.range n).map triAt)
  let distances := tris.flatMap fun t =>
    let positions := (List.range n).filter fun i => (triAt i).beq t
    positions.flatMap fun i =>
      (positions.filter (fun j => i < j)).map fun j => j - i
  if distances = [] then [2, 3, 4, 5, 6, 7, 8, 9, 10]
  else
    let factorCounts := distances.foldl (fun acc d =>
      (((List.range' 2 19).filter fun f => d % f = 0)).foldl assocIncr acc) []
    ((sortGeB (fun a b => b.2 ≤ a.2) factorCounts).take 8).map (·.1)

/-! ## solvers/classic: substitution machinery -/

def ENGLISH_FREQ_ORDER : Str := str "etaoinshrdlcumwfgypbvkjxqz"

/-- The frequency-analysis mapping: ciphertext letters sorted by count
descending (stable, so ties stay in alphabet order), paired with the
English frequency order. -/
def frequencyAnalysisMapping (ciphertext : Str) : List (Char × Char) :=
  let counts := letterCounts ciphertext
  let cipherFreq := (List.range 26).map fun i => (Char.ofNat (97 + i), counts.getD i 0)
  let sorted := sortGeB (fun a b => b.2 ≤ a.2) cipherFreq
  (List.range 26).map fun i =>
    ((sorted.getD i ('a', 0)).1, ENGLISH_FREQ_ORDER.getD i 'e')

/-- Case-preserving application of a letter-to-letter mapping
(`decryptWithMapping`; `ch === ch.toUpperCase()` selects the case). -/
def applyCharMapping (lookup : Char → Option Char) (text : Str) : Str :=
  text.map fun ch =>
    match lookup (toLowerCh ch) with
    | some mapped => if toUpperCh ch = ch then toUpperCh mapped else mapped
    | none => ch

/-- `decryptWithAlphabet`: the reverse map of a 26-letter key alphabet;
a JS `Map.set` with a duplicate key overwrites, so the *last* position
of a letter wins. -/
def substDecryptWithAlphabet (text keyAlphabet : Str) : Str :=
  applyCharMapping (fun lower =>
    ((List.range 26).reverse.find? fun i => keyAlphabet.getD i '?' = lower).map
      fun i => Char.ofNat (97 + i)) text

/-- `mappingToAlphabet`: for each plain letter, the cipher letter that
maps to it (`'?'` when none does). -/
def mappingToAlphabet (mapping : List (Char × Char)) : Str :=
  (List.range 26).map fun i =>
    match mapping.find? (fun p => p.2 = Char.ofNat (97 + i)) with
    | some p => p.1
    | none => '?'

/-! ## solvers/classic: Playfair machinery -/

/-- Build the 5x5 grid (flattened): deduplicated key letters (J merged
into I), then the rest of the alphabet without J. -/
def playfairGrid (key : Str) : Str :=
  let normalized := (toUpperStr key).map fun c => if c = 'J' then 'I' else c
  let keyLetters := firstDedup (normalized.filter fun c => 65 ≤ code c && code c ≤ 90)
  keyLetters ++ ((List.range 26).map fun i => Char.ofNat (65 + i)).filter
    fun c => c ≠ 'J' ∧ c ∉ keyLetters

/-- `decrypt`: clean to A-Z with J merged, then digraph rules
(same row: left; same column: up; rectangle: swap columns), lowercased. -/
def playfairDecrypt (ciphertext key : Str) : Str :=
  let grid := playfairGrid key
  let pos := fun c => ((grid.findIdx? (· = c)).getD 0 / 5, (grid.findIdx? (· = c)).getD 0 % 5)
  let at5 := fun r c => grid.getD (r * 5 + c) 'A'
  let clean := ((toUpperStr ciphertext).map fun c => if c = 'J' then 'I' else c).filter
    fun c => 65 ≤ code c && code c ≤ 90
  let pairs := (List.range (clean.length / 2)).filterMap fun k =>
    if 2 * k + 1 ≤ clean.length - 1 then
      some (clean.getD (2 * k) 'A', clean.getD (2 * k + 1) 'A')
    else none
  toLowerStr (pairs.flatMap fun p =>
    let ra := (pos p.1).1
    let ca := (pos p.1).2
    let rb := (pos p.2).1
    let cb := (pos p.2).2
    if ra = rb then [at5 ra ((ca + 4) % 5), at5 rb ((cb + 4) % 5)]
    else if ca = cb then [at5 ((ra + 4) % 5) ca, at5 ((rb + 4) % 5) cb]
    else [at5 ra cb, at5 rb ca])

end CodeCracker

namespace CodeCracker

/-! ## The eighteen built-in solvers -/

/-- `CaesarSolver.solve`: brute-force shifts 1..25, score, sort by
score descending (stable), slice to `maxResults` (default 5). -/
noncomputable def caesarSolve (env : Env) (ct : Str) (opts : SolverOptions) : List CrackResult :=
  let maxResults := opts.maxResults.getD 5
  let scored := (List.range' 1 25).map fun shift =>
    let p := caesarDecrypt ct (shift : ℤ)
    (p, (scorePlaintext env.words p).total, shift)
  let sorted := sortGeB (fun a b => rGe a.2.1 b.2.1) scored
  (jsSliceEnd maxResults sorted).map fun t =>
    { plaintext := t.1, cipherType := .caesar, confidence := t.2.1,
      key := some (.num (t.2.2 : ℤ)) }

/-- `CaesarSolver.encrypt`: numeric key (default 3), `NaN` throws. -/
noncomputable def caesarEncryptOp (_env : Env) (plaintext : Str) (opts : EncryptOptions) :
    Except Str EncryptResult :=
  let shiftOpt : Option ℤ :=
    match opts.key with
    | none => some 3
    | some (.strv []) => some 3
    | some k => parseIntBase10 k.asString
  match shiftOpt with
  | none => .error (str "Cipher 'caesar' requires a numeric key for encryption")
  | some shift =>
    .ok { ciphertext := caesarEncrypt plaintext shift, cipherType := .caesar,
          key := some (.num shift) }

noncomputable def caesarSolver (env : Env) : Solver :=
  { cipherType := .caesar, solve := caesarSolve env, canEncrypt := true,
    encrypt := some (caesarEncryptOp env) }

noncomputable def rot13Solver (env : Env) : Solver :=
  { cipherType := .rot13
    solve := fun ct _ =>
      let p := rot13 ct
      [{ plaintext := p, cipherType := .rot13,
         confidence := (scorePlaintext env.words p).total, key := some (.num 13) }]
    canEncrypt := true
    encrypt := some fun p _ =>
      .ok { ciphertext := rot13 p, cipherType := .rot13, key := some (.num 13) } }

noncomputable def atbashSolver (env : Env) : Solver :=
  { cipherType := .atbash
    solve := fun ct _ =>
      let p := atbash ct
      [{ plaintext := p, cipherType := .atbash,
         confidence := (scorePlaintext env.words p).total }]
    canEncrypt := true
    encrypt := some fun p _ =>
      .ok { ciphertext := atbash p, cipherType := .atbash } }

/-- `VigenereSolver.solve`: known-key decryption, else Kasiski plus
per-column chi-squared key recovery (needs ten letters). -/
noncomputable def vigenereNoKey (env : Env) (ct : Str) (maxResults : ℤ) :
    List CrackResult :=
  let alphaChars := toLowerStr (ct.filter isAlphaCh)
  if alphaChars.length < 10 then []
  else
    let scored := (vigKasiski alphaChars).map fun keyLength =>
      let key := findKeyByFrequencyAnalysis alphaChars keyLength
      let p := vigenereDecrypt ct key
      (p, (scorePlaintext env.words p).total, key)
    let sorted := sortGeB (fun a b => rGe a.2.1 b.2.1) scored
    (jsSliceEnd maxResults sorted).map fun t =>
      { plaintext := t.1, cipherType := .vigenere, confidence := t.2.1,
        key := some (.strv t.2.2) }

/-- `VigenereSolver.solve`: the `options?.key &&` check is falsy for
the empty string, so an empty-string key falls through to the keyless
Kasiski crack branch (`vigenereNoKey`), as does a numeric key. -/
noncomputable def vigenereSolve (env : Env) (ct : Str) (opts : SolverOptions) :
    List CrackResult :=
  let maxResults := opts.maxResults.getD 5
  match opts.key with
  | some (.strv k) =>
    if k ≠ [] then
      let key := toLowerStr k
      let p := vigenereDecrypt ct key
      [{ plaintext := p, cipherType := .vigenere,
         confidence := (scorePlaintext env.words p).total, key := some (.strv key) }]
    else
      vigenereNoKey env ct maxResults
  | _ => vigenereNoKey env ct maxResults

noncomputable def vigenereEncryptChar (keyCh : Char) (c : Char) : Char :=
  let shift := (code keyCh : ℤ) - 97
  if isUpperCh c then Char.ofNat ((jsMod ((code c : ℤ) - 65 + shift) 26).toNat + 65)
  else Char.ofNat ((jsMod ((code c : ℤ) - 97 + shift) 26).toNat + 97)

/-- Modelled from the spec: `VigenereSolver.encrypt` is declared by the
tests (`canEncrypt = true`, throws `requires a key` without one) but
its body is not among the sources; the natural inverse of
`VigenereSolver.decrypt` is used. -/
noncomputable def vigenereEncryptOp (_env : Env) (p : Str) (opts : EncryptOptions) :
    Except Str EncryptResult :=
  match opts.key with
  | some (.strv k) =>
    if k ≠ [] then
      let key := toLowerStr k
      let ciphertext := (p.foldl (fun (acc : Str × ℕ) ch =>
        if isAlphaCh ch then
          (acc.1 ++ [vigenereEncryptChar (key.getD (acc.2 % key.length) 'a') ch], acc.2 + 1)
        else (acc.1 ++ [ch], acc.2)) ([], 0)).1
      .ok { ciphertext := ciphertext, cipherType := .vigenere, key := some (.strv k) }
    else .error (str "Cipher 'vigenere' requires a key for encryption")
  | _ => .error (str "Cipher 'vigenere' requires a key for encryption")

noncomputable def vigenereSolver (env : Env) : Solver :=
  { cipherType := .vigenere, solve := vigenereSolve env, canEncrypt := true,
    encrypt := some (vigenereEncryptOp env) }

/-- The frequency-analysis plaintext of `SubstitutionSolver.solve`
without a key (named for reasoning; kept syntactically identical to the
inlined source expression). -/
def substNKPlain (ct : Str) : Str :=
  applyCharMapping (fun lower =>
    ((frequencyAnalysisMapping ct).find? (fun q => q.1 = lower)).map (·.2)) ct

/-- The keyless branch of `SubstitutionSolver.solve`: frequency
analysis produces one heuristic result whose key is the derived
26-letter alphabet. -/
noncomputable def substitutionNoKey (env : Env) (ct : Str) : List CrackResult :=
  let mapping := frequencyAnalysisMapping ct
  let p := applyCharMapping (fun lower => (mapping.find? (fun q => q.1 = lower)).map (·.2)) ct
  [{ plaintext := p, cipherType := .substitution,
     confidence := (scorePlaintext env.words p).total,
     key := some (.strv (mappingToAlphabet mapping)) }]

/-- `SubstitutionSolver.solve`: known 26-letter key, else the
frequency-analysis initial mapping. -/
noncomputable def substitutionSolve (env : Env) (ct : Str) (opts : SolverOptions) :
    List CrackResult :=
  match opts.key with
  | some (.strv k) =>
    if k ≠ [] ∧ k.length = 26 then
      let p := substDecryptWithAlphabet ct (toLowerStr k)
      [{ plaintext := p, cipherType := .substitution,
         confidence := (scorePlaintext env.words p).total, key := some (.strv k) }]
    else substitutionNoKey env ct
  | _ => substitutionNoKey env ct

/-- `SubstitutionSolver.encrypt`: forward map through the key alphabet. -/
noncomputable def substitutionEncryptOp (_env : Env) (p : Str) (opts : EncryptOptions) :
    Except Str EncryptResult :=
  match opts.key with
  | some (.strv k) =>
    if k ≠ [] ∧ k.length = 26 then
      let keyAlphabet := toLowerStr k
      let ciphertext := p.map fun ch =>
        let lowCode := code (toLowerCh ch)
        if 97 ≤ lowCode ∧ lowCode ≤ 122 then
          let mapped := keyAlphabet.getD (lowCode - 97) '?'
          if toUpperCh ch = ch then toUpperCh mapped else mapped
        else ch
      .ok { ciphertext := ciphertext, cipherType := .substitution, key := some (.strv k) }
    else .error (str "Cipher 'substitution' requires a 26-character key for encryption")
  | _ => .error (str "Cipher 'substitution' requires a 26-character key for encryption")

noncomputable def substitutionSolver (env : Env) : Solver :=
  { cipherType := .substitution, solve := substitutionSolve env, canEncrypt := true,
    encrypt := some (substitutionEncryptOp env) }

/-- `RailFenceSolver.solve`: rails 2..10 bounded by the text length. -/
noncomputable def railFenceSolve (env : Env) (ct : Str) (opts : SolverOptions) :
    List CrackResult :=
  let maxResults := opts.maxResults.getD 5
  let scored := ((List.range' 2 9).takeWhile (· < ct.length)).map fun rails =>
    let p := railDecrypt ct rails
    (p, (scorePlaintext env.words p).total, rails)
  let sorted := sortGeB (fun a b => rGe a.2.1 b.2.1) scored
  (jsSliceEnd maxResults sorted).map fun t =>
    { plaintext := t.1, cipherType := .railFence, confidence := t.2.1,
      key := some (.num (t.2.2 : ℤ)) }

/-- `RailFenceSolver.encrypt`: numeric key `≥ 2` (default 3). -/
noncomputable def railFenceEncryptOp (_env : Env) (p : Str) (opts : EncryptOptions) :
    Except Str EncryptResult :=
  let railsOpt : Option ℤ :=
    match opts.key with
    | none => some 3
    | some (.strv []) => some 3
    | some k => parseIntBase10 k.asString
  match railsOpt with
  | none => .error (str "Cipher 'rail-fence' requires a numeric key >= 2 for encryption")
  | some rails =>
    if rails < 2 then
      .error (str "Cipher 'rail-fence' requires a numeric key >= 2 for encryption")
    else
      .ok { ciphertext := railEncrypt p rails.toNat, cipherType := .railFence,
            key := some (.num rails) }

noncomputable def railFenceSolver (env : Env) : Solver :=
  { cipherType := .railFence, solve := railFenceSolve env, canEncrypt := true,
    encrypt := some (railFenceEncryptOp env) }

/-- `PlayfairSolver.solve`: requires a string key; one result. -/
noncomputable def playfairSolve (env : Env) (ct : Str) (opts : SolverOptions) :
    List CrackResult :=
  match opts.key with
  | some (.strv k) =>
    if k ≠ [] then
      let p := playfairDecrypt ct k
      [{ plaintext := p, cipherType := .playfair,
         confidence := (scorePlaintext env.words p).total, key := some (.strv k) }]
    else []
  | _ => []

/-- Standard Playfair digraph pairing with `'X'` filler. -/
def playfairPair : Str → List (Char × Char)
  | [] => []
  | [a] => [(a, 'X')]
  | a :: b :: rest =>
    if a = b then (a, 'X') :: playfairPair (b :: rest)
    else (a, b) :: playfairPair rest

/-- Modelled from the spec: `PlayfairSolver.encrypt` is exercised by
the tests (requires a key, inserts standard filler) but its body is
not among the sources; the standard Playfair digraph encryption with
`'X'` filler is used. -/
noncomputable def playfairEncryptOp (_env : Env) (p : Str) (opts : EncryptOptions) :
    Except Str EncryptResult :=
  match opts.key with
  | some (.strv k) =>
    if k ≠ [] then
      let grid := playfairGrid k
      let pos := fun c => ((grid.findIdx? (· = c)).getD 0 / 5, (grid.findIdx? (· = c)).getD 0 % 5)
      let at5 := fun r c => grid.getD (r * 5 + c) 'A'
      let clean := ((toUpperStr p).map fun c => if c = 'J' then 'I' else c).filter
        fun c => 65 ≤ code c && code c ≤ 90
      let digraphs := playfairPair clean
      let ciphertext := digraphs.flatMap fun pr =>
        let ra := (pos pr.1).1
        let ca := (pos pr.1).2
        let rb := (pos pr.2).1
        let cb := (pos pr.2).2
        if ra = rb then [at5 ra ((ca + 1) % 5), at5 rb ((cb + 1) % 5)]
        else if ca = cb then [at5 ((ra + 1) % 5) ca, at5 ((rb + 1) % 5) cb]
        else [at5 ra cb, at5 rb ca]
      .ok { ciphertext := ciphertext, cipherType := .playfair, key := some (.strv k) }
    else .error (str "Cipher 'playfair' requires a key for encryption")
  | _ => .error (str "Cipher 'playfair' requires a key for encryption")

noncomputable def playfairSolver (env : Env) : Solver :=
  { cipherType := .playfair, solve := playfairSolve env, canEncrypt := true,
    encrypt := some (playfairEncryptOp env) }

/-- `ColumnarTranspositionSolver.solve`: key lengths 2..10, exhaustive
permutations up to 7 columns, identity and reverse beyond. -/
noncomputable def columnarSolve (env : Env) (ct : Str) (opts : SolverOptions) :
    List CrackResult :=
  let maxResults := opts.maxResults.getD 5
  let scored := (List.range' 2 9).flatMap fun keyLength =>
    let perms :=
      if keyLength ≤ 7 then generatePermutations keyLength
      else [List.range keyLength, (List.range keyLength).reverse]
    perms.map fun perm =>
      let p := columnarDecrypt ct perm
      (p, (scorePlaintext env.words p).total, keyLength)
  let sorted := sortGeB (fun a b => rGe a.2.1 b.2.1) scored
  (jsSliceEnd maxResults sorted).map fun t =>
    { plaintext := t.1, cipherType := .columnarTransposition, confidence := t.2.1,
      key := some (.num (t.2.2 : ℤ)) }

/-- `ColumnarTranspositionSolver.encrypt`: keyword-derived permutation. -/
noncomputable def columnarEncryptOp (_env : Env) (p : Str) (opts : EncryptOptions) :
    Except Str EncryptResult :=
  match opts.key with
  | some (.strv k) =>
    if k ≠ [] then
      .ok { ciphertext := columnarEncrypt p (columnarKeyPerm k),
            cipherType := .columnarTransposition,
            key := some (.strv k) }
    else .error (str "Cipher 'columnar-transposition' requires a key for encryption")
  | _ => .error (str "Cipher 'columnar-transposition' requires a key for encryption")

noncomputable def columnarSolver (env : Env) : Solver :=
  { cipherType := .columnarTransposition, solve := columnarSolve env, canEncrypt := true,
    encrypt := some (columnarEncryptOp env) }

end CodeCracker

namespace CodeCracker

/-! ## solvers/encoding -/

/-- The solvers' own base64 shape test `/^[A-Za-z0-9+/]+=*$/` (any
number of trailing `'='`, unlike the detector's `{0,2}`). -/
def b64ShapeStar (t : Str) : Bool :=
  let p := trailingEq t
  t.length > p && (t.take (t.length - p)).all isB64Ch

/-- `Base64Solver.solve`. -/
def base64Solve (ct : Str) (_ : SolverOptions) : List CrackResult :=
  let input := trim ct
  if ¬ (input.length ≠ 0 ∧ input.length % 4 = 0 ∧ b64ShapeStar input) then []
  else
    let decoded := utf8Decode (base64DecodeBytes input)
    if decoded.length = 0 then []
    else if solverPrintableRatio decoded < 0.8 then []
    else
      [{ plaintext := decoded, cipherType := .base64,
         confidence := ((min (solverPrintableRatio decoded) 1 : ℚ) : ℝ) }]

def base64Solver : Solver :=
  { cipherType := .base64, solve := base64Solve, canEncrypt := true,
    encrypt := some fun p _ =>
      .ok { ciphertext := base64Encode (utf8Encode p), cipherType := .base64 } }

/-- The base32 solver's shape test `/^[A-Z2-7]+=*$/` (applied after
uppercasing, so plain `[A-Z2-7]`). -/
def b32ShapeStar (t : Str) : Bool :=
  let p := trailingEq t
  t.length > p && (t.take (t.length - p)).all fun c =>
    (65 ≤ code c && code c ≤ 90) || (50 ≤ code c && code c ≤ 55)

/-- `Base32Solver.solve`. -/
def base32Solve (ct : Str) (_ : SolverOptions) : List CrackResult :=
  let input := toUpperStr (trim ct)
  if ¬ (input.length ≠ 0 ∧ input.length % 8 = 0 ∧ b32ShapeStar input) then []
  else
    match base32DecodeBytes input with
    | none => []
    | some bytes =>
      let decoded := utf8Decode bytes
      if decoded.length = 0 then []
      else if solverPrintableRatio decoded < 0.8 then []
      else
        [{ plaintext := decoded, cipherType := .base32,
           confidence := ((min (solverPrintableRatio decoded) 1 : ℚ) : ℝ) }]

def base32Solver : Solver :=
  { cipherType := .base32, solve := base32Solve, canEncrypt := true,
    encrypt := some fun p _ =>
      .ok { ciphertext := base32Encode (utf8Encode p), cipherType := .base32 } }

/-- `HexSolver.solve` (input is whitespace-stripped first). -/
def hexSolve (ct : Str) (_ : SolverOptions) : List CrackResult :=
  let input := (trim ct).filter (!isWhite ·)
  if ¬ ((input.length ≠ 0 ∧ input.length % 2 = 0) ∧ input.all isHexDigitCh) then []
  else
    let decoded := utf8Decode (hexDecodeBytes input)
    if decoded.length = 0 then []
    else if solverPrintableRatio decoded < 0.8 then []
    else
      [{ plaintext := decoded, cipherType := .hex,
         confidence := ((min (solverPrintableRatio decoded) 1 : ℚ) : ℝ) }]

/-- Modelled from the spec: `HexSolver.encrypt` is exercised by the
tests (`'Hello World'` encodes to lowercase hex) but its body is not
among the sources. -/
def hexSolver : Solver :=
  { cipherType := .hex, solve := hexSolve, canEncrypt := true,
    encrypt := some fun p _ =>
      .ok { ciphertext := hexEncode (utf8Encode p), cipherType := .hex } }

/-- `BinarySolver.solve` (`/^[01\s]+$/` on the trimmed input). -/
def binarySolve (ct : Str) (_ : SolverOptions) : List CrackResult :=
  let input := trim ct
  if ¬ (input ≠ [] ∧ input.all fun c => c = '0' || c = '1' || isWhite c) then []
  else
    let decoded := binaryDecode input
    if decoded.length = 0 then []
    else if solverPrintableRatio decoded < 0.8 then []
    else
      [{ plaintext := decoded, cipherType := .binary,
         confidence := ((min (solverPrintableRatio decoded) 1 : ℚ) : ℝ) }]

/-- Modelled from the spec: `BinarySolver.encrypt` is exercised by the
tests (`'Hi'` encodes to `'01001000 01101001'`) but its body is not
among the sources: 8-bit groups joined by single spaces. -/
def binarySolver : Solver :=
  { cipherType := .binary, solve := binarySolve, canEncrypt := true,
    encrypt := some fun p _ =>
      .ok { ciphertext := (((utf8Encode p).map (fun b => (bitsOfNat 8 b).map
              fun bit => if bit then '1' else '0')).intersperse (str " ")).flatten
            cipherType := .binary } }

/-- `UrlEncodingSolver.solve`. -/
def urlSolve (ct : Str) (_ : SolverOptions) : List CrackResult :=
  let input := trim ct
  if ¬ (input ≠ [] ∧ hasUrlEncoding input) then []
  else
    match urlDecode input with
    | none => []
    | some decoded =>
      if decoded = input then []
      else if decoded.length = 0 then []
      else if solverPrintableRatio decoded < 0.8 then []
      else
        [{ plaintext := decoded, cipherType := .urlEncoding,
           confidence := ((min (solverPrintableRatio decoded) 1 : ℚ) : ℝ) }]

def urlSolver : Solver :=
  { cipherType := .urlEncoding, solve := urlSolve, canEncrypt := true,
    encrypt := some fun p _ =>
      .ok { ciphertext := encodeURIComponent p, cipherType := .urlEncoding } }

/-- `MorseSolver.solve` (`/^[.\-\s/]+$/` on the trimmed input). -/
def morseSolve (ct : Str) (_ : SolverOptions) : List CrackResult :=
  let input := trim ct
  if ¬ (input ≠ [] ∧ input.all fun c => c = '.' || c = '-' || isWhite c || c = '/') then []
  else
    let decoded := decodeMorse input
    if decoded.length = 0 then []
    else if solverPrintableRatio decoded < 0.8 then []
    else
      [{ plaintext := decoded, cipherType := .morse,
         confidence := ((min (solverPrintableRatio decoded) 1 : ℚ) : ℝ) }]

def morseSolver : Solver :=
  { cipherType := .morse, solve := morseSolve, canEncrypt := true,
    encrypt := some fun p _ =>
      .ok { ciphertext := encodeMorse p, cipherType := .morse } }

/-! ## solvers/modern -/

/-- `XorSolver.toBytes`: hex-decode if the whitespace-stripped input
looks like hex, else the UTF-8 bytes of the (trimmed) input. -/
def xorToBytes (input : Str) : List ℕ :=
  let stripped := input.filter (!isWhite ·)
  if (stripped.length ≠ 0 ∧ stripped.length % 2 = 0) ∧ stripped.all isHexDigitCh then
    hexDecodeBytes stripped
  else utf8Encode input

def xorWithKey (data key : List ℕ) : List ℕ :=
  data.enum.map fun p => Nat.xor p.2 (key.getD (p.1 % key.length) 0)

/-- `XorSolver.decryptWithKey`. -/
noncomputable def xorDecryptWithKey (env : Env) (inputBytes : List ℕ) (key : KeyIn) :
    List CrackResult :=
  let keyBytes := match key with | .buf b => b | .strv s => utf8Encode s
  if keyBytes.length = 0 then []
  else
    let plaintext := utf8Decode (xorWithKey inputBytes keyBytes)
    let keyDisplay := match key with | .buf b => hexEncode b | .strv s => s
    [{ plaintext := plaintext, cipherType := .xor,
       confidence := (scorePlaintext env.words plaintext).total,
       key := some (.strv keyDisplay) }]

/-- `XorSolver.bruteForceSingleByte`: keys `0x01..0xff`, score, top 5. -/
noncomputable def xorBruteForce (env : Env) (inputBytes : List ℕ) : List CrackResult :=
  let candidates := (List.range' 1 255).map fun keyByte =>
    let plaintext := utf8Decode (inputBytes.map fun b => Nat.xor b keyByte)
    (plaintext, (scorePlaintext env.words plaintext).total, keyByte)
  let sorted := sortGeB (fun a b => rGe a.2.1 b.2.1) candidates
  (sorted.take 5).map fun t =>
    { plaintext := t.1, cipherType := .xor, confidence := t.2.1,
      key := some (.strv ('0' :: 'x' :: hexEncode [t.2.2])) }

/-- `XorSolver.solve`. -/
noncomputable def xorSolve (env : Env) (ct : Str) (opts : SolverOptions) : List CrackResult :=
  let input := trim ct
  if input.length = 0 then []
  else
    let inputBytes := xorToBytes input
    if inputBytes.length = 0 then []
    else
      match opts.key with
      | none => xorBruteForce env inputBytes
      | some (.strv []) => xorBruteForce env inputBytes
      | some k => xorDecryptWithKey env inputBytes k

/-- Modelled from the spec: `XorSolver.encrypt` is exercised by the
tests (requires a key, round-trips through hex input) but its body is
not among the sources: XOR with the key bytes, hex-encoded. -/
noncomputable def xorSolver (env : Env) : Solver :=
  { cipherType := .xor, solve := xorSolve env, canEncrypt := true,
    encrypt := some fun p opts =>
      match opts.key with
      | some (.strv k) =>
        if k ≠ [] then
          .ok { ciphertext := hexEncode (xorWithKey (utf8Encode p) (utf8Encode k)),
                cipherType := .xor, key := some (.strv k) }
        else .error (str "Cipher 'xor' requires a key for encryption")
      | some (.buf b) =>
        if b ≠ [] then
          .ok { ciphertext := hexEncode (xorWithKey (utf8Encode p) b),
                cipherType := .xor, key := some (.strv (hexEncode b)) }
        else .error (str "Cipher 'xor' requires a key for encryption")
      | none => .error (str "Cipher 'xor' requires a key for encryption") }

end CodeCracker

namespace CodeCracker

/-- The fixed password dictionary of `hash-lookup.ts`. -/
def COMMON_PASSWORDS : List Str :=
  [str "password", str "123456", str "12345678", str "1234", str "qwerty",
   str "12345", str "dragon", str "pussy", str "baseball", str "football",
   str "letmein", str "monkey", str "abc123", str "mustang", str "michael",
   str "shadow", str "master", str "jennifer", str "111111", str "2000",
   str "jordan", str "superman", str "harley", str "1234567", str "fuckme",
   str "hunter", str "fuckyou", str "trustno1", str "ranger", str "buster",
   str "thomas", str "tigger", str "robert", str "soccer", str "fuck",
   str "batman", str "test", str "pass", str "killer", str "hockey",
   str "george", str "charlie", str "andrew", str "michelle", str "love",
   str "sunshine", str "jessica", str "asshole", str "6969", str "pepper",
   str "daniel", str "access", str "123456789", str "654321", str "joshua",
   str "maggie", str "starwars", str "silver", str "william", str "dallas",
   str "yankees", str "123123", str "ashley", str "666666", str "hello",
   str "amanda", str "orange", str "biteme", str "freedom", str "computer",
   str "sexy", str "thunder", str "nicole", str "ginger", str "heather",
   str "hammer", str "summer", str "corvette", str "taylor", str "fucker",
   str "austin", str "1111", str "merlin", str "matthew", str "121212",
   str "golfer", str "cheese", str "princess", str "martin", str "chelsea",
   str "patrick", str "richard", str "diamond", str "yellow", str "bigdog",
   str "secret", str "asdfgh", str "sparky", str "cowboy", str "camaro",
   str "matrix", str "falcon", str "iloveyou", str "guitar", str "purple",
   str "scooter", str "phoenix", str "aaaaaa", str "tigers", str "cougar",
   str "chicken", str "beaver", str "eagle", str "mercedes", str "sam",
   str "winner", str "admin", str "root", str "administrator", str "guest",
   str "welcome", str "login", str "changeme", str "passw0rd", str "p@ssword",
   str "p@ssw0rd", str "default", str "qwerty123", str "letmein1",
   str "password1", str "password123", str "1q2w3e", str "1q2w3e4r",
   str "qazwsx", str "zxcvbn", str "zxcvbnm", str "asdfghjkl", str "qwerty1",
   str "abc", str "abcdef", str "abcd1234", str "iloveu", str "monkey1",
   str "dragon1", str "master1", str "apple", str "banana", str "coffee",
   str "cookie", str "internet", str "whatever", str "nothing",
   str "something", str "people", str "friend", str "angel", str "angel1",
   str "baby", str "pretty", str "lovely", str "soccer1", str "hockey1",
   str "football1", str "baseball1", str "trustno", str "maria",
   str "thomas1", str "qwe123", str "159753", str "147258", str "321654",
   str "letmein2", str "charlie1", str "midnight", str "flower",
   str "jasmine", str "butterfly", str "shadow1", str "killer1",
   str "buster1", str "happy", str "happy1", str "friday", str "monday",
   str "junior", str "senior", str "yankee", str "dragon12", str "mike",
   str "james", str "david", str "kevin", str "steven", str "pepper1",
   str "power", str "family", str "music", str "ninja", str "pirate",
   str "zombie", str "princess1", str "diamond1", str "gold",
   str "platinum", str "blahblah", str "password2", str "hello1",
   str "world", str "helloworld"]

/-- `HashLookupSolver.solve`: lowercase hex digest, algorithm by
length (32→MD5, 40→SHA1, 64→SHA256), first dictionary password whose
digest matches, confidence 0.99. -/
def hashLookupSolve (env : Env) (ct : Str) (_ : SolverOptions) : List CrackResult :=
  let input := toLowerStr (trim ct)
  if ¬ (input ≠ [] ∧ input.all fun c => isDigitCh c || ('a' ≤ c ∧ c ≤ 'f')) then []
  else
    let hashFn : Option (Str → Str) :=
      if input.length = 32 then some env.md5hex
      else if input.length = 40 then some env.sha1hex
      else if input.length = 64 then some env.sha256hex
      else none
    match hashFn with
    | none => []
    | some h =>
      match COMMON_PASSWORDS.find? (fun pw => h pw = input) with
      | none => []
      | some pw =>
        [{ plaintext := pw, cipherType := .hashLookup, confidence := 0.99 }]

def hashLookupSolver (env : Env) : Solver :=
  { cipherType := .hashLookup, solve := hashLookupSolve env, canEncrypt := false }

/-- `AesSolver.toKeyBuffer`: a 64-hex-char string is hex-decoded,
anything else is taken as raw UTF-8; a Buffer passes through. -/
def aesToKeyBuffer : KeyIn → List ℕ
  | .buf b => b
  | .strv s =>
    if s.length = 64 ∧ s.all isHexDigitCh then hexDecodeBytes s
    else utf8Encode s

/-- `AesSolver.tryBase64Decode` (shape check then decode). -/
def aesTryBase64Decode (input : Str) : Option (List ℕ) :=
  if b64ShapeStar (input.filter (!isWhite ·)) then
    some (base64DecodeBytes input)
  else none

/-- `AesSolver.tryHexDecode`. -/
def aesTryHexDecode (input : Str) : Option (List ℕ) :=
  let stripped := input.filter (!isWhite ·)
  if stripped.length = 0 ∨ stripped.length % 2 ≠ 0 then none
  else if ¬ stripped.all isHexDigitCh then none
  else some (hexDecodeBytes stripped)

/-- `AesSolver.tryDecrypt`: `if (iv)` treats the empty string as an
absent IV (extracted from the first 16 ciphertext bytes), and
`Buffer.from(iv, 'hex')` stops decoding at the first invalid pair. -/
def aesTryDecrypt (env : Env) (bytes? : Option (List ℕ)) (key : List ℕ)
    (iv : Option KeyIn) : Option CrackResult :=
  match bytes? with
  | none => none
  | some ctBytes =>
    if ctBytes.length = 0 then none
    else
      let extracted : Option (List ℕ × List ℕ) :=
        if ctBytes.length < 17 then none
        else some (ctBytes.take 16, ctBytes.drop 16)
      let ivData : Option (List ℕ × List ℕ) :=
        match iv with
        | some (.buf b) => some (b, ctBytes)
        | some (.strv s) =>
          if s = [] then extracted else some (hexDecodeBytes s, ctBytes)
        | none => extracted
      match ivData with
      | none => none
      | some (ivBuf, encData) =>
        if ivBuf.length ≠ 16 then none
        else if encData.length = 0 ∨ encData.length % 16 ≠ 0 then none
        else
          match env.aesDecryptCBC key ivBuf encData with
          | none => none
          | some dec =>
            let plaintext := utf8Decode dec
            if plaintext.length = 0 then none
            else if solverPrintableRatio plaintext < 0.8 then none
            else
              some { plaintext := plaintext, cipherType := .aes,
                     confidence := ((min (solverPrintableRatio plaintext) 1 : ℚ) : ℝ) }

/-- `AesSolver.solve`. -/
def aesSolve (env : Env) (ct : Str) (opts : SolverOptions) : List CrackResult :=
  match opts.key with
  | none => []
  | some key =>
    let input := trim ct
    if input.length = 0 then []
    else
      let keyBuffer := aesToKeyBuffer key
      if keyBuffer.length ≠ 32 then []
      else
        let r1 := aesTryDecrypt env (aesTryBase64Decode input) keyBuffer opts.iv
        let r2 := aesTryDecrypt env (aesTryHexDecode input) keyBuffer opts.iv
        (r1.toList) ++ (r2.toList)

/-- Modelled from the spec: `AesSolver.encrypt` is exercised by the
tests but its body is not among the sources; AES-256-CBC with the
given key and IV over the UTF-8 plaintext, base64 output. -/
def aesSolver (env : Env) : Solver :=
  { cipherType := .aes, solve := aesSolve env, canEncrypt := true,
    encrypt := some fun p opts =>
      match opts.key, opts.iv with
      | some key, some iv =>
        let keyBuffer := aesToKeyBuffer key
        let ivBuf := match iv with
          | .buf b => b
          | .strv s => hexDecodeBytes (s.filter isHexDigitCh)
        if keyBuffer.length ≠ 32 then
          .error (str "AES encryption requires a 32-byte key")
        else if ivBuf.length ≠ 16 then
          .error (str "AES encryption requires a 16-byte IV")
        else
          .ok { ciphertext := base64Encode
                  (ivBuf ++ env.aesEncryptCBC keyBuffer ivBuf (utf8Encode p)),
                cipherType := .aes }
      | _, _ => .error (str "Cipher 'aes' requires a key for encryption") }

/-- `RsaSolver.solve`: requires a key, base64-decodes the input,
OAEP-decrypts (`privateDecrypt` throwing models as `none`), and
returns a nonempty plaintext at fixed confidence 0.95. -/
def rsaSolve (env : Env) (ct : Str) (opts : SolverOptions) : List CrackResult :=
  match opts.key with
  | none => []
  | some key =>
    let input := trim ct
    if input.length = 0 then []
    else
      let encryptedData := base64DecodeBytes input
      if encryptedData.length = 0 then []
      else
        let keyStr := match key with | .strv s => s | .buf b => utf8Decode b
        match env.rsaDecryptOAEP keyStr encryptedData with
        | none => []
        | some dec =>
          let plaintext := utf8Decode dec
          if plaintext.length = 0 then []
          else
            [{ plaintext := plaintext, cipherType := .rsa, confidence := 0.95 }]

/-- `RsaSolver`: `encrypt` throws without a key, else OAEP-encrypts
the UTF-8 plaintext and emits base64 (an `publicEncrypt` throw models
as `none`). -/
def rsaSolver (env : Env) : Solver :=
  { cipherType := .rsa, solve := rsaSolve env, canEncrypt := true,
    encrypt := some fun p opts =>
      match opts.key with
      | none => .error (str "Cipher 'rsa' requires a public key for encryption")
      | some key =>
        let keyStr := match key with | .strv s => s | .buf b => utf8Decode b
        match env.rsaEncryptOAEP keyStr (utf8Encode p) with
        | none => .error (str "RSA encryption failed")
        | some bytes => .ok { ciphertext := base64Encode bytes, cipherType := .rsa } }

/-! ## registry.ts and the builtin registration -/

/-- The `builtinSolvers` registration list of `index.ts`, in source
order. -/
noncomputable def builtinSolvers (env : Env) : List Solver :=
  [ caesarSolver env, rot13Solver env, atbashSolver env, vigenereSolver env,
    substitutionSolver env, railFenceSolver env, playfairSolver env,
    columnarSolver env,
    base64Solver, base32Solver, hexSolver, binarySolver, urlSolver, morseSolver,
    xorSolver env, hashLookupSolver env, aesSolver env, rsaSolver env ]

/-- `registry.ts`: the solver `Map` keyed by `cipherType`.  A
registry state is the list of registered solvers (one per type);
`getSolver` is lookup by type. -/
def getSolverIn (solvers : List Solver) (t : CipherType) : Option Solver :=
  solvers.find? (fun s => s.cipherType = t)

/-- `getSolver` after the `index.ts` bootstrap has registered the
builtins (each has a distinct `cipherType`, so find-by-type is the
`Map` semantics). -/
noncomputable def getSolver (env : Env) (t : CipherType) : Option Solver :=
  getSolverIn (builtinSolvers env) t

end CodeCracker

namespace CodeCracker

/-! ## cracker.ts -/

/-- Noncomputable boolean `b < a` on reals (strict comparisons of the
orchestrator). -/
noncomputable def rGt (a b : ℝ) : Bool := @decide (b < a) (Classical.propDecidable _)

/-- `CrackOptions`: `SolverOptions` plus the three orchestrator knobs,
each optional (with destructuring defaults `10`, `3`, `0.01`). -/
structure CrackOptions where
  key : Option KeyIn := none
  iv : Option KeyIn := none
  maxResults : Option ℤ := none
  maxDepth : Option ℤ := none
  minConfidence : Option ℝ := none

/-- The `.filter` of `crack`: drop results under `minConfidence`, and
keep only the first result per trimmed plaintext (`seen` set). -/
noncomputable def crackFilter (minConf : ℝ) (seen : List Str) :
    List CrackResult → List CrackResult
  | [] => []
  | r :: rs =>
    if ¬ rGe r.confidence minConf then crackFilter minConf seen rs
    else if trim r.plaintext ∈ seen then crackFilter minConf seen rs
    else r :: crackFilter minConf (trim r.plaintext :: seen) rs

/-- One solver pass of `crack`'s candidate loop: run the solver for a
detection candidate and rescore each result with `finalConfidence`,
attaching the quality score to `details`. -/
noncomputable def candidateResults (env : Env) (ciphertext : Str)
    (solverOptions : SolverOptions) (cand : DetectionCandidate) : List CrackResult :=
  match getSolver env cand.cipherType with
  | none => []
  | some solver =>
    (solver.solve ciphertext solverOptions).map fun r =>
      let quality := scorePlaintext env.words r.plaintext
      { r with confidence := finalConfidence cand.confidence quality.total,
               details := { r.details with qualityScore := some quality } }

/-- `tryRecursiveDecode(results, options)`, parameterised by the
`crack` re-entry point: recursion on the top 3 results that are
neither high-confidence nor short; each inner result beating its
parent's confidence is pushed with a two-entry `layers` annotation
(overwriting any layers the inner result already carried), and the
final list is re-sorted. -/
noncomputable def tryRecursiveDecode (crackF : Str → CrackOptions → CrackResponse)
    (results : List CrackResult) (options : CrackOptions) : List CrackResult :=
  let enhanced := results ++ (results.take 3).flatMap fun r =>
    if rGt r.confidence 0.8 || r.plaintext.length < 4 then []
    else
      (crackF r.plaintext { options with maxResults := some 3 }).results.filterMap
        fun inner =>
          if rGt inner.confidence r.confidence then
            some { inner with details :=
              { inner.details with
                  layers := some [⟨r.cipherType, r.key⟩, ⟨inner.cipherType, inner.key⟩] } }
          else none
  sortGeB (fun a b => rGe a.confidence b.confidence) enhanced

/-- `crack` with an explicit recursion budget: the source recurses
through `tryRecursiveDecode` only when `maxDepth > 1`, passing
`maxDepth - 1` down, so a fuel of `maxDepth.toNat` is never
exhausted (the fuel-0 recursion branch returns the results
unchanged, and is unreachable from position `crack`). -/
noncomputable def crackGo (env : Env) (fuel : ℕ) (ciphertext : Str)
    (options : CrackOptions) : CrackResponse :=
  let maxResults : ℤ := options.maxResults.getD 10
  let maxDepth : ℤ := options.maxDepth.getD 3
  let minConfidence : ℝ := options.minConfidence.getD 0.01
  let solverOptions : SolverOptions := { key := options.key, iv := options.iv }
  if (trim ciphertext).length = 0 then
    { results := [], warnings := [str "Empty ciphertext provided"] }
  else
    let warnings : List Str :=
      if ciphertext.length < 20 then
        [str "Short input (< 20 chars) may produce unreliable results"]
      else []
    let candidates := detect ciphertext
    if candidates.length = 0 then
      { results := [], warnings := warnings ++ [str "No cipher type detected"] }
    else
      let allResults := candidates.flatMap (candidateResults env ciphertext solverOptions)
      let deduped := crackFilter minConfidence []
        (sortGeB (fun a b => rGe a.confidence b.confidence) allResults)
      let results := jsSliceEnd maxResults deduped
      let results :=
        if 1 < maxDepth then
          match fuel with
          | 0 => results
          | f + 1 =>
            tryRecursiveDecode (fun s o => crackGo env f s o) results
              { options with maxDepth := some (maxDepth - 1),
                             maxResults := some maxResults }
        else results
      { results := jsSliceEnd maxResults results, warnings := warnings }
termination_by fuel

/-- `crack(ciphertext, options)`. -/
noncomputable def crack (env : Env) (ciphertext : Str) (options : CrackOptions) :
    CrackResponse :=
  crackGo env (options.maxDepth.getD 3).toNat ciphertext options

/-- `decrypt(ciphertext, cipherType, options)` over a registry state:
throws when no solver is registered; otherwise scores each result
with the plaintext quality alone and sorts descending. -/
noncomputable def decryptIn (env : Env) (solvers : List Solver) (ciphertext : Str)
    (t : CipherType) (options : SolverOptions) : Except Str (List CrackResult) :=
  match getSolverIn solvers t with
  | none => .error (str "No solver registered for cipher type: " ++ str t.name)
  | some solver =>
    let results := (solver.solve ciphertext options).map fun r =>
      let quality := scorePlaintext env.words r.plaintext
      { r with confidence := quality.total,
               details := { r.details with qualityScore := some quality } }
    .ok (sortGeB (fun a b => rGe a.confidence b.confidence) results)

/-- `decrypt` with the builtin registry. -/
noncomputable def decryptOp (env : Env) (ciphertext : Str) (t : CipherType)
    (options : SolverOptions) : Except Str (List CrackResult) :=
  decryptIn env (builtinSolvers env) ciphertext t options

/-- `encrypt(plaintext, cipherType, options)` over a registry state:
throws on empty plaintext, a missing solver, or a solver without
encryption. -/
noncomputable def encryptIn (solvers : List Solver) (plaintext : Str) (t : CipherType)
    (options : EncryptOptions) : Except Str EncryptResult :=
  if plaintext.length = 0 then .error (str "Empty plaintext provided")
  else
    match getSolverIn solvers t with
    | none => .error (str "No solver registered for cipher type: " ++ str t.name)
    | some solver =>
      if solver.canEncrypt then
        match solver.encrypt with
        | some enc => enc plaintext options
        | none => .error (str "Cipher '" ++ str t.name ++ str "' does not support encryption")
      else .error (str "Cipher '" ++ str t.name ++ str "' does not support encryption")

/-- `encrypt` with the builtin registry. -/
noncomputable def encryptOp (env : Env) (plaintext : Str) (t : CipherType)
    (options : EncryptOptions) : Except Str EncryptResult :=
  encryptIn (builtinSolvers env) plaintext t options

end CodeCracker

namespace CodeCracker

/-! ## Verification infrastructure: fixtures and spec-side definitions -/

/-- A trivial instantiation of the external collaborators (empty word
set, trivial crypto primitives), used to state closed facts about the
pure parts of the pipeline. -/
def envTrivial : Env :=
  { words := fun _ => false
    md5hex := fun _ => []
    sha1hex := fun _ => []
    sha256hex := fun _ => []
    aesDecryptCBC := fun _ _ _ => none
    aesEncryptCBC := fun _ _ _ => []
    rsaDecryptOAEP := fun _ _ => none
    rsaEncryptOAEP := fun _ _ => none }

/-- The shape of a result produced by `crack`'s candidate loop: the
solver result for plaintext `p` rescored with detection confidence
`d`, with the quality score attached (proof abbreviation for the
counterexample evaluations). -/
noncomputable def mkRes (w : Str → Bool) (d : ℝ) (t : CipherType) (p : Str)
    (k : Option KeyV) : CrackResult :=
  { plaintext := p, cipherType := t,
    confidence := finalConfidence d (scorePlaintext w p).total,
    key := k,
    details := { qualityScore := some (scorePlaintext w p), layers := none } }

/-- `mkRes` with a `layers` annotation, as pushed by
`tryRecursiveDecode`. -/
noncomputable def mkResL (w : Str → Bool) (d : ℝ) (t : CipherType) (p : Str)
    (k : Option KeyV) (ls : List LayerEntry) : CrackResult :=
  { plaintext := p, cipherType := t,
    confidence := finalConfidence d (scorePlaintext w p).total,
    key := k,
    details := { qualityScore := some (scorePlaintext w p), layers := some ls } }

/-- The printable-ratio primitive as the specification describes it
(codepoints 32-126 **plus tab (9), CR (13) and LF (10)**), for
comparison with the `utils/text.ts` primitive actually implemented. -/
def printableRatioSpec (s : Str) : ℚ :=
  if s.length = 0 then 0
  else ((s.filter fun c =>
      (32 ≤ code c && code c ≤ 126) || code c = 9 || code c = 13 || code c = 10).length : ℚ)
    / s.length

end CodeCracker

namespace CodeCracker

/-! # Theorems

## Generic facts about the real-valued comparators -/

theorem rGe_eq_true {a b : ℝ} (h : b ≤ a) : rGe a b = true := by
  simp [rGe, h]

theorem rGe_eq_false {a b : ℝ} (h : a < b) : rGe a b = false := by
  simp only [rGe, decide_eq_false_iff_not]
  exact not_le.mpr h

theorem rGt_eq_true {a b : ℝ} (h : b < a) : rGt a b = true := by
  simp [rGt, h]

theorem rGt_eq_false {a b : ℝ} (h : a ≤ b) : rGt a b = false := by
  simp only [rGt, decide_eq_false_iff_not]
  exact not_lt.mpr h

/-! ## Hex / UTF-8 codec facts -/

theorem hexDigitVal_isSome {c : Char} (h : isHexDigitCh c = true) :
    (hexDigitVal c).isSome := by
  simp only [isHexDigitCh, isDigitCh, Bool.or_eq_true, Bool.and_eq_true,
    decide_eq_true_eq] at h
  simp only [hexDigitVal, isDigitCh, Bool.and_eq_true, decide_eq_true_eq]
  split_ifs with h1 h2 h3 <;> simp <;> omega

theorem hexDecodeBytes_length {s : Str} (hall : s.all isHexDigitCh = true)
    (hev : s.length % 2 = 0) : (hexDecodeBytes s).length = s.length / 2 := by
  induction s using hexDecodeBytes.induct with
  | case1 a b rest x y hx hy ih =>
    simp only [List.all_cons, Bool.and_eq_true] at hall
    simp only [List.length_cons] at hev ⊢
    rw [hexDecodeBytes, hx, hy]
    simp only [List.length_cons]
    rw [ih hall.2.2 (by omega)]
    omega
  | case2 a b rest hx =>
    simp only [List.all_cons, Bool.and_eq_true] at hall
    rcases hx' : hexDigitVal a with _ | v
    · exact absurd (hexDigitVal_isSome hall.1) (by simp [hx'])
    · rcases hy' : hexDigitVal b with _ | w
      · exact absurd (hexDigitVal_isSome hall.2.1) (by simp [hy'])
      · exact absurd (hx v w hx' hy') (by simp)
  | case3 s hs =>
    match s with
    | [] => simp [hexDecodeBytes]
    | [a] => simp at hev
    | a :: b :: rest => exact absurd rfl (hs a b rest)

theorem utf8EncodeChar_length_pos (c : Char) : 1 ≤ (utf8EncodeChar c).length := by
  simp only [utf8EncodeChar]
  split
  · simp
  · split
    · simp
    · split <;> simp

theorem utf8Encode_length_ge (s : Str) : s.length ≤ (utf8Encode s).length := by
  induction s with
  | nil => simp [utf8Encode]
  | cons c cs ih =>
    simp only [utf8Encode, List.flatMap_cons, List.length_append, List.length_cons]
    have := utf8EncodeChar_length_pos c
    simp only [utf8Encode] at ih
    omega

end CodeCracker

namespace CodeCracker

/-! ## Claim C4: the printable-ratio primitive -/

/-- C4: **refuted**.  The claim (and the spec) state that the
printable-ASCII-ratio primitive of `utils/text.ts` counts codepoints
32-126 *plus tab (9), CR (13) and LF (10)*.  The implemented primitive
counts only 32-126: on the one-character text `"\t"` it returns `0`
while the claimed definition returns `1`.  (The *solvers'* private
helper does count tab/CR/LF, but the claim is about the primitive.) -/
theorem claim_C4_counterexample :
    printableRatio (str "\t") ≠ printableRatioSpec (str "\t") ∧
    printableRatio (str "\t") = 0 ∧ printableRatioSpec (str "\t") = 1 := by
  have h0 : printableRatio (str "\t") = 0 := by
    rw [printableRatio]
    norm_num [str]
    decide
  have h1 : printableRatioSpec (str "\t") = 1 := by
    rw [printableRatioSpec]
    norm_num [str]
    decide
  refine ⟨by rw [h0, h1]; norm_num, h0, h1⟩

/-! ## Claim C3: the composite plaintext score -/

/-- C3: **confirmed**.  For every word set and text, the `total` field
of `scorePlaintext` is the weighted component sum
`0.35·dictionaryWordRatio + 0.25·letterFrequencyFit +
0.15·bigramFrequencyFit + 0.10·entropyScore + 0.10·printableRatio +
0.05·spaceScore` clamped to `[0,1]`, where the space score is
`max(0, 1 − |spaceFrequency − 0.17|/0.17)` and every other term is the
corresponding component score of the same text.  The record is
constructed once and never mutated (`crack` overwrites result
*confidences*, never a stored quality score). -/
theorem claim_C3 (words : Str → Bool) (text : Str) :
    (scorePlaintext words text).total =
      clamp01 (0.35 * ((dictionaryWordRatio words text : ℚ) : ℝ)
        + 0.25 * letterFrequencyFit text
        + 0.15 * ((bigramFrequencyFit text : ℚ) : ℝ)
        + 0.10 * entropyScore text
        + 0.10 * ((printableRatio text : ℚ) : ℝ)
        + 0.05 * max 0 (1 - |((spaceFrequency text : ℚ) : ℝ) - 0.17| / 0.17)) := rfl

/-! ## Claim C2: encoding round-trips -/

/-- C2: **refuted as stated**.  The URL-encoding solver is one of the
six named encoding solvers, and `"Hello"` is printable ASCII, but
`encrypt("Hello")` yields `"Hello"` (no percent-escape is produced),
and `solve` on that encoding returns *no* results (the solver requires
a `%XX` sequence and bails out when decoding changes nothing), so no
result with the original plaintext exists.  (The round-trip does hold
for, e.g., base64; the universally quantified claim is what fails.) -/
theorem claim_C2_counterexample :
    ∃ enc, urlSolver.encrypt = some enc ∧
      enc (str "Hello") {} =
        Except.ok { ciphertext := str "Hello", cipherType := CipherType.urlEncoding } ∧
      urlSolve (str "Hello") {} = [] := by
  refine ⟨_, rfl, ?_, ?_⟩
  · have h1 : encodeURIComponent (str "Hello") = str "Hello" := by decide
    simp only [h1]
  · rw [urlSolve]
    rw [if_pos]
    decide

end CodeCracker

namespace CodeCracker

/-! ## Claim C10: XOR hex reinterpretation -/

/-- C10: **confirmed**.  Whenever the whitespace-stripped trimmed
input is a non-empty, even-length hex string, `XorSolver.solve`
operates on its hex-decoded bytes (which are *not* the UTF-8 bytes of
the input — there are strictly fewer of them), in the known-key path
and in the 255-key single-byte brute force alike. -/
theorem claim_C10 (env : Env) (ct : Str) (opts : SolverOptions)
    (hne : ((trim ct).filter (fun c => !isWhite c)).length ≠ 0)
    (hev : ((trim ct).filter (fun c => !isWhite c)).length % 2 = 0)
    (hhex : ((trim ct).filter (fun c => !isWhite c)).all isHexDigitCh = true) :
    (xorSolve env ct opts =
      match opts.key with
      | none => xorBruteForce env (hexDecodeBytes ((trim ct).filter (fun c => !isWhite c)))
      | some (.strv []) =>
          xorBruteForce env (hexDecodeBytes ((trim ct).filter (fun c => !isWhite c)))
      | some k => xorDecryptWithKey env (hexDecodeBytes ((trim ct).filter (fun c => !isWhite c))) k)
    ∧ hexDecodeBytes ((trim ct).filter (fun c => !isWhite c)) ≠ utf8Encode (trim ct) := by
  have hlen : (hexDecodeBytes ((trim ct).filter (fun c => !isWhite c))).length =
      ((trim ct).filter (fun c => !isWhite c)).length / 2 :=
    hexDecodeBytes_length hhex hev
  have hfle : ((trim ct).filter (fun c => !isWhite c)).length ≤ (trim ct).length :=
    List.length_filter_le _ _
  have hult : (hexDecodeBytes ((trim ct).filter (fun c => !isWhite c))).length <
      (utf8Encode (trim ct)).length := by
    have := utf8Encode_length_ge (trim ct)
    omega
  refine ⟨?_, fun h => by rw [h] at hult; omega⟩
  have htrim : (trim ct).length ≠ 0 := by
    intro h0
    rw [List.length_eq_zero] at h0
    rw [h0] at hne
    simp at hne
  rw [xorSolve]
  rw [if_neg htrim]
  have hbytes : xorToBytes (trim ct) = hexDecodeBytes ((trim ct).filter (fun c => !isWhite c)) := by
    rw [xorToBytes]
    rw [if_pos ⟨⟨hne, hev⟩, hhex⟩]
  rw [hbytes]
  rw [if_neg (by omega)]

/-- Closed witness for C10 at the all-hex ASCII input `"cafe"` with no
key: the brute force runs on the two bytes `0xca 0xfe`, not on the
four UTF-8 bytes of `"cafe"`. -/
theorem claim_C10_witness :
    xorSolve envTrivial (str "cafe") {} =
      xorBruteForce envTrivial (hexDecodeBytes ((trim (str "cafe")).filter (fun c => !isWhite c)))
    ∧ hexDecodeBytes ((trim (str "cafe")).filter (fun c => !isWhite c)) ≠
        utf8Encode (trim (str "cafe")) := by
  have h := claim_C10 envTrivial (str "cafe") {} (by decide) (by decide) (by decide)
  exact h

end CodeCracker

namespace CodeCracker

/-! ## Claim C9: error paths of decrypt and encrypt -/

/-- C9: **confirmed**.  `decrypt` with an unregistered cipher type
errors; `encrypt` errors on empty plaintext, on an unregistered
cipher type, on a cipher without encryption capability (hash-lookup),
and on a Caesar key that does not parse as a number — each with its
descriptive message. -/
theorem claim_C9 :
    (∀ (env : Env) (solvers : List Solver) (ct : Str) (t : CipherType) (opts : SolverOptions),
      getSolverIn solvers t = none →
        decryptIn env solvers ct t opts =
          .error (str "No solver registered for cipher type: " ++ str t.name)) ∧
    (∀ (solvers : List Solver) (p : Str) (t : CipherType) (opts : EncryptOptions),
      p.length = 0 → encryptIn solvers p t opts = .error (str "Empty plaintext provided")) ∧
    (∀ (solvers : List Solver) (p : Str) (t : CipherType) (opts : EncryptOptions),
      p.length ≠ 0 → getSolverIn solvers t = none →
        encryptIn solvers p t opts =
          .error (str "No solver registered for cipher type: " ++ str t.name)) ∧
    (∀ (env : Env) (p : Str) (opts : EncryptOptions),
      p.length ≠ 0 →
        encryptOp env p .hashLookup opts =
          .error (str "Cipher '" ++ str CipherType.hashLookup.name ++
            str "' does not support encryption")) ∧
    (∀ (env : Env) (p : Str) (k : Str) (opts : EncryptOptions),
      p.length ≠ 0 → opts.key = some (.strv k) → k ≠ [] → parseIntBase10 k = none →
        encryptOp env p .caesar opts =
          .error (str "Cipher 'caesar' requires a numeric key for encryption")) := by
  refine ⟨?_, ?_, ?_, ?_, ?_⟩
  · intro env solvers ct t opts h
    rw [decryptIn, h]
  · intro solvers p t opts h
    rw [encryptIn, if_pos h]
  · intro solvers p t opts hp h
    rw [encryptIn, if_neg hp, h]
  · intro env p opts hp
    rw [encryptOp, encryptIn, if_neg hp]
    have h : getSolverIn (builtinSolvers env) .hashLookup = some (hashLookupSolver env) := by
      simp [getSolverIn, builtinSolvers, List.find?, caesarSolver, rot13Solver, atbashSolver,
        vigenereSolver, substitutionSolver, railFenceSolver, playfairSolver, columnarSolver,
        base64Solver, base32Solver, hexSolver, binarySolver, urlSolver, morseSolver,
        xorSolver, hashLookupSolver]
    rw [h]
    rfl
  · intro env p k opts hp hk hkne hparse
    rw [encryptOp, encryptIn, if_neg hp]
    have h : getSolverIn (builtinSolvers env) .caesar = some (caesarSolver env) := by
      simp [getSolverIn, builtinSolvers, List.find?, caesarSolver]
    rw [h]
    show caesarEncryptOp env p opts = _
    rw [caesarEncryptOp]
    rcases k with _ | ⟨c, k'⟩
    · exact absurd rfl hkne
    · rw [hk]
      simp only [KeyIn.asString] at hparse ⊢
      rw [hparse]

/-- Closed witness for C9: every error path at a concrete input — an
empty registry for the unregistered branches, the empty plaintext, the
hash-lookup cipher, and a Caesar key of `"abc"`. -/
theorem claim_C9_witness :
    decryptIn envTrivial [] [] .rsa {} =
      .error (str "No solver registered for cipher type: " ++ str CipherType.rsa.name) ∧
    encryptIn [] [] .caesar {} = .error (str "Empty plaintext provided") ∧
    encryptIn [] (str "x") .rsa {} =
      .error (str "No solver registered for cipher type: " ++ str CipherType.rsa.name) ∧
    encryptOp envTrivial (str "x") .hashLookup {} =
      .error (str "Cipher '" ++ str CipherType.hashLookup.name ++
        str "' does not support encryption") ∧
    encryptOp envTrivial (str "x") .caesar { key := some (.strv (str "abc")) } =
      .error (str "Cipher 'caesar' requires a numeric key for encryption") := by
  obtain ⟨h1, h2, h3, h4, h5⟩ := claim_C9
  exact ⟨h1 envTrivial [] [] .rsa {} rfl, h2 [] [] .caesar {} rfl,
    h3 [] (str "x") .rsa {} (by decide) rfl,
    h4 envTrivial (str "x") {} (by decide),
    h5 envTrivial (str "x") (str "abc") _ (by decide) rfl (by decide) (by decide)⟩

end CodeCracker

namespace CodeCracker

/-! ## Claim C7: bounded recursion -/

theorem tryRecursiveDecode_congr {f g : Str → CrackOptions → CrackResponse}
    (results : List CrackResult) (options : CrackOptions)
    (h : ∀ s, f s { options with maxResults := some 3 } =
      g s { options with maxResults := some 3 }) :
    tryRecursiveDecode f results options = tryRecursiveDecode g results options := by
  rw [tryRecursiveDecode, tryRecursiveDecode]
  congr 1
  congr 1
  apply List.flatMap_congr
  intro r _
  rw [h r.plaintext]

theorem crackGo_fuel_irrelevant (env : Env) :
    ∀ (f₁ f₂ : ℕ) (ct : Str) (options : CrackOptions),
      (options.maxDepth.getD 3).toNat ≤ f₁ → (options.maxDepth.getD 3).toNat ≤ f₂ →
      crackGo env f₁ ct options = crackGo env f₂ ct options := by
  intro f₁
  induction f₁ using Nat.strong_induction_on with
  | _ f₁ ih =>
    intro f₂ ct options h₁ h₂
    rw [crackGo, crackGo]
    by_cases hd : (1 : ℤ) < options.maxDepth.getD 3
    · have hd2 : 2 ≤ (options.maxDepth.getD 3).toNat := by omega
      rcases f₁ with _ | a
      · omega
      rcases f₂ with _ | b
      · omega
      simp only [if_pos hd]
      have key : ∀ R : List CrackResult,
          tryRecursiveDecode (fun s o => crackGo env a s o) R
            { options with maxDepth := some (options.maxDepth.getD 3 - 1),
                           maxResults := some (options.maxResults.getD 10) } =
          tryRecursiveDecode (fun s o => crackGo env b s o) R
            { options with maxDepth := some (options.maxDepth.getD 3 - 1),
                           maxResults := some (options.maxResults.getD 10) } := by
        intro R
        apply tryRecursiveDecode_congr
        intro s
        apply ih a (by omega)
        · simp only [Option.getD_some]; omega
        · simp only [Option.getD_some]; omega
      rw [key]
    · simp only [if_neg hd]

/-- C7: **confirmed**.  The recursive re-crack is attempted only when
`maxDepth > 1` and each recursive call receives `maxDepth - 1`, so the
recursion depth is strictly bounded by the caller's `maxDepth`:
running `crackGo` with *any* budget of at least `maxDepth` steps (in
particular the canonical `crack` entry point, which supplies exactly
`maxDepth`) produces the same response — the budget is never
exhausted, i.e. `crack` terminates within `maxDepth` nested calls. -/
theorem claim_C7 (env : Env) (ct : Str) (options : CrackOptions) (fuel : ℕ)
    (h : (options.maxDepth.getD 3).toNat ≤ fuel) :
    crackGo env fuel ct options = crack env ct options := by
  rw [crack]
  exact crackGo_fuel_irrelevant env fuel _ ct options h le_rfl

/-- Closed witness for C7: a budget of 5 on the default options
(maxDepth 3) gives the canonical result. -/
theorem claim_C7_witness :
    crackGo envTrivial 5 (str "") {} = crack envTrivial (str "") {} :=
  claim_C7 envTrivial (str "") {} 5 (by decide)

end CodeCracker

namespace CodeCracker

/-! ## The stable insertion sort: permutation, sortedness, stability -/

theorem insertGeB_nil (ge : α → α → Bool) (x : α) : insertGeB ge x [] = [x] := rfl

theorem insertGeB_cons_true {ge : α → α → Bool} {x y : α} (l : List α)
    (h : ge x y = true) : insertGeB ge x (y :: l) = x :: y :: l := by
  simp [insertGeB, h]

theorem insertGeB_cons_false {ge : α → α → Bool} {x y : α} (l : List α)
    (h : ge x y = false) : insertGeB ge x (y :: l) = y :: insertGeB ge x l := by
  simp [insertGeB, h]

theorem insertGeB_perm (ge : α → α → Bool) (x : α) (l : List α) :
    (insertGeB ge x l).Perm (x :: l) := by
  induction l with
  | nil => simp [insertGeB]
  | cons y ys ih =>
    rw [insertGeB]
    split
    · exact List.Perm.refl _
    · exact (ih.cons y).trans (List.Perm.swap x y ys)

theorem sortGeB_perm (ge : α → α → Bool) (l : List α) : (sortGeB ge l).Perm l := by
  induction l with
  | nil => simp [sortGeB]
  | cons x xs ih => exact (insertGeB_perm ge x _).trans (ih.cons x)

theorem mem_sortGeB {ge : α → α → Bool} {l : List α} {a : α} :
    a ∈ sortGeB ge l ↔ a ∈ l :=
  (sortGeB_perm ge l).mem_iff

theorem insertGeB_chain' {ge : α → α → Bool}
    (htot : ∀ a b : α, ge a b = true ∨ ge b a = true) (x : α) {l : List α}
    (h : l.Chain' (fun a b => ge a b = true)) :
    (insertGeB ge x l).Chain' (fun a b => ge a b = true) := by
  induction l with
  | nil => simp [insertGeB]
  | cons y ys ih =>
    rw [insertGeB]
    split
    · next hxy => exact h.cons hxy
    · next hxy =>
      have hyx : ge y x = true := (htot x y).resolve_left hxy
      have hrec := ih h.tail
      rw [List.chain'_cons']
      refine ⟨?_, hrec⟩
      intro z hz
      rcases ys with _ | ⟨w, ws⟩
      · simp [insertGeB] at hz
        rw [← hz]
        exact hyx
      · rw [insertGeB] at hz
        split at hz
        · simp at hz
          rw [← hz]
          exact hyx
        · simp at hz
          rw [← hz]
          exact h.rel_head

theorem sortGeB_chain' {ge : α → α → Bool}
    (htot : ∀ a b : α, ge a b = true ∨ ge b a = true) (l : List α) :
    (sortGeB ge l).Chain' (fun a b => ge a b = true) := by
  induction l with
  | nil => simp [sortGeB]
  | cons x xs ih => exact insertGeB_chain' htot x ih

theorem sortGeB_eq_self_of_chain' {ge : α → α → Bool} {l : List α}
    (h : l.Chain' (fun a b => ge a b = true)) : sortGeB ge l = l := by
  induction l with
  | nil => rfl
  | cons x xs ih =>
    show insertGeB ge x (sortGeB ge xs) = x :: xs
    rw [ih h.tail]
    rcases xs with _ | ⟨y, ys⟩
    · rfl
    · exact insertGeB_cons_true _ h.rel_head

end CodeCracker

namespace CodeCracker

/-! ## Claim C8: detect -/

theorem rGe_true_iff {a b : ℝ} : rGe a b = true ↔ b ≤ a := by
  simp [rGe]

theorem rGe_total (f : α → ℝ) (a b : α) :
    rGe (f a) (f b) = true ∨ rGe (f b) (f a) = true := by
  rcases le_total (f b) (f a) with h | h
  · exact Or.inl (rGe_eq_true h)
  · exact Or.inr (rGe_eq_true h)

theorem mem_ite_nil {P : Prop} [Decidable P] {l : List β} {a : β}
    (h : a ∈ (if P then l else [])) : a ∈ l := by
  split at h
  · exact h
  · simp at h

theorem mergeCands_mem {l : List DetectionCandidate} {a : DetectionCandidate}
    (h : a ∈ mergeCands l) : a ∈ l := by
  rw [mergeCands] at h
  suffices H : ∀ (l acc : List DetectionCandidate),
      a ∈ l.foldl (fun acc c =>
        if acc.any (·.cipherType = c.cipherType) then
          acc.map fun e =>
            if e.cipherType = c.cipherType ∧ rGe c.confidence e.confidence ∧
                e.confidence ≠ c.confidence then c else e
        else acc ++ [c]) acc → a ∈ acc ∨ a ∈ l by
    rcases H l [] h with h' | h'
    · simp at h'
    · exact h'
  intro l
  induction l with
  | nil => intro acc h'; exact Or.inl h'
  | cons c cs ih =>
    intro acc h'
    rw [List.foldl_cons] at h'
    rcases ih _ h' with h'' | h''
    · split at h''
      · rcases List.mem_map.mp h'' with ⟨e, he, hfe⟩
        split at hfe
        · right; rw [← hfe]; exact List.mem_cons_self c cs
        · left; rw [← hfe]; exact he
      · rcases List.mem_append.mp h'' with h3 | h3
        · exact Or.inl h3
        · right; simp at h3; rw [h3]; exact List.mem_cons_self c cs
    · right; exact List.mem_cons_of_mem c h''

theorem forall_mem_ite_nil {P : β → Prop} {l : List β} {p : Prop} [Decidable p]
    (h : ∀ c ∈ l, P c) : ∀ c ∈ (if p then l else []), P c := by
  split
  · exact h
  · simp

theorem detectByPattern_conf_bounds (t : Str) :
    ∀ c ∈ detectByPattern t, 0 ≤ c.confidence ∧ c.confidence ≤ 1 := by
  intro c h
  rw [detectByPattern, mem_sortGeB] at h
  revert c h
  show ∀ c ∈ _ ++ _, _
  refine List.forall_mem_append.mpr ⟨?_, ?_⟩
  · refine List.forall_mem_append.mpr ⟨?_, ?_⟩
    · refine List.forall_mem_append.mpr ⟨?_, ?_⟩
      · refine List.forall_mem_append.mpr ⟨?_, ?_⟩
        · refine List.forall_mem_append.mpr ⟨?_, ?_⟩
          · refine List.forall_mem_append.mpr ⟨?_, ?_⟩
            · refine List.forall_mem_append.mpr ⟨?_, ?_⟩
              · exact forall_mem_ite_nil (by rintro c hc; simp at hc; rw [hc]; norm_num)
              · exact forall_mem_ite_nil (by rintro c hc; simp at hc; rw [hc]; norm_num)
            · exact forall_mem_ite_nil (by rintro c hc; simp at hc; rw [hc]; norm_num)
          · intro c hc
            split at hc
            · split at hc
              · simp at hc; rw [hc]; norm_num
              · split at hc
                · simp at hc; rw [hc]; norm_num
                · simp at hc
            · simp at hc
        · exact forall_mem_ite_nil (by rintro c hc; simp at hc; rw [hc]; norm_num)
      · refine forall_mem_ite_nil ?_
        rintro c hc
        simp at hc
        rw [hc]
        refine ⟨?_, ?_⟩
        · show (0:ℝ) ≤ _
          split <;> norm_num
        · show _ ≤ (1:ℝ)
          split <;> norm_num
    · refine forall_mem_ite_nil ?_
      rintro c hc
      simp only [List.mem_cons, List.mem_singleton, List.not_mem_nil, or_false] at hc
      rcases hc with rfl | rfl | rfl | rfl | rfl <;> norm_num
  · refine forall_mem_ite_nil ?_
    rintro c hc
    simp only [List.mem_cons, List.mem_singleton, List.not_mem_nil, or_false] at hc
    rcases hc with rfl | rfl <;> norm_num

set_option maxHeartbeats 1000000 in
/-- C8: **confirmed**.  `detect` returns the empty sequence exactly on
blank (empty or whitespace-only) input; every returned candidate's
confidence lies in `[0,1]`; and the returned sequence is sorted by
confidence descending. -/
theorem claim_C8 :
    (∀ ct : Str, trim ct = [] → detect ct = []) ∧
    (∀ (ct : Str) (c : DetectionCandidate),
      c ∈ detect ct → 0 ≤ c.confidence ∧ c.confidence ≤ 1) ∧
    (∀ ct : Str, (detect ct).Chain' (fun a b => b.confidence ≤ a.confidence)) := by
  refine ⟨?_, ?_, ?_⟩
  · intro ct h
    rw [detect, if_pos h]
  · intro ct c h
    rw [detect] at h
    split at h
    · simp at h
    · rw [mem_sortGeB] at h
      have h' := mergeCands_mem h
      rcases List.mem_append.mp h' with h'' | h''
      · exact detectByPattern_conf_bounds _ c h''
      · have h3 := mem_ite_nil h''
        rcases List.mem_append.mp h3 with h4 | h4
        · split at h4
          · simp only [List.mem_singleton] at h4
            rw [h4]
            refine ⟨le_min (by norm_num) (by positivity), min_le_of_left_le (by norm_num)⟩
          · simp only [List.mem_cons, List.mem_singleton, List.not_mem_nil, or_false] at h4
            rcases h4 with rfl | rfl | rfl | rfl <;> norm_num
          · simp at h4
        · have h5 := mem_ite_nil h4
          simp only [List.mem_singleton] at h5
          rw [h5]
          norm_num
  · intro ct
    have H : ∀ l : List DetectionCandidate,
        (sortGeB (fun a b => rGe a.confidence b.confidence) l).Chain'
          (fun a b => b.confidence ≤ a.confidence) := by
      intro l
      refine List.Chain'.imp ?_ (sortGeB_chain' (rGe_total (·.confidence)) l)
      intro a b hab
      exact rGe_true_iff.mp hab
    rw [detect]
    split
    · simp
    · exact H _

/-- Closed witness for C8: blank inputs give the empty sequence, and
the single-candidate detection of `"....."` (a Morse-only charset)
has its confidence 0.9 inside `[0,1]`. -/
theorem claim_C8_witness :
    detect (str "") = [] ∧ detect (str "   ") = [] ∧
    (0 : ℝ) ≤ (0.9 : ℝ) ∧ (0.9 : ℝ) ≤ 1 ∧
    (detect (str "   ")).Chain' (fun a b => b.confidence ≤ a.confidence) := by
  obtain ⟨h1, _, h3⟩ := claim_C8
  exact ⟨h1 (str "") rfl, h1 (str "   ") (by decide), by norm_num, by norm_num,
    h3 (str "   ")⟩

end CodeCracker

namespace CodeCracker

/-! ## Columnar transposition: multiset preservation -/

theorem cons_set_perm (d : α) :
    ∀ (xs : List α) (m : ℕ) (x : α), m < xs.length →
      (xs.getD m d :: xs.set m x).Perm (x :: xs) := by
  intro xs
  induction xs with
  | nil => intro m x h; simp at h
  | cons z zs ih =>
    intro m x h
    rcases m with _ | m
    · simp only [List.getD_cons_zero, List.set_cons_zero]
      exact List.Perm.swap x z zs
    · simp only [List.getD_cons_succ, List.set_cons_succ]
      have h1 : (zs.getD m d :: z :: zs.set m x).Perm (z :: zs.getD m d :: zs.set m x) :=
        List.Perm.swap z _ _
      have h2 := (ih m x (by simpa using h)).cons z
      exact (h1.trans h2).trans (List.Perm.swap x z zs)

theorem listSwap_perm : ∀ (l : List ℕ) (i j : ℕ), i < l.length → j < l.length →
    (listSwap l i j).Perm l := by
  intro l
  induction l with
  | nil => intro i j hi; simp at hi
  | cons x xs ih =>
    intro i j hi hj
    rcases i with _ | n <;> rcases j with _ | m
    · simp [listSwap]
    · rw [listSwap]
      simp only [List.getD_cons_zero, List.getD_cons_succ, List.set_cons_zero,
        List.set_cons_succ]
      exact cons_set_perm 0 xs m x (by simpa using hj)
    · rw [listSwap]
      simp only [List.getD_cons_zero, List.getD_cons_succ, List.set_cons_zero,
        List.set_cons_succ]
      exact cons_set_perm 0 xs n x (by simpa using hi)
    · rw [listSwap]
      simp only [List.getD_cons_succ, List.set_cons_succ]
      exact (ih n m (by simpa using hi) (by simpa using hj)).cons x

theorem genPermsGo_perm : ∀ (fuel : ℕ) (arr : List ℕ) (start : ℕ),
    start + fuel = arr.length → ∀ p ∈ genPermsGo fuel arr start, p.Perm arr := by
  intro fuel
  induction fuel with
  | zero =>
    intro arr start _ p hp
    rw [genPermsGo] at hp
    simp at hp
    rw [hp]
  | succ f ih =>
    intro arr start hlen p hp
    rw [genPermsGo] at hp
    rcases List.mem_flatMap.mp hp with ⟨i, hi, hp'⟩
    rcases List.mem_map.mp hi with ⟨t, ht, rfl⟩
    rw [List.mem_range] at ht
    have hstart : start < arr.length := by omega
    have hti : t + start < arr.length := by omega
    have hswap := listSwap_perm arr start (t + start) hstart hti
    have hlen' : (start + 1) + f = (listSwap arr start (t + start)).length := by
      rw [hswap.length_eq]
      omega
    exact (ih _ (start + 1) hlen' p hp').trans hswap

theorem generatePermutations_perm {n : ℕ} {p : List ℕ}
    (hp : p ∈ generatePermutations n) : p.Perm (List.range n) := by
  rw [generatePermutations] at hp
  exact genPermsGo_perm n (List.range n) 0 (by simp) p hp

theorem mem_generatePermutations_length {n : ℕ} {p : List ℕ}
    (hp : p ∈ generatePermutations n) : p.length = n := by
  rw [(generatePermutations_perm hp).length_eq, List.length_range]

end CodeCracker

namespace CodeCracker

theorem splitByLens_length (ns : List ℕ) (s : Str) :
    (splitByLens ns s).length = ns.length := by
  induction ns generalizing s with
  | nil => rfl
  | cons n ns ih => simp [splitByLens, ih]

theorem splitByLens_flatten (ns : List ℕ) (s : Str) :
    (splitByLens ns s).flatten = s.take ns.sum := by
  induction ns generalizing s with
  | nil => simp [splitByLens]
  | cons n ns ih =>
    rw [splitByLens]
    simp only [List.flatten_cons, List.sum_cons, ih]
    rw [List.take_add]

theorem splitByLens_mem_length_le (ns : List ℕ) (s : Str) :
    ∀ c ∈ splitByLens ns s, ∃ n ∈ ns, c.length ≤ n := by
  induction ns generalizing s with
  | nil => simp [splitByLens]
  | cons n ns ih =>
    intro c hc
    rw [splitByLens] at hc
    rcases List.mem_cons.mp hc with hc | hc
    · exact ⟨n, List.mem_cons_self n ns, by rw [hc]; simp⟩
    · rcases ih _ c hc with ⟨m, hm, hcm⟩
      exact ⟨m, List.mem_cons_of_mem n hm, hcm⟩

theorem list_sum_range_map (f : ℕ → ℕ) (n : ℕ) :
    ((List.range n).map f).sum = ∑ i ∈ Finset.range n, f i := by
  induction n with
  | zero => simp
  | succ m ih =>
    rw [List.range_succ, Finset.sum_range_succ, List.map_append, List.sum_append, ih]
    simp

theorem countP_range_lt (k e : ℕ) :
    (List.range k).countP (fun x => decide (x < e)) = min e k := by
  induction k with
  | zero => simp
  | succ m ih =>
    rw [List.range_succ, List.countP_append, ih]
    rcases Nat.lt_or_ge m e with h | h
    · rw [List.countP_cons, List.countP_nil]
      rw [decide_eq_true h]
      simp only [if_true, Nat.zero_add]
      omega
    · rw [List.countP_cons, List.countP_nil]
      rw [decide_eq_false (by omega)]
      simp only [Bool.false_eq_true, if_false, Nat.zero_add, Nat.add_zero]
      omega

theorem sum_map_add_const (l : List ℕ) (c : ℕ) (g : ℕ → ℕ) :
    (l.map (fun p => c + g p)).sum = l.length * c + (l.map g).sum := by
  induction l with
  | nil => simp
  | cons a as ih =>
    simp only [List.map_cons, List.sum_cons, List.length_cons, ih]
    ring

theorem sum_map_ite_lt (l : List ℕ) (e : ℕ) :
    (l.map (fun p => if p < e then 1 else 0)).sum = l.countP (fun p => decide (p < e)) := by
  induction l with
  | nil => simp
  | cons a as ih =>
    simp only [List.map_cons, List.sum_cons, List.countP_cons, ih]
    by_cases h : a < e
    · simp [h]; omega
    · simp [h]

theorem count_flatMap [DecidableEq α] (l : List β) (f : β → List α) (x : α) :
    (l.flatMap f).count x = (l.map (fun b => (f b).count x)).sum := by
  induction l with
  | nil => simp
  | cons a as ih => simp [List.flatMap_cons, List.count_append, ih]

theorem count_filterMap [DecidableEq α] (l : List β) (g : β → Option α) (x : α) :
    (l.filterMap g).count x = l.countP (fun b => decide (g b = some x)) := by
  induction l with
  | nil => simp
  | cons a as ih =>
    rw [List.filterMap_cons]
    rcases hg : g a with _ | b
    · rw [List.countP_cons, ih]
      simp [hg]
    · rw [List.count_cons, List.countP_cons, ih]
      simp only [hg]
      by_cases hbx : b = x
      · simp [hbx]
      · simp [hbx, Ne.symm hbx]

theorem countP_eq_sum_map (l : List β) (p : β → Bool) :
    l.countP p = (l.map (fun b => if p b then 1 else 0)).sum := by
  induction l with
  | nil => simp
  | cons a as ih =>
    rw [List.countP_cons, List.map_cons, List.sum_cons, ih]
    by_cases h : p a <;> simp [h] <;> omega

theorem count_eq_sum_range_getElem? [DecidableEq α] (col : List α) (x : α) :
    ∀ N, col.length ≤ N →
      col.count x = ((List.range N).map (fun row => if col[row]? = some x then 1 else 0)).sum := by
  induction col with
  | nil =>
    intro N _
    simp
  | cons c cs ih =>
    intro N hN
    rcases N with _ | M
    · simp at hN
    rw [List.range_succ_eq_map]
    simp only [List.map_cons, List.map_map, List.sum_cons]
    rw [List.count_cons]
    have : ((List.range M).map ((fun row => if (c :: cs)[row]? = some x then 1 else 0) ∘ (· + 1))).sum
        = ((List.range M).map (fun row => if cs[row]? = some x then 1 else 0)).sum := by
      apply congrArg
      apply List.map_congr_left
      intro a _
      simp [Function.comp]
    rw [this, ← ih M (by simpa using hN)]
    simp only [List.getElem?_cons_zero]
    by_cases h : c = x
    · simp [h]
      omega
    · simp [h, Ne.symm h]

theorem range_map_getD (l : List α) (d : α) :
    (List.range l.length).map (fun i => l.getD i d) = l := by
  apply List.ext_getElem
  · simp
  · intro n h1 h2
    simp only [List.getElem_map, List.getElem_range]
    rw [List.getD_eq_getElem l d h2]

end CodeCracker

namespace CodeCracker

theorem transpose_read_perm (orig : List Str) (R : ℕ)
    (hbound : ∀ c ∈ orig, c.length ≤ R) :
    ((List.range R).flatMap fun row =>
      (List.range orig.length).filterMap fun c => (orig.getD c [])[row]?).Perm
      orig.flatten := by
  apply List.perm_iff_count.mpr
  intro x
  rw [count_flatMap]
  have h1 : ∀ row : ℕ,
      ((List.range orig.length).filterMap fun c => (orig.getD c [])[row]?).count x
        = ∑ c ∈ Finset.range orig.length,
            (if (orig.getD c [])[row]? = some x then 1 else 0) := by
    intro row
    rw [count_filterMap, countP_eq_sum_map, list_sum_range_map]
    apply Finset.sum_congr rfl
    intro c _
    by_cases h : (orig.getD c [])[row]? = some x
    · simp [h]
    · simp [h]
  have h2 :
      ((List.range R).map fun row =>
        ((List.range orig.length).filterMap fun c => (orig.getD c [])[row]?).count x).sum
        = ∑ row ∈ Finset.range R, ∑ c ∈ Finset.range orig.length,
            (if (orig.getD c [])[row]? = some x then 1 else 0) := by
    rw [list_sum_range_map]
    exact Finset.sum_congr rfl fun row _ => h1 row
  rw [h2, Finset.sum_comm]
  have h3 : ∀ c ∈ Finset.range orig.length,
      (∑ row ∈ Finset.range R, (if (orig.getD c [])[row]? = some x then 1 else 0))
        = (orig.getD c []).count x := by
    intro c hc
    have hclen : c < orig.length := by simpa using hc
    have hmem : orig.getD c [] ∈ orig := by
      rw [List.getD_eq_getElem orig [] hclen]
      exact List.getElem_mem hclen
    rw [count_eq_sum_range_getElem? (orig.getD c []) x R (hbound _ hmem),
      list_sum_range_map]
  rw [Finset.sum_congr rfl h3]
  have h4 : orig.flatten.count x = (orig.map fun col => col.count x).sum := by
    rw [← List.flatMap_id orig, count_flatMap]
    simp
  rw [h4, ← list_sum_range_map (fun c => (orig.getD c []).count x) orig.length]
  have h5 : (List.range orig.length).map (fun c => (orig.getD c []).count x)
      = orig.map fun col => col.count x := by
    apply List.ext_getElem
    · simp
    · intro n hn1 hn2
      simp only [List.getElem_map, List.getElem_range]
      rw [List.getD_eq_getElem orig [] (by simpa using hn1)]
  rw [h5]

theorem orig_perm_cols (perm : List ℕ) (cols : List Str)
    (hp : perm.Perm (List.range perm.length)) (hc : cols.length = perm.length) :
    ((List.range perm.length).map fun cIdx =>
      match (List.range perm.length).find? (fun i => perm.getD i 0 = cIdx) with
      | some i => cols.getD i []
      | none => []).Perm cols := by
  set k := perm.length with hk
  have hfind : ∀ c ∈ List.range k,
      ∃ i, (List.range k).find? (fun i => perm.getD i 0 = c) = some i := by
    intro c hcr
    have hcp : c ∈ perm := hp.mem_iff.mpr (by simpa using hcr)
    rcases List.getElem_of_mem hcp with ⟨i, hi, hpi⟩
    have : ((List.range k).find? (fun i => perm.getD i 0 = c)).isSome := by
      rw [List.find?_isSome]
      refine ⟨i, by simpa using hi, ?_⟩
      rw [decide_eq_true_eq, List.getD_eq_getElem perm 0 hi]
      exact hpi
    exact Option.isSome_iff_exists.mp this
  set g : ℕ → ℕ := fun c => ((List.range k).find? (fun i => perm.getD i 0 = c)).getD 0
    with hg
  have hgspec : ∀ c ∈ List.range k,
      (List.range k).find? (fun i => perm.getD i 0 = c) = some (g c) := by
    intro c hcr
    rcases hfind c hcr with ⟨i, hi⟩
    rw [hg]
    simp only [hi, Option.getD_some]
  have hgval : ∀ c ∈ List.range k, perm.getD (g c) 0 = c := by
    intro c hcr
    have := List.find?_some (hgspec c hcr)
    simpa using this
  have hgmem : ∀ c ∈ List.range k, g c ∈ List.range k := by
    intro c hcr
    exact List.mem_of_find?_eq_some (hgspec c hcr)
  have hmapeq : ((List.range k).map fun cIdx =>
      match (List.range k).find? (fun i => perm.getD i 0 = cIdx) with
      | some i => cols.getD i []
      | none => []) = ((List.range k).map g).map fun i => cols.getD i [] := by
    rw [List.map_map]
    apply List.map_congr_left
    intro c hcr
    rw [hgspec c hcr]
    rfl
  rw [hmapeq]
  clear hmapeq
  have hnodup : ((List.range k).map g).Nodup := by
    refine List.Nodup.map_on ?_ (List.nodup_range k)
    intro c1 h1 c2 h2 hgeq
    rw [← hgval c1 h1, ← hgval c2 h2, hgeq]
  have htofin : ((List.range k).map g).toFinset = (List.range k).toFinset := by
    apply Finset.eq_of_subset_of_card_le
    · intro a ha
      rw [List.mem_toFinset] at ha ⊢
      rcases List.mem_map.mp ha with ⟨c, hcr, rfl⟩
      exact hgmem c hcr
    · rw [List.toFinset_card_of_nodup (List.nodup_range k),
        List.toFinset_card_of_nodup hnodup]
      simp
  have hLperm : ((List.range k).map g).Perm (List.range k) :=
    List.perm_of_nodup_nodup_toFinset_eq hnodup (List.nodup_range k) htofin
  have hfinal : ((List.range k).map fun i => cols.getD i []) = cols := by
    rw [← hc]
    exact range_map_getD cols []
  have hfin2 := hLperm.map fun i => cols.getD i []
  rw [hfinal] at hfin2
  exact hfin2

end CodeCracker

namespace CodeCracker

theorem columnarDecrypt_perm (s : Str) (perm : List ℕ)
    (hp : perm.Perm (List.range perm.length)) (hk : 0 < perm.length) :
    (columnarDecrypt s perm).Perm s := by
  simp only [columnarDecrypt]
  simp only [List.get?_eq_getElem?]
  set k := perm.length with hkdef
  set len := s.length with hlendef
  set colLens := perm.map fun p => len / k + if p < len % k then 1 else 0 with hcolLens
  set cols := splitByLens colLens s with hcolsdef
  set orig := (List.range k).map (fun cIdx =>
    match (List.range k).find? (fun i => perm.getD i 0 = cIdx) with
    | some i => cols.getD i []
    | none => []) with horigdef
  set R := len / k + (if len % k > 0 then 1 else 0) with hRdef
  have hsum : colLens.sum = len := by
    rw [hcolLens, sum_map_add_const, sum_map_ite_lt, hp.countP_eq, countP_range_lt]
    have hmod : len % k < k := Nat.mod_lt len hk
    have hdm := Nat.div_add_mod len k
    rw [Nat.min_eq_left (Nat.le_of_lt hmod)]
    exact hdm
  have hflat : cols.flatten = s := by
    rw [hcolsdef, splitByLens_flatten, hsum, hlendef, List.take_length]
  have hcolslen : cols.length = k := by
    rw [hcolsdef, splitByLens_length, hcolLens, List.length_map]
  have horiglen : orig.length = k := by
    rw [horigdef, List.length_map, List.length_range]
  have horigperm : orig.Perm cols := orig_perm_cols perm cols hp hcolslen
  have hbound : ∀ c ∈ orig, c.length ≤ R := by
    intro c hc
    rw [horigdef] at hc
    rcases List.mem_map.mp hc with ⟨cIdx, _, hceq⟩
    rcases hfind : (List.range k).find? (fun i => perm.getD i 0 = cIdx) with _ | i
    · rw [hfind] at hceq
      simp only at hceq
      rw [← hceq]
      simp
    · rw [hfind] at hceq
      simp only at hceq
      by_cases hi : i < cols.length
      · have hmem : cols.getD i [] ∈ cols := by
          rw [List.getD_eq_getElem cols [] hi]
          exact List.getElem_mem hi
        rw [← hceq]
        rcases splitByLens_mem_length_le colLens s _ hmem with ⟨n, hn, hlen⟩
        rw [hcolLens] at hn
        rcases List.mem_map.mp hn with ⟨p, _, rfl⟩
        rw [hRdef]
        have h1 : (if p < len % k then 1 else 0) ≤ (if len % k > 0 then 1 else 0) := by
          by_cases hpe : p < len % k
          · have hgt : len % k > 0 := by omega
            simp [hpe, hgt]
          · simp [hpe]
        omega
      · rw [List.getD_eq_default cols [] (by omega)] at hceq
        rw [← hceq]
        simp
  have hread := transpose_read_perm orig R hbound
  rw [horiglen] at hread
  exact (hread.trans horigperm.flatten).trans (hflat ▸ List.Perm.refl s)

end CodeCracker

namespace CodeCracker

/-! ## Scores of letterless texts -/

theorem rGe_refl (a : ℝ) : rGe a a = true := rGe_eq_true le_rfl

theorem rGt_irrefl (a : ℝ) : rGt a a = false := rGt_eq_false le_rfl

theorem clamp01_nonneg (x : ℝ) : 0 ≤ clamp01 x := by
  rw [clamp01]
  rcases le_total 1 (max 0 x) with h | h
  · rw [min_eq_left h]; norm_num
  · rw [min_eq_right h]; exact le_max_left 0 x

theorem clamp01_le_one (x : ℝ) : clamp01 x ≤ 1 := min_le_left 1 _

theorem clamp01_eq_self {x : ℝ} (h0 : 0 ≤ x) (h1 : x ≤ 1) : clamp01 x = x := by
  rw [clamp01, max_eq_right h0, min_eq_right h1]

theorem clamp01_le_of_le {x y : ℝ} (h0 : 0 ≤ y) (h : x ≤ y) : clamp01 x ≤ y := by
  rw [clamp01]
  rcases le_total 0 x with hx | hx
  · rw [max_eq_right hx]
    exact min_le_of_right_le h
  · rw [max_eq_left hx]
    exact min_le_of_right_le h0

theorem tokensBy_foldr_mem (sep : Char → Bool) :
    ∀ (s : Str) (t : Str), t ∈ (s.foldr (fun c acc =>
      if sep c then [] :: acc
      else match acc with
        | [] => [[c]]
        | t :: ts => (c :: t) :: ts) []) → ∀ c ∈ t, c ∈ s := by
  intro s
  induction s with
  | nil => intro t ht; simp at ht
  | cons a s' ih =>
    intro t ht c hc
    rw [List.foldr_cons] at ht
    split at ht
    · rcases List.mem_cons.mp ht with rfl | ht'
      · simp at hc
      · exact List.mem_cons_of_mem a (ih t ht' c hc)
    · split at ht
      · next heq =>
        rcases List.mem_cons.mp ht with rfl | ht'
        · rcases List.mem_singleton.mp hc with rfl
          exact List.mem_cons_self c s'
        · simp at ht'
      · next t0 ts heq =>
        rcases List.mem_cons.mp ht with rfl | ht'
        · rcases List.mem_cons.mp hc with rfl | hc'
          · exact List.mem_cons_self c s'
          · refine List.mem_cons_of_mem a (ih t0 ?_ c hc')
            rw [heq]
            exact List.mem_cons_self t0 ts
        · refine List.mem_cons_of_mem a (ih t ?_ c hc)
          rw [heq]
          exact List.mem_cons_of_mem t0 ht'

theorem tokensBy_mem (sep : Char → Bool) (s : Str) :
    ∀ t ∈ tokensBy sep s, ∀ c ∈ t, c ∈ s := by
  intro t ht
  rw [tokensBy] at ht
  exact tokensBy_foldr_mem sep s t (List.mem_of_mem_filter ht)

theorem toLowerCh_not_lower {c : Char} (h : isAlphaCh c = false) :
    ¬ (97 ≤ code (toLowerCh c) ∧ code (toLowerCh c) ≤ 122) := by
  simp only [isAlphaCh, isUpperCh, isLowerCh, Bool.or_eq_false_iff,
    Bool.and_eq_false_iff, decide_eq_false_iff_not, not_le] at h
  rw [toLowerCh]
  rw [if_neg (by simp only [isUpperCh, Bool.and_eq_true, decide_eq_true_eq]; omega)]
  omega

theorem dictionaryWordRatio_zero_of_letterless (w : Str → Bool) (s : Str)
    (h : ∀ c ∈ s, isAlphaCh c = false) : dictionaryWordRatio w s = 0 := by
  simp only [dictionaryWordRatio]
  split
  · rfl
  · split
    · rfl
    · have hclean : ∀ t ∈ tokensBy isTokenSep (toLowerStr s),
          t.filter (fun c => 97 ≤ code c && code c ≤ 122) = [] := by
        intro t ht
        rw [List.filter_eq_nil_iff]
        intro c hc
        have hcs : c ∈ toLowerStr s := tokensBy_mem isTokenSep (toLowerStr s) t ht c hc
        rcases List.mem_map.mp hcs with ⟨c0, hc0, rfl⟩
        have := toLowerCh_not_lower (h c0 hc0)
        simp only [Bool.and_eq_true, decide_eq_true_eq]
        omega
      have hnil : ((tokensBy isTokenSep (toLowerStr s)).map fun t =>
          t.filter fun c => 97 ≤ code c && code c ≤ 122).filter (·.length ≠ 0) = [] := by
        rw [List.filter_eq_nil_iff]
        intro t ht
        rcases List.mem_map.mp ht with ⟨t0, ht0, rfl⟩
        rw [hclean t0 ht0]
        simp
      rw [hnil]
      simp

theorem letterFrequencyFit_zero_of_letterless (s : Str)
    (h : ∀ c ∈ s, isAlphaCh c = false) : letterFrequencyFit s = 0 := by
  rw [letterFrequencyFit]
  have : alphaOnly s = [] := by
    rw [alphaOnly, List.filter_eq_nil_iff.mpr (by intro c hc; simp [h c hc])]
    rfl
  rw [this]
  simp

theorem bigramFrequencyFit_zero_of_short (s : Str)
    (h : (alphaOnly s).length ≤ 5) : bigramFrequencyFit s = 0 := by
  rw [bigramFrequencyFit]
  rw [if_pos]
  have h1 : ((alphaOnly s).length : ℚ) - 1 ≤ 4 := by
    have : ((alphaOnly s).length : ℚ) ≤ 5 := by exact_mod_cast h
    linarith
  rcases max_choice (1 : ℚ) (((alphaOnly s).length : ℚ) - 1) with h2 | h2 <;> rw [h2]
  · norm_num
  · linarith

end CodeCracker

namespace CodeCracker

theorem shannonEntropy_perm {s t : Str} (h : s.Perm t) :
    shannonEntropy s = shannonEntropy t := by
  have hfin : s.toFinset = t.toFinset := by
    rw [← List.toFinset_coe, ← List.toFinset_coe, Multiset.coe_eq_coe.mpr h]
  rw [shannonEntropy, shannonEntropy, h.length_eq, hfin]
  congr 1
  apply Finset.sum_congr rfl
  intro c _
  rw [h.count_eq]

theorem entropyScore_perm {s t : Str} (h : s.Perm t) :
    entropyScore s = entropyScore t := by
  rw [entropyScore, entropyScore, shannonEntropy_perm h]

theorem printableRatio_perm {s t : Str} (h : s.Perm t) :
    printableRatio s = printableRatio t := by
  rw [printableRatio, printableRatio, h.length_eq, (h.filter _).length_eq]

theorem spaceFrequency_perm {s t : Str} (h : s.Perm t) :
    spaceFrequency s = spaceFrequency t := by
  rw [spaceFrequency, spaceFrequency, h.length_eq, (h.filter _).length_eq]

theorem alphaOnly_nil_of_letterless {s : Str}
    (h : ∀ c ∈ s, isAlphaCh c = false) : alphaOnly s = [] := by
  rw [alphaOnly, List.filter_eq_nil_iff.mpr (by intro c hc; simp [h c hc])]
  rfl

/-- The total score of a letterless text reduces to the entropy,
printable and space terms. -/
theorem scoreTotal_letterless (w : Str → Bool) (s : Str)
    (h : ∀ c ∈ s, isAlphaCh c = false) :
    (scorePlaintext w s).total =
      clamp01 (0.10 * entropyScore s + 0.10 * ((printableRatio s : ℚ) : ℝ)
        + 0.05 * max 0 (1 - |((spaceFrequency s : ℚ) : ℝ) - 0.17| / 0.17)) := by
  rw [claim_C3]
  rw [dictionaryWordRatio_zero_of_letterless w s h,
    letterFrequencyFit_zero_of_letterless s h,
    bigramFrequencyFit_zero_of_short s (by rw [alphaOnly_nil_of_letterless h]; simp)]
  norm_num

theorem scoreTotal_eq_of_perm_letterless (w : Str → Bool) {s t : Str}
    (hperm : s.Perm t) (hs : ∀ c ∈ s, isAlphaCh c = false) :
    (scorePlaintext w s).total = (scorePlaintext w t).total := by
  have ht : ∀ c ∈ t, isAlphaCh c = false := fun c hc => hs c (hperm.mem_iff.mpr hc)
  rw [scoreTotal_letterless w s hs, scoreTotal_letterless w t ht,
    entropyScore_perm hperm, printableRatio_perm hperm, spaceFrequency_perm hperm]

theorem entropyScore_le_one (s : Str) : entropyScore s ≤ 1 := by
  rw [entropyScore]
  rcases max_choice (0 : ℝ) (1 - |shannonEntropy s - 4| / 4) with h | h <;> rw [h]
  · norm_num
  · have : 0 ≤ |shannonEntropy s - 4| / 4 := by positivity
    linarith

theorem entropyScore_nonneg (s : Str) : 0 ≤ entropyScore s := le_max_left 0 _

theorem printableRatio_nonneg (s : Str) : 0 ≤ printableRatio s := by
  rw [printableRatio]
  split
  · norm_num
  · positivity

theorem printableRatio_le_one (s : Str) : printableRatio s ≤ 1 := by
  rw [printableRatio]
  split
  · norm_num
  · next h =>
    rw [div_le_one (by exact_mod_cast Nat.pos_of_ne_zero h)]
    exact_mod_cast List.length_filter_le _ s

theorem spaceScore_mem (x : ℝ) : 0 ≤ max 0 (1 - |x - 0.17| / 0.17) ∧
    max 0 (1 - |x - 0.17| / 0.17) ≤ 1 := by
  refine ⟨le_max_left 0 _, ?_⟩
  rcases max_choice (0 : ℝ) (1 - |x - 0.17| / 0.17) with h | h <;> rw [h]
  · norm_num
  · have : 0 ≤ |x - 0.17| / 0.17 := by positivity
    linarith

/-- A letterless text scores at most `1/4`. -/
theorem scoreTotal_letterless_le (w : Str → Bool) (s : Str)
    (h : ∀ c ∈ s, isAlphaCh c = false) :
    (scorePlaintext w s).total ≤ 0.25 := by
  rw [scoreTotal_letterless w s h]
  apply clamp01_le_of_le (by norm_num)
  have h1 := entropyScore_le_one s
  have h2 := entropyScore_nonneg s
  have h3 : ((printableRatio s : ℚ) : ℝ) ≤ 1 := by
    exact_mod_cast printableRatio_le_one s
  have h4 : (0:ℝ) ≤ ((printableRatio s : ℚ) : ℝ) := by
    exact_mod_cast printableRatio_nonneg s
  have h5 := spaceScore_mem (((spaceFrequency s : ℚ) : ℝ))
  nlinarith [h5.1, h5.2]

theorem scoreTotal_nonneg (w : Str → Bool) (s : Str) :
    0 ≤ (scorePlaintext w s).total := clamp01_nonneg _

theorem scoreTotal_le_one (w : Str → Bool) (s : Str) :
    (scorePlaintext w s).total ≤ 1 := clamp01_le_one _

end CodeCracker

namespace CodeCracker

/-! ## Confidence classes of the dots/spaces counterexamples -/

theorem dictionaryWordRatio_nonneg (w : Str → Bool) (s : Str) :
    0 ≤ dictionaryWordRatio w s := by
  simp only [dictionaryWordRatio]
  split
  · norm_num
  · split
    · norm_num
    · split
      · apply div_nonneg
        · apply List.sum_nonneg
          intro x hx
          rcases List.mem_map.mp hx with ⟨t, _, rfl⟩
          positivity
        · positivity
      · norm_num

theorem dictionaryWordRatio_le_one (w : Str → Bool) (s : Str) :
    dictionaryWordRatio w s ≤ 1 := by
  simp only [dictionaryWordRatio]
  split
  · norm_num
  · split
    · norm_num
    · split
      · next htot =>
        rw [div_le_one (by exact_mod_cast htot)]
        have hcast : ∀ l : List Str,
            (l.map fun x => ((x.length : ℕ) : ℚ)).sum = (((l.map (·.length)).sum : ℕ) : ℚ) := by
          intro l
          induction l with
          | nil => simp
          | cons a as ih => simp [ih]
        rw [hcast]
        have hsub : ∀ (l : List Str) (p : Str → Bool),
            ((l.filter p).map (·.length)).sum ≤ (l.map (·.length)).sum := by
          intro l p
          induction l with
          | nil => simp
          | cons a as ih =>
            rw [List.filter_cons]
            split
            · simp only [List.map_cons, List.sum_cons]
              omega
            · simp only [List.map_cons, List.sum_cons]
              omega
        exact_mod_cast hsub _ _
      · norm_num

theorem letterFrequencyFit_nonneg (s : Str) : 0 ≤ letterFrequencyFit s := by
  rw [letterFrequencyFit]
  split
  · norm_num
  · exact clamp01_nonneg _

theorem letterFrequencyFit_le_one (s : Str) : letterFrequencyFit s ≤ 1 := by
  rw [letterFrequencyFit]
  split
  · norm_num
  · exact clamp01_le_one _

/-- Morse plaintexts of the counterexamples (`"5I5"`, `"H5"`): at most
one letter and no spaces, so the total is at most `0.55`. -/
theorem scoreTotal_le_of_single (w : Str → Bool) (s : Str)
    (halpha : (alphaOnly s).length < 2) (hsf : spaceFrequency s = 0) :
    (scorePlaintext w s).total ≤ 0.55 := by
  rw [claim_C3]
  rw [letterFrequencyFit]
  rw [if_pos halpha]
  rw [bigramFrequencyFit_zero_of_short s (by omega)]
  rw [hsf]
  apply clamp01_le_of_le (by norm_num)
  have h1 : ((dictionaryWordRatio w s : ℚ) : ℝ) ≤ 1 := by
    exact_mod_cast dictionaryWordRatio_le_one w s
  have h2 : (0:ℝ) ≤ ((dictionaryWordRatio w s : ℚ) : ℝ) := by
    exact_mod_cast dictionaryWordRatio_nonneg w s
  have h3 := entropyScore_le_one s
  have h4 := entropyScore_nonneg s
  have h5 : ((printableRatio s : ℚ) : ℝ) ≤ 1 := by
    exact_mod_cast printableRatio_le_one s
  have h6 : (0:ℝ) ≤ ((printableRatio s : ℚ) : ℝ) := by
    exact_mod_cast printableRatio_nonneg s
  have h7 : max 0 (1 - |((0 : ℚ) : ℝ) - 0.17| / 0.17) = 0 := by
    have habs : |((0 : ℚ) : ℝ) - 0.17| = 0.17 := by
      rw [show ((0:ℚ):ℝ) - 0.17 = -(0.17 : ℝ) by norm_num, abs_neg,
        abs_of_pos (by norm_num)]
    rw [habs]
    norm_num
  rw [h7]
  linarith

theorem finalConfidence_eq_self {d q : ℝ} (h0 : 0 ≤ 0.4 * d + 0.6 * q)
    (h1 : 0.4 * d + 0.6 * q ≤ 1) : finalConfidence d q = 0.4 * d + 0.6 * q := by
  rw [finalConfidence, clamp01_eq_self h0 h1]

theorem permConf_eq {qP : ℝ} (h0 : 0 ≤ qP) (h1 : qP ≤ 1) :
    finalConfidence 0.15 qP = 0.06 + 0.6 * qP := by
  rw [finalConfidence_eq_self (by linarith) (by linarith)]
  norm_num

theorem morseConf_eq {qM : ℝ} (h0 : 0 ≤ qM) (h1 : qM ≤ 1) :
    finalConfidence 0.9 qM = 0.36 + 0.6 * qM := by
  rw [finalConfidence_eq_self (by linarith) (by linarith)]
  norm_num

theorem rGt_morse_perm {qM qP : ℝ} (hM0 : 0 ≤ qM) (hM1 : qM ≤ 1)
    (hP0 : 0 ≤ qP) (hP1 : qP ≤ 0.25) :
    rGt (finalConfidence 0.9 qM) (finalConfidence 0.15 qP) = true := by
  rw [morseConf_eq hM0 hM1, permConf_eq hP0 (by linarith)]
  exact rGt_eq_true (by linarith)

theorem rGe_morse_perm {qM qP : ℝ} (hM0 : 0 ≤ qM) (hM1 : qM ≤ 1)
    (hP0 : 0 ≤ qP) (hP1 : qP ≤ 0.25) :
    rGe (finalConfidence 0.9 qM) (finalConfidence 0.15 qP) = true := by
  rw [morseConf_eq hM0 hM1, permConf_eq hP0 (by linarith)]
  exact rGe_eq_true (by linarith)

theorem rGe_perm_min {qP : ℝ} (hP0 : 0 ≤ qP) (hP1 : qP ≤ 1) :
    rGe (finalConfidence 0.15 qP) 0.01 = true := by
  rw [permConf_eq hP0 hP1]
  exact rGe_eq_true (by linarith)

theorem rGe_morse_min {qM : ℝ} (hM0 : 0 ≤ qM) (hM1 : qM ≤ 1) :
    rGe (finalConfidence 0.9 qM) 0.01 = true := by
  rw [morseConf_eq hM0 hM1]
  exact rGe_eq_true (by linarith)

theorem rGt_perm_high {qP : ℝ} (hP0 : 0 ≤ qP) (hP1 : qP ≤ 0.25) :
    rGt (finalConfidence 0.15 qP) 0.8 = false := by
  rw [permConf_eq hP0 (by linarith)]
  exact rGt_eq_false (by linarith)

theorem rGt_morse_high {qM : ℝ} (hM0 : 0 ≤ qM) (hM1 : qM ≤ 0.55) :
    rGt (finalConfidence 0.9 qM) 0.8 = false := by
  rw [morseConf_eq hM0 (by linarith)]
  exact rGt_eq_false (by linarith)

theorem chain'_rGe_of_all_eq {l : List α} {f : α → ℝ} {q : ℝ}
    (h : ∀ x ∈ l, f x = q) :
    l.Chain' (fun a b => rGe (f a) (f b) = true) := by
  induction l with
  | nil => exact List.chain'_nil
  | cons x xs ih =>
    rw [List.chain'_cons']
    refine ⟨?_, ih fun y hy => h y (List.mem_cons_of_mem x hy)⟩
    intro z hz
    rcases xs with _ | ⟨w, ws⟩
    · simp at hz
    · simp only [List.head?_cons, Option.mem_some_iff] at hz
      rw [← hz]
      rw [h x (List.mem_cons_self x _), h w (by simp)]
      exact rGe_refl q

end CodeCracker

namespace CodeCracker

/-! ## Plumbing: the orchestrator's filter and slice -/

theorem crackFilter_sublist (mc : ℝ) (seen : List Str) (l : List CrackResult) :
    (crackFilter mc seen l).Sublist l := by
  induction l generalizing seen with
  | nil => simp [crackFilter]
  | cons r rs ih =>
    rw [crackFilter]
    split
    · exact (ih seen).cons r
    · split
      · exact (ih seen).cons r
      · exact (ih _).cons₂ r

theorem crackFilter_keep {mc : ℝ} {seen : List Str} {r : CrackResult}
    (rs : List CrackResult) (h1 : rGe r.confidence mc = true)
    (h2 : trim r.plaintext ∉ seen) :
    crackFilter mc seen (r :: rs) =
      r :: crackFilter mc (trim r.plaintext :: seen) rs := by
  rw [crackFilter]
  rw [if_neg (by simp [h1]), if_neg h2]

theorem jsSliceEnd_eq_take {e : ℤ} (he : 0 ≤ e) (l : List α) :
    jsSliceEnd e l = l.take e.toNat := by
  rw [jsSliceEnd, if_neg (by omega)]

theorem jsSliceEnd_sublist (e : ℤ) (l : List α) : (jsSliceEnd e l).Sublist l := by
  rw [jsSliceEnd]
  split
  · exact List.take_sublist _ l
  · exact List.take_sublist _ l

/-- Membership form of the `crack` per-level pipeline: every final
result of one `crackGo` level with the recursion branch disabled or
resolved comes from the rescored solver output. -/
theorem mem_of_mem_slice_filter_sort {e : ℤ} {mc : ℝ} {seen : List Str}
    {l : List CrackResult} {r : CrackResult}
    (h : r ∈ jsSliceEnd e (crackFilter mc seen
      (sortGeB (fun a b => rGe a.confidence b.confidence) l))) : r ∈ l := by
  have h1 := (jsSliceEnd_sublist e _).mem h
  have h2 := (crackFilter_sublist mc seen _).mem h1
  exact mem_sortGeB.mp h2

end CodeCracker

namespace CodeCracker

/-! ## Detection of the dots/spaces counterexample inputs -/

theorem detectByPattern_dots (X : Str)
    (htrim : trim X = X) (hne : X ≠ [])
    (hmorse : isMorseString X = true) (hlen3 : 3 ≤ X.length)
    (hbin : isBinaryString X = false) (hurl : hasUrlEncoding X = false)
    (hhex : isHexString X = false) (hb32 : isBase32String X = false)
    (hb64 : isBase64String X = false)
    (halpha : X.all isAlphaWs = false)
    (hpunct : X.all isAlphaPunct = true) (hlen10 : 10 ≤ X.length) :
    detectByPattern X = [⟨.morse, 0.9⟩, ⟨.railFence, 0.15⟩,
      ⟨.columnarTransposition, 0.15⟩] := by
  have hchain : ([⟨.morse, 0.9⟩, ⟨.railFence, 0.15⟩,
      ⟨.columnarTransposition, 0.15⟩] : List DetectionCandidate).Chain'
      (fun a b => rGe a.confidence b.confidence = true) := by
    simp only [List.chain'_cons, List.chain'_singleton, and_true]
    exact ⟨rGe_eq_true (by norm_num), rGe_eq_true (by norm_num)⟩
  simp only [detectByPattern, htrim, hmorse, hbin, hurl, hhex, hb32, hb64, halpha,
    hpunct, hlen3, hlen10, hne, ne_eq, not_false_iff, Bool.false_eq_true, false_and,
    and_false, true_and, and_true, if_true, if_false, List.append_nil, List.nil_append,
    List.any_cons, List.any_nil, Bool.or_false, not_false_eq_true, ge_iff_le]
  rw [if_pos (by decide)]
  rw [List.singleton_append]
  exact sortGeB_eq_self_of_chain' hchain

theorem detect_dots (X : Str)
    (htrim : trim X = X) (hne : X ≠ [])
    (hmorse : isMorseString X = true) (hlen3 : 3 ≤ X.length)
    (hbin : isBinaryString X = false) (hurl : hasUrlEncoding X = false)
    (hhex : isHexString X = false) (hb32 : isBase32String X = false)
    (hb64 : isBase64String X = false)
    (halpha : X.all isAlphaWs = false)
    (hpunct : X.all isAlphaPunct = true) (hlen10 : 10 ≤ X.length)
    (hratio : ¬ ((analyzeCharset X).alphaRatio > 0.7)) :
    detect X = [⟨.morse, 0.9⟩, ⟨.railFence, 0.15⟩, ⟨.columnarTransposition, 0.15⟩] := by
  have hchain : ([⟨.morse, 0.9⟩, ⟨.railFence, 0.15⟩,
      ⟨.columnarTransposition, 0.15⟩] : List DetectionCandidate).Chain'
      (fun a b => rGe a.confidence b.confidence = true) := by
    simp only [List.chain'_cons, List.chain'_singleton, and_true]
    exact ⟨rGe_eq_true (by norm_num), rGe_eq_true (by norm_num)⟩
  rw [detect]
  rw [if_neg (show ¬ (trim X = []) by rw [htrim]; exact hne)]
  simp only [htrim]
  rw [detectByPattern_dots X htrim hne hmorse hlen3 hbin hurl hhex hb32 hb64 halpha
    hpunct hlen10]
  rw [if_neg (by simp [hratio])]
  have hmerge : mergeCands ([⟨.morse, 0.9⟩, ⟨.railFence, 0.15⟩,
      ⟨.columnarTransposition, 0.15⟩] ++ []) =
      [⟨.morse, 0.9⟩, ⟨.railFence, 0.15⟩, ⟨.columnarTransposition, 0.15⟩] := by
    simp only [List.append_nil, mergeCands, List.foldl_cons, List.foldl_nil]
    rw [if_neg (by simp)]
    rw [if_neg (by simp)]
    rw [if_neg (by simp)]
    rfl
  rw [hmerge, sortGeB_eq_self_of_chain' hchain]

end CodeCracker

namespace CodeCracker

/-! ## Solver resolution and evaluation on the counterexample inputs -/

theorem getSolver_morse (env : Env) : getSolver env .morse = some morseSolver := by
  simp [getSolver, getSolverIn, builtinSolvers, List.find?, caesarSolver, rot13Solver,
    atbashSolver, vigenereSolver, substitutionSolver, railFenceSolver, playfairSolver,
    columnarSolver, base64Solver, base32Solver, hexSolver, binarySolver, urlSolver,
    morseSolver]

theorem getSolver_railFence (env : Env) :
    getSolver env .railFence = some (railFenceSolver env) := by
  simp [getSolver, getSolverIn, builtinSolvers, List.find?, caesarSolver, rot13Solver,
    atbashSolver, vigenereSolver, substitutionSolver, railFenceSolver]

theorem getSolver_columnar (env : Env) :
    getSolver env .columnarTransposition = some (columnarSolver env) := by
  simp [getSolver, getSolverIn, builtinSolvers, List.find?, caesarSolver, rot13Solver,
    atbashSolver, vigenereSolver, substitutionSolver, railFenceSolver, playfairSolver,
    columnarSolver]

theorem morseSolve_nil {X : Str} (opts : SolverOptions)
    (hdm : decodeMorse (trim X) = []) : morseSolve X opts = [] := by
  simp only [morseSolve, hdm]
  split
  · rfl
  · simp

theorem morseSolve_success {X d : Str} (opts : SolverOptions)
    (hg : trim X ≠ [] ∧ (trim X).all fun c =>
      c = '.' || c = '-' || isWhite c || c = '/')
    (hdm : decodeMorse (trim X) = d) (hdne : d ≠ [])
    (hpr : ¬ (solverPrintableRatio d < 0.8)) :
    morseSolve X opts =
      [{ plaintext := d, cipherType := .morse,
         confidence := ((min (solverPrintableRatio d) 1 : ℚ) : ℝ) }] := by
  simp only [morseSolve, hdm]
  rw [if_neg (not_not_intro hg)]
  rw [if_neg (by simpa using hdne)]
  rw [if_neg hpr]

/-- The rail-fence solver on a letterless input whose rail decrypts
are all permutations of it: the internal score sort is the identity,
so the output is the first five rails in order. -/
theorem railFenceSolve_eval (env : Env) (X : Str) (opts : SolverOptions)
    (hmr : opts.maxResults = none)
    (hperm : ∀ r ∈ (List.range' 2 9).takeWhile (· < X.length),
      (railDecrypt X r).Perm X)
    (hll : ∀ c ∈ X, isAlphaCh c = false) :
    railFenceSolve env X opts =
      ((((List.range' 2 9).takeWhile (· < X.length)).take 5).map fun rails =>
        ({ plaintext := railDecrypt X rails, cipherType := .railFence,
           confidence := (scorePlaintext env.words (railDecrypt X rails)).total,
           key := some (.num (rails : ℤ)) } : CrackResult)) := by
  simp only [railFenceSolve, hmr, Option.getD_none]
  have hall : ∀ x ∈ ((List.range' 2 9).takeWhile (· < X.length)).map fun rails =>
      (railDecrypt X rails, (scorePlaintext env.words (railDecrypt X rails)).total, rails),
      x.2.1 = (scorePlaintext env.words X).total := by
    intro x hx
    rcases List.mem_map.mp hx with ⟨r, hr, rfl⟩
    exact scoreTotal_eq_of_perm_letterless env.words (hperm r hr)
      (fun c hc => hll c ((hperm r hr).mem_iff.mp hc))
  rw [sortGeB_eq_self_of_chain' (chain'_rGe_of_all_eq hall)]
  rw [jsSliceEnd_eq_take (by norm_num)]
  rw [← List.map_take]
  rw [List.map_map]
  rfl

/-- The columnar solver on a letterless input: every generated
permutation decrypt is a character permutation, so the score sort is
the identity and the output is the first five scored entries. -/
theorem columnarSolve_eval (env : Env) (X : Str) (opts : SolverOptions)
    (hmr : opts.maxResults = none) (hXne : X ≠ [])
    (hll : ∀ c ∈ X, isAlphaCh c = false) :
    columnarSolve env X opts =
      ((((List.range' 2 9).flatMap fun keyLength =>
        ((if keyLength ≤ 7 then generatePermutations keyLength
          else [List.range keyLength, (List.range keyLength).reverse]).map
          fun perm => (columnarDecrypt X perm, keyLength))).take 5).map fun t =>
        ({ plaintext := t.1, cipherType := .columnarTransposition,
           confidence := (scorePlaintext env.words t.1).total,
           key := some (.num (t.2 : ℤ)) } : CrackResult)) := by
  simp only [columnarSolve, hmr, Option.getD_none]
  have hdec : ∀ keyLength ∈ List.range' 2 9,
      ∀ perm ∈ (if keyLength ≤ 7 then generatePermutations keyLength
        else [List.range keyLength, (List.range keyLength).reverse]),
      (columnarDecrypt X perm).Perm X := by
    intro keyLength hkL perm hperm
    have hk2 : 2 ≤ keyLength := by
      rw [List.mem_range'] at hkL
      omega
    have hp : perm.Perm (List.range perm.length) ∧ 0 < perm.length := by
      split at hperm
      · have h1 := generatePermutations_perm hperm
        have h2 := mem_generatePermutations_length hperm
        rw [h2]
        exact ⟨h1, by omega⟩
      · rcases List.mem_cons.mp hperm with rfl | hperm'
        · simp
          omega
        · rcases List.mem_singleton.mp hperm' with rfl
          simp only [List.length_reverse, List.length_range]
          exact ⟨(List.reverse_perm _).trans (List.Perm.refl _), by omega⟩
    exact columnarDecrypt_perm X perm hp.1 hp.2
  have hall : ∀ x ∈ (List.range' 2 9).flatMap fun keyLength =>
      ((if keyLength ≤ 7 then generatePermutations keyLength
        else [List.range keyLength, (List.range keyLength).reverse]).map
        fun perm => (columnarDecrypt X perm,
          (scorePlaintext env.words (columnarDecrypt X perm)).total, keyLength)),
      x.2.1 = (scorePlaintext env.words X).total := by
    intro x hx
    rcases List.mem_flatMap.mp hx with ⟨keyLength, hkL, hx'⟩
    rcases List.mem_map.mp hx' with ⟨perm, hperm, rfl⟩
    exact scoreTotal_eq_of_perm_letterless env.words (hdec keyLength hkL perm hperm)
      (fun c hc => hll c ((hdec keyLength hkL perm hperm).mem_iff.mp hc))
  rw [sortGeB_eq_self_of_chain' (chain'_rGe_of_all_eq hall)]
  rw [jsSliceEnd_eq_take (by norm_num)]
  have hmapstruct : ((List.range' 2 9).flatMap fun keyLength =>
      ((if keyLength ≤ 7 then generatePermutations keyLength
        else [List.range keyLength, (List.range keyLength).reverse]).map
        fun perm => (columnarDecrypt X perm,
          (scorePlaintext env.words (columnarDecrypt X perm)).total, keyLength)))
      = ((List.range' 2 9).flatMap fun keyLength =>
      ((if keyLength ≤ 7 then generatePermutations keyLength
        else [List.range keyLength, (List.range keyLength).reverse]).map
        fun perm => (columnarDecrypt X perm, keyLength))).map
        fun t => (t.1, (scorePlaintext env.words t.1).total, t.2) := by
    rw [List.map_flatMap]
    apply List.flatMap_congr
    intro keyLength _
    rw [List.map_map]
    rfl
  rw [hmapstruct, ← List.map_take, List.map_map]
  rfl

end CodeCracker

namespace CodeCracker

theorem rGe_perm_morse_false {qM qP : ℝ} (hM0 : 0 ≤ qM) (hM1 : qM ≤ 1)
    (hP0 : 0 ≤ qP) (hP1 : qP ≤ 0.25) :
    rGe (finalConfidence 0.15 qP) (finalConfidence 0.9 qM) = false := by
  rw [morseConf_eq hM0 hM1, permConf_eq hP0 (by linarith)]
  exact rGe_eq_false (by linarith)

theorem spaceFrequency_zero {s : Str} (h : ∀ c ∈ s, ¬ (c = ' ')) :
    spaceFrequency s = 0 := by
  rw [spaceFrequency]
  split
  · rfl
  · rw [List.filter_eq_nil_iff.mpr (by intro c hc; simpa using h c hc)]
    simp

theorem filterMap_eq_nil_of {f : α → Option β} {l : List α}
    (h : ∀ x ∈ l, f x = none) : l.filterMap f = [] := by
  induction l with
  | nil => rfl
  | cons a as ih =>
    rw [List.filterMap_cons, h a (List.mem_cons_self a as)]
    exact ih fun x hx => h x (List.mem_cons_of_mem a hx)

/-- The candidate loop on the three dots/spaces candidates. -/
theorem candidateResults_morse_eval (env : Env) (X : Str) (sOpts : SolverOptions) :
    candidateResults env X sOpts ⟨.morse, 0.9⟩ =
      (morseSolve X sOpts).map fun r =>
        { r with confidence := finalConfidence 0.9 (scorePlaintext env.words r.plaintext).total,
                 details := { r.details with
                   qualityScore := some (scorePlaintext env.words r.plaintext) } } := by
  rw [candidateResults, getSolver_morse]
  rfl

theorem candidateResults_rail_eval (env : Env) (X : Str) (sOpts : SolverOptions) :
    candidateResults env X sOpts ⟨.railFence, 0.15⟩ =
      (railFenceSolve env X sOpts).map fun r =>
        { r with confidence := finalConfidence 0.15 (scorePlaintext env.words r.plaintext).total,
                 details := { r.details with
                   qualityScore := some (scorePlaintext env.words r.plaintext) } } := by
  rw [candidateResults, getSolver_railFence]
  rfl

theorem candidateResults_col_eval (env : Env) (X : Str) (sOpts : SolverOptions) :
    candidateResults env X sOpts ⟨.columnarTransposition, 0.15⟩ =
      (columnarSolve env X sOpts).map fun r =>
        { r with confidence := finalConfidence 0.15 (scorePlaintext env.words r.plaintext).total,
                 details := { r.details with
                   qualityScore := some (scorePlaintext env.words r.plaintext) } } := by
  rw [candidateResults, getSolver_columnar]
  rfl

end CodeCracker


namespace CodeCracker

/-! ## Per-level evaluation of `crackGo` -/

/-- Character-permutation fact for every columnar candidate decrypt. -/
theorem columnarGen_perm (X : Str) :
    ∀ keyLength ∈ List.range' 2 9,
      ∀ perm ∈ (if keyLength ≤ 7 then generatePermutations keyLength
        else [List.range keyLength, (List.range keyLength).reverse]),
      (columnarDecrypt X perm).Perm X := by
  intro keyLength hkL perm hperm
  have hk2 : 2 ≤ keyLength := by
    rw [List.mem_range'] at hkL
    omega
  have hp : perm.Perm (List.range perm.length) ∧ 0 < perm.length := by
    split at hperm
    · have h1 := generatePermutations_perm hperm
      have h2 := mem_generatePermutations_length hperm
      rw [h2]
      exact ⟨h1, by omega⟩
    · rcases List.mem_cons.mp hperm with rfl | hperm'
      · simp
        omega
      · rcases List.mem_singleton.mp hperm' with rfl
        simp only [List.length_reverse, List.length_range]
        exact ⟨(List.reverse_perm _).trans (List.Perm.refl _), by omega⟩
  exact columnarDecrypt_perm X perm hp.1 hp.2

/-- A `crackGo` level with `maxDepth = 1` skips the recursion branch:
the response is slice-filter-sort of the per-candidate solver runs. -/
theorem crackGo_depth1 (env : Env) (fuel : ℕ) (X : Str) (opts : CrackOptions)
    (hdep : opts.maxDepth = some 1)
    (hne : ¬ ((trim X).length = 0)) (hcands : ¬ ((detect X).length = 0)) :
    crackGo env fuel X opts =
      { results := jsSliceEnd (opts.maxResults.getD 10)
          (jsSliceEnd (opts.maxResults.getD 10)
            (crackFilter (opts.minConfidence.getD 0.01) []
              (sortGeB (fun a b => rGe a.confidence b.confidence)
                ((detect X).flatMap
                  (candidateResults env X { key := opts.key, iv := opts.iv }))))),
        warnings := if X.length < 20 then
          [str "Short input (< 20 chars) may produce unreliable results"]
          else [] } := by
  rw [crackGo]
  simp only [hdep, Option.getD_some]
  rw [if_neg hne, if_neg hcands]
  rw [if_neg (by norm_num)]

/-- A `crackGo` level with `maxDepth > 1` and positive fuel runs the
recursion branch on the sliced deduped list. -/
theorem crackGo_depthN (env : Env) (f : ℕ) (X : Str) (opts : CrackOptions) (d : ℤ)
    (hdg : opts.maxDepth.getD 3 = d) (hd : 1 < d)
    (hne : ¬ ((trim X).length = 0)) (hcands : ¬ ((detect X).length = 0)) :
    crackGo env (f + 1) X opts =
      { results := jsSliceEnd (opts.maxResults.getD 10)
          (tryRecursiveDecode (crackGo env f)
            (jsSliceEnd (opts.maxResults.getD 10)
              (crackFilter (opts.minConfidence.getD 0.01) []
                (sortGeB (fun a b => rGe a.confidence b.confidence)
                  ((detect X).flatMap
                    (candidateResults env X { key := opts.key, iv := opts.iv })))))
            { opts with maxDepth := some (d - 1),
                        maxResults := some (opts.maxResults.getD 10) }),
        warnings := if X.length < 20 then
          [str "Short input (< 20 chars) may produce unreliable results"]
          else [] } := by
  rw [crackGo]
  simp only [hdg]
  rw [if_neg hne, if_neg hcands]
  rw [if_pos hd]

/-- A depth-1 `crackGo` level on a dots/spaces input whose Morse
decode fails: every returned result is a rail/columnar candidate
rescored to the perm-class confidence. -/
theorem crackGo_fail_class (env : Env) (X : Str) (fuel : ℕ) (opts : CrackOptions)
    (hdet : detect X =
      [⟨.morse, 0.9⟩, ⟨.railFence, 0.15⟩, ⟨.columnarTransposition, 0.15⟩])
    (htne : trim X ≠ []) (hXne : X ≠ [])
    (hmorse : morseSolve X { key := opts.key, iv := opts.iv } = [])
    (hll : ∀ c ∈ X, isAlphaCh c = false)
    (hperm : ∀ r ∈ (List.range' 2 9).takeWhile (· < X.length),
      (railDecrypt X r).Perm X)
    (hkey : opts.key = none) (hiv : opts.iv = none) (hdep : opts.maxDepth = some 1) :
    ∀ r ∈ (crackGo env fuel X opts).results,
      r.confidence = finalConfidence 0.15 ((scorePlaintext env.words X).total) := by
  intro r hr
  rw [crackGo_depth1 env fuel X opts hdep (by simpa using htne)
    (by rw [hdet]; simp)] at hr
  simp only [CrackResponse.results] at hr
  have hr2 := (jsSliceEnd_sublist _ _).mem hr
  have hr3 := mem_of_mem_slice_filter_sort hr2
  rw [hdet] at hr3
  rw [List.flatMap_cons, List.flatMap_cons, List.flatMap_cons, List.flatMap_nil] at hr3
  rw [candidateResults_morse_eval, hmorse] at hr3
  rw [List.map_nil, List.nil_append, List.append_nil] at hr3
  rw [hkey, hiv] at hr3
  rcases List.mem_append.mp hr3 with h | h
  · rw [candidateResults_rail_eval,
      railFenceSolve_eval env X _ rfl hperm hll] at h
    rcases List.mem_map.mp h with ⟨r0, hr0, rfl⟩
    rcases List.mem_map.mp hr0 with ⟨rails, hrails, rfl⟩
    simp only
    congr 1
    have hp := hperm rails (List.mem_of_mem_take hrails)
    exact scoreTotal_eq_of_perm_letterless env.words hp
      (fun c hc => hll c (hp.mem_iff.mp hc))
  · rw [candidateResults_col_eval,
      columnarSolve_eval env X _ rfl hXne hll] at h
    rcases List.mem_map.mp h with ⟨r0, hr0, rfl⟩
    rcases List.mem_map.mp hr0 with ⟨t, ht, rfl⟩
    simp only
    congr 1
    have ht' := List.mem_of_mem_take ht
    rcases List.mem_flatMap.mp ht' with ⟨keyLength, hkL, htm⟩
    rcases List.mem_map.mp htm with ⟨perm, hpm, heq⟩
    have hp : (columnarDecrypt X perm).Perm X := columnarGen_perm X keyLength hkL perm hpm
    rw [← heq]
    exact scoreTotal_eq_of_perm_letterless env.words hp
      (fun c hc => hll c (hp.mem_iff.mp hc))

end CodeCracker

namespace CodeCracker

/-- The alpha ratio of a letterless text never clears the statistical
gate of `detect`. -/
theorem alphaRatio_letterless (X : Str) (hll : ∀ c ∈ X, isAlphaCh c = false) :
    ¬ ((analyzeCharset X).alphaRatio > 0.7) := by
  rw [analyzeCharset]
  simp only
  rw [List.filter_eq_nil_iff.mpr (by intro c hc; simp [hll c hc])]
  split
  · simp only [List.length_nil, Nat.cast_zero, zero_div]
    norm_num
  · norm_num

/-- `detect` only looks at the trimmed ciphertext. -/
theorem detect_eq_of_trim (X Y : Str) (h : trim X = Y) (hY : trim Y = Y) :
    detect X = detect Y := by
  rw [detect, detect, h, hY]

/-- Descending chain for a head above a constant-confidence tail. -/
theorem chain'_cons_of_all_eq {l : List CrackResult} {c : ℝ} (M : CrackResult)
    (hall : ∀ x ∈ l, x.confidence = c) (hM : rGe M.confidence c = true) :
    (M :: l).Chain' (fun a b => rGe a.confidence b.confidence = true) := by
  cases l with
  | nil => simp
  | cons b t =>
    refine List.chain'_cons.mpr ⟨?_, ?_⟩
    · rw [hall b (List.mem_cons_self b t)]
      exact hM
    · exact chain'_rGe_of_all_eq hall

end CodeCracker

namespace CodeCracker

theorem mkRes_confidence (w : Str → Bool) (d : ℝ) (t : CipherType) (p : Str)
    (k : Option KeyV) :
    (mkRes w d t p k).confidence = finalConfidence d (scorePlaintext w p).total := rfl

theorem mkRes_plaintext (w : Str → Bool) (d : ℝ) (t : CipherType) (p : Str)
    (k : Option KeyV) : (mkRes w d t p k).plaintext = p := rfl

theorem take3_cons {α : Type _} (a b c : α) (l : List α) :
    (a :: b :: c :: l).take 3 = [a, b, c] := rfl

/-- Sort / filter / slice pipeline of one `crack` level, on a list
headed by a dominant result followed by equal-confidence candidates
with distinct leading trims: the slice is the first three entries. -/
theorem sortFilterSlice_eval {e : ℤ} {mc : ℝ} {M R2 R3 : CrackResult}
    {rest : List CrackResult} (cP : ℝ) (he : e.toNat = 3)
    (h2c : R2.confidence = cP) (h3c : R3.confidence = cP)
    (hrest : ∀ x ∈ rest, x.confidence = cP)
    (hM : rGe M.confidence cP = true)
    (hMmc : rGe M.confidence mc = true) (hPmc : rGe cP mc = true)
    (ht1 : trim R2.plaintext ≠ trim M.plaintext)
    (ht2 : trim R3.plaintext ≠ trim M.plaintext)
    (ht3 : trim R3.plaintext ≠ trim R2.plaintext) :
    jsSliceEnd e (jsSliceEnd e (crackFilter mc []
      (sortGeB (fun a b => rGe a.confidence b.confidence)
        (M :: R2 :: R3 :: rest)))) = [M, R2, R3] := by
  have hall : ∀ x ∈ R2 :: R3 :: rest, x.confidence = cP := by
    intro x hx
    rcases List.mem_cons.mp hx with rfl | hx'
    · exact h2c
    rcases List.mem_cons.mp hx' with rfl | hx''
    · exact h3c
    · exact hrest x hx''
  rw [sortGeB_eq_self_of_chain' (chain'_cons_of_all_eq M hall hM)]
  have k2 : rGe R2.confidence mc = true := by rw [h2c]; exact hPmc
  have k3 : rGe R3.confidence mc = true := by rw [h3c]; exact hPmc
  have m1 : trim M.plaintext ∉ ([] : List Str) := by simp
  have m2 : trim R2.plaintext ∉ ([trim M.plaintext] : List Str) := by simpa using ht1
  have m3 : trim R3.plaintext ∉
      ([trim R2.plaintext, trim M.plaintext] : List Str) := by simp [ht2, ht3]
  rw [crackFilter_keep _ hMmc m1]
  rw [crackFilter_keep _ k2 m2]
  rw [crackFilter_keep _ k3 m3]
  rw [jsSliceEnd_eq_take (by omega), jsSliceEnd_eq_take (by omega), he]
  rw [take3_cons, take3_cons]

theorem morse_map_mkRes (env : Env) (d : Str) (c : ℝ) :
    List.map (fun (r : CrackResult) =>
      { r with confidence := finalConfidence 0.9 (scorePlaintext env.words r.plaintext).total,
               details := { r.details with
                 qualityScore := some (scorePlaintext env.words r.plaintext) } })
      [({ plaintext := d, cipherType := .morse, confidence := c } : CrackResult)] =
    [mkRes env.words 0.9 .morse d none] := rfl

theorem rail_map_mkRes (env : Env) (X : Str) :
    List.map ((fun (r : CrackResult) =>
      { r with confidence := finalConfidence 0.15 (scorePlaintext env.words r.plaintext).total,
               details := { r.details with
                 qualityScore := some (scorePlaintext env.words r.plaintext) } })
      ∘ (fun (rails : ℕ) =>
        ({ plaintext := railDecrypt X rails, cipherType := .railFence,
           confidence := (scorePlaintext env.words (railDecrypt X rails)).total,
           key := some (.num (rails : ℤ)) } : CrackResult)))
      [2, 3, 4, 5, 6] =
    [mkRes env.words 0.15 .railFence (railDecrypt X 2) (some (.num 2)),
     mkRes env.words 0.15 .railFence (railDecrypt X 3) (some (.num 3)),
     mkRes env.words 0.15 .railFence (railDecrypt X 4) (some (.num 4)),
     mkRes env.words 0.15 .railFence (railDecrypt X 5) (some (.num 5)),
     mkRes env.words 0.15 .railFence (railDecrypt X 6) (some (.num 6))] := rfl

/-- A depth-1 `crackGo` level (maxResults 3) on a dots/spaces input
whose Morse decode succeeds: the morse result leads, followed by the
first two rail-fence candidates. -/
theorem crackGo_morse3 (env : Env) (fuel : ℕ) (X d : Str) (opts : CrackOptions)
    (hdep : opts.maxDepth = some 1) (hmr : opts.maxResults = some 3)
    (hmc : opts.minConfidence = none)
    (hdet : detect X =
      [⟨.morse, 0.9⟩, ⟨.railFence, 0.15⟩, ⟨.columnarTransposition, 0.15⟩])
    (hXtrim : trim X = X) (hXne : X ≠ [])
    (hll : ∀ c ∈ X, isAlphaCh c = false)
    (hperm : ∀ r ∈ (List.range' 2 9).takeWhile (· < X.length),
      (railDecrypt X r).Perm X)
    (hr5 : ((List.range' 2 9).takeWhile (· < X.length)).take 5 = [2, 3, 4, 5, 6])
    (hg : trim X ≠ [] ∧ (trim X).all fun c =>
      c = '.' || c = '-' || isWhite c || c = '/')
    (hdm : decodeMorse (trim X) = d) (hdne : d ≠ [])
    (hpr : ¬ (solverPrintableRatio d < 0.8))
    (ht1 : trim (railDecrypt X 2) ≠ trim d)
    (ht2 : trim (railDecrypt X 3) ≠ trim d)
    (ht3 : trim (railDecrypt X 3) ≠ trim (railDecrypt X 2)) :
    (crackGo env fuel X opts).results =
      [mkRes env.words 0.9 .morse d none,
       mkRes env.words 0.15 .railFence (railDecrypt X 2) (some (.num 2)),
       mkRes env.words 0.15 .railFence (railDecrypt X 3) (some (.num 3))] := by
  have hsX : ∀ {Y : Str}, Y.Perm X →
      (scorePlaintext env.words Y).total = (scorePlaintext env.words X).total :=
    fun {Y} hp => scoreTotal_eq_of_perm_letterless env.words hp
      (fun c hc => hll c (hp.mem_iff.mp hc))
  have hq : ∀ k ∈ ([2, 3, 4, 5, 6] : List ℕ), (railDecrypt X k).Perm X := by
    intro k hk
    exact hperm k (List.mem_of_mem_take (by rw [hr5]; exact hk))
  rw [crackGo_depth1 env fuel X opts hdep (by rw [hXtrim]; simpa using hXne)
    (by rw [hdet]; simp)]
  simp only [CrackResponse.results]
  rw [hdet, List.flatMap_cons, List.flatMap_cons, List.flatMap_cons, List.flatMap_nil,
    List.append_nil]
  rw [candidateResults_morse_eval, morseSolve_success _ hg hdm hdne hpr, morse_map_mkRes]
  rw [candidateResults_rail_eval, railFenceSolve_eval env X _ rfl hperm hll,
    List.map_map, hr5, rail_map_mkRes]
  rw [candidateResults_col_eval, columnarSolve_eval env X _ rfl hXne hll, List.map_map]
  rw [List.singleton_append, List.cons_append, List.cons_append, List.cons_append,
    List.cons_append, List.cons_append, List.nil_append]
  refine sortFilterSlice_eval (finalConfidence 0.15 (scorePlaintext env.words X).total)
    (by rw [hmr, Option.getD_some]; rfl) ?_ ?_ ?_ ?_ ?_ ?_ ?_ ?_ ?_
  · rw [mkRes_confidence, hsX (hq 2 (by simp))]
  · rw [mkRes_confidence, hsX (hq 3 (by simp))]
  · intro x hx
    rcases List.mem_cons.mp hx with rfl | hx'
    · rw [mkRes_confidence, hsX (hq 4 (by simp))]
    rcases List.mem_cons.mp hx' with rfl | hx''
    · rw [mkRes_confidence, hsX (hq 5 (by simp))]
    rcases List.mem_cons.mp hx'' with rfl | hx'''
    · rw [mkRes_confidence, hsX (hq 6 (by simp))]
    rcases List.mem_map.mp hx''' with ⟨t, ht, rfl⟩
    have ht' := List.mem_of_mem_take ht
    rcases List.mem_flatMap.mp ht' with ⟨keyLength, hkL, htm⟩
    rcases List.mem_map.mp htm with ⟨perm, hpm, heq⟩
    have hp : (columnarDecrypt X perm).Perm X := columnarGen_perm X keyLength hkL perm hpm
    simp only [Function.comp_apply]
    rw [← heq]
    simp only
    congr 1
    exact hsX hp
  · rw [mkRes_confidence]
    exact rGe_morse_perm (scoreTotal_nonneg _ _) (scoreTotal_le_one _ _)
      (scoreTotal_nonneg _ _) (scoreTotal_letterless_le env.words X hll)
  · rw [mkRes_confidence, hmc, Option.getD_none]
    exact rGe_morse_min (scoreTotal_nonneg _ _) (scoreTotal_le_one _ _)
  · rw [hmc, Option.getD_none]
    exact rGe_perm_min (scoreTotal_nonneg _ _) (scoreTotal_le_one _ _)
  · rw [mkRes_plaintext, mkRes_plaintext]
    exact ht1
  · rw [mkRes_plaintext, mkRes_plaintext]
    exact ht2
  · rw [mkRes_plaintext, mkRes_plaintext]
    exact ht3

end CodeCracker

namespace CodeCracker

theorem take1_cons {α : Type _} (a : α) (l : List α) : (a :: l).take 1 = [a] := rfl

theorem take2_cons {α : Type _} (a b : α) (l : List α) :
    (a :: b :: l).take 2 = [a, b] := rfl

theorem take3_pair {α : Type _} (a b : α) : ([a, b] : List α).take 3 = [a, b] := rfl

theorem chain'_conf_of_all_eq {l : List CrackResult} {c : ℝ}
    (hall : ∀ x ∈ l, x.confidence = c) :
    l.Chain' (fun a b => rGe a.confidence b.confidence = true) := by
  cases l with
  | nil => exact List.chain'_nil
  | cons a t =>
    refine chain'_cons_of_all_eq a (fun x hx => hall x (List.mem_cons_of_mem a hx)) ?_
    rw [hall a (List.mem_cons_self a t)]
    exact rGe_refl c

/-- Sort / filter / slice of a level of equal-confidence candidates
with three distinct leading trims, sliced to three. -/
theorem sortFilterSlice3_perm {e : ℤ} {mc : ℝ} {R2 R3 R4 : CrackResult}
    {rest : List CrackResult} (cP : ℝ) (he : e.toNat = 3)
    (h2c : R2.confidence = cP) (h3c : R3.confidence = cP) (h4c : R4.confidence = cP)
    (hrest : ∀ x ∈ rest, x.confidence = cP) (hPmc : rGe cP mc = true)
    (ht1 : trim R3.plaintext ≠ trim R2.plaintext)
    (ht2 : trim R4.plaintext ≠ trim R2.plaintext)
    (ht3 : trim R4.plaintext ≠ trim R3.plaintext) :
    jsSliceEnd e (crackFilter mc []
      (sortGeB (fun a b => rGe a.confidence b.confidence)
        (R2 :: R3 :: R4 :: rest))) = [R2, R3, R4] := by
  have hall : ∀ x ∈ R2 :: R3 :: R4 :: rest, x.confidence = cP := by
    intro x hx
    rcases List.mem_cons.mp hx with rfl | hx'
    · exact h2c
    rcases List.mem_cons.mp hx' with rfl | hx''
    · exact h3c
    rcases List.mem_cons.mp hx'' with rfl | hx'''
    · exact h4c
    · exact hrest x hx'''
  rw [sortGeB_eq_self_of_chain' (chain'_conf_of_all_eq hall)]
  have k2 : rGe R2.confidence mc = true := by rw [h2c]; exact hPmc
  have k3 : rGe R3.confidence mc = true := by rw [h3c]; exact hPmc
  have k4 : rGe R4.confidence mc = true := by rw [h4c]; exact hPmc
  have m1 : trim R2.plaintext ∉ ([] : List Str) := by simp
  have m2 : trim R3.plaintext ∉ ([trim R2.plaintext] : List Str) := by simpa using ht1
  have m3 : trim R4.plaintext ∉
      ([trim R3.plaintext, trim R2.plaintext] : List Str) := by simp [ht2, ht3]
  rw [crackFilter_keep _ k2 m1, crackFilter_keep _ k3 m2, crackFilter_keep _ k4 m3]
  rw [jsSliceEnd_eq_take (by omega), he, take3_cons]

/-- Sort / filter / slice of a level headed by a dominant result over
equal-confidence candidates, sliced to two. -/
theorem sortFilterSlice2_head {e : ℤ} {mc : ℝ} {M R2 : CrackResult}
    {rest : List CrackResult} (cP : ℝ) (he : e.toNat = 2)
    (h2c : R2.confidence = cP) (hrest : ∀ x ∈ rest, x.confidence = cP)
    (hM : rGe M.confidence cP = true)
    (hMmc : rGe M.confidence mc = true) (hPmc : rGe cP mc = true)
    (ht1 : trim R2.plaintext ≠ trim M.plaintext) :
    jsSliceEnd e (crackFilter mc []
      (sortGeB (fun a b => rGe a.confidence b.confidence)
        (M :: R2 :: rest))) = [M, R2] := by
  have hall : ∀ x ∈ R2 :: rest, x.confidence = cP := by
    intro x hx
    rcases List.mem_cons.mp hx with rfl | hx'
    · exact h2c
    · exact hrest x hx'
  rw [sortGeB_eq_self_of_chain' (chain'_cons_of_all_eq M hall hM)]
  have k2 : rGe R2.confidence mc = true := by rw [h2c]; exact hPmc
  have m1 : trim M.plaintext ∉ ([] : List Str) := by simp
  have m2 : trim R2.plaintext ∉ ([trim M.plaintext] : List Str) := by simpa using ht1
  rw [crackFilter_keep _ hMmc m1, crackFilter_keep _ k2 m2]
  rw [jsSliceEnd_eq_take (by omega), he, take2_cons]

/-- Sort / filter / slice of a level of equal-confidence candidates,
sliced to one. -/
theorem sortFilterSlice1_perm {e : ℤ} {mc : ℝ} {R2 : CrackResult}
    {rest : List CrackResult} (cP : ℝ) (he : e.toNat = 1)
    (h2c : R2.confidence = cP) (hrest : ∀ x ∈ rest, x.confidence = cP)
    (hPmc : rGe cP mc = true) :
    jsSliceEnd e (crackFilter mc []
      (sortGeB (fun a b => rGe a.confidence b.confidence)
        (R2 :: rest))) = [R2] := by
  have hall : ∀ x ∈ R2 :: rest, x.confidence = cP := by
    intro x hx
    rcases List.mem_cons.mp hx with rfl | hx'
    · exact h2c
    · exact hrest x hx'
  rw [sortGeB_eq_self_of_chain' (chain'_conf_of_all_eq hall)]
  have k2 : rGe R2.confidence mc = true := by rw [h2c]; exact hPmc
  have m1 : trim R2.plaintext ∉ ([] : List Str) := by simp
  rw [crackFilter_keep _ k2 m1]
  rw [jsSliceEnd_eq_take (by omega), he, take1_cons]

theorem sortGeB_two (ge : α → α → Bool) (a m : α) (ham : ge a m = false) :
    sortGeB ge (a :: m :: []) = m :: a :: [] := by
  rw [sortGeB, List.foldr_cons, List.foldr_cons, List.foldr_nil]
  rw [insertGeB_nil, insertGeB_cons_false _ ham, insertGeB_nil]

theorem sortGeB_three (ge : α → α → Bool) (a b m : α)
    (ham : ge a m = true) (hbm : ge b m = false) :
    sortGeB ge (a :: b :: m :: []) = a :: m :: b :: [] := by
  rw [sortGeB, List.foldr_cons, List.foldr_cons, List.foldr_cons, List.foldr_nil]
  rw [insertGeB_nil, insertGeB_cons_false _ hbm, insertGeB_nil,
    insertGeB_cons_true _ ham]

theorem sortGeB_four (ge : α → α → Bool) (a b c m : α)
    (hab : ge a b = true) (hbc : ge b c = true)
    (ham : ge a m = false) (hbm : ge b m = false) (hcm : ge c m = false) :
    sortGeB ge (a :: b :: c :: m :: []) = m :: a :: b :: c :: [] := by
  rw [sortGeB, List.foldr_cons, List.foldr_cons, List.foldr_cons, List.foldr_cons,
    List.foldr_nil]
  rw [insertGeB_nil, insertGeB_cons_false _ hcm, insertGeB_nil,
    insertGeB_cons_false _ hbm, insertGeB_cons_true _ hbc,
    insertGeB_cons_false _ ham, insertGeB_cons_true _ hab]

theorem mkRes_with_layers (w : Str → Bool) (d : ℝ) (t : CipherType) (p : Str)
    (k : Option KeyV) (ls : List LayerEntry) :
    ({ mkRes w d t p k with details :=
      { (mkRes w d t p k).details with layers := some ls } } : CrackResult) =
    mkResL w d t p k ls := rfl

/-- The `filterMap` push of `tryRecursiveDecode` over three inner
results of which only the first beats the parent. -/
theorem layersMap_eval (parent m a b : CrackResult)
    (hm : rGt m.confidence parent.confidence = true)
    (ha : rGt a.confidence parent.confidence = false)
    (hb : rGt b.confidence parent.confidence = false) :
    (m :: a :: b :: []).filterMap (fun inner =>
      if rGt inner.confidence parent.confidence then
        some { inner with details :=
          { inner.details with
              layers := some [⟨parent.cipherType, parent.key⟩,
                ⟨inner.cipherType, inner.key⟩] } }
      else none) =
    [{ m with details := { m.details with
        layers := some [⟨parent.cipherType, parent.key⟩, ⟨m.cipherType, m.key⟩] } }] := by
  simp [List.filterMap_cons, hm, ha, hb]

theorem mkResL_confidence (w : Str → Bool) (d : ℝ) (t : CipherType) (p : Str)
    (k : Option KeyV) (ls : List LayerEntry) :
    (mkResL w d t p k ls).confidence = finalConfidence d (scorePlaintext w p).total := rfl

theorem mkResL_plaintext (w : Str → Bool) (d : ℝ) (t : CipherType) (p : Str)
    (k : Option KeyV) (ls : List LayerEntry) : (mkResL w d t p k ls).plaintext = p := rfl

/-- The recursion guard of `tryRecursiveDecode` on a rescored result:
false when the rescored confidence stays under 0.8 and the plaintext
has at least four characters. -/
theorem mkRes_guard_false (w : Str → Bool) (d : ℝ) (t : CipherType) (p : Str)
    (k : Option KeyV)
    (h8 : rGt (finalConfidence d (scorePlaintext w p).total) 0.8 = false)
    (hlen : decide (p.length < 4) = false) :
    (rGt (mkRes w d t p k).confidence 0.8 ||
      decide ((mkRes w d t p k).plaintext.length < 4)) = false := by
  rw [mkRes_confidence, mkRes_plaintext, h8, hlen]
  rfl

/-- `tryRecursiveDecode` over a three-result level, with the push of
each parent given. -/
theorem tryRecursiveDecode_eval3 (F : Str → CrackOptions → CrackResponse)
    (r1 r2 r3 : CrackResult) (options : CrackOptions) (p1 p2 p3 : List CrackResult)
    (hp1 : (if rGt r1.confidence 0.8 || r1.plaintext.length < 4 then []
      else (F r1.plaintext { options with maxResults := some 3 }).results.filterMap
        fun inner =>
          if rGt inner.confidence r1.confidence then
            some { inner with details :=
              { inner.details with
                  layers := some [⟨r1.cipherType, r1.key⟩,
                    ⟨inner.cipherType, inner.key⟩] } }
          else none) = p1)
    (hp2 : (if rGt r2.confidence 0.8 || r2.plaintext.length < 4 then []
      else (F r2.plaintext { options with maxResults := some 3 }).results.filterMap
        fun inner =>
          if rGt inner.confidence r2.confidence then
            some { inner with details :=
              { inner.details with
                  layers := some [⟨r2.cipherType, r2.key⟩,
                    ⟨inner.cipherType, inner.key⟩] } }
          else none) = p2)
    (hp3 : (if rGt r3.confidence 0.8 || r3.plaintext.length < 4 then []
      else (F r3.plaintext { options with maxResults := some 3 }).results.filterMap
        fun inner =>
          if rGt inner.confidence r3.confidence then
            some { inner with details :=
              { inner.details with
                  layers := some [⟨r3.cipherType, r3.key⟩,
                    ⟨inner.cipherType, inner.key⟩] } }
          else none) = p3) :
    tryRecursiveDecode F (r1 :: r2 :: r3 :: []) options =
      sortGeB (fun a b => rGe a.confidence b.confidence)
        (r1 :: r2 :: r3 :: (p1 ++ (p2 ++ (p3 ++ [])))) := by
  rw [tryRecursiveDecode]
  simp only [take3_cons]
  rw [List.flatMap_cons, List.flatMap_cons, List.flatMap_cons, List.flatMap_nil]
  rw [hp1, hp2, hp3]
  rw [List.cons_append, List.cons_append, List.cons_append, List.nil_append]

/-- `tryRecursiveDecode` over a two-result level. -/
theorem tryRecursiveDecode_eval2 (F : Str → CrackOptions → CrackResponse)
    (r1 r2 : CrackResult) (options : CrackOptions) (p1 p2 : List CrackResult)
    (hp1 : (if rGt r1.confidence 0.8 || r1.plaintext.length < 4 then []
      else (F r1.plaintext { options with maxResults := some 3 }).results.filterMap
        fun inner =>
          if rGt inner.confidence r1.confidence then
            some { inner with details :=
              { inner.details with
                  layers := some [⟨r1.cipherType, r1.key⟩,
                    ⟨inner.cipherType, inner.key⟩] } }
          else none) = p1)
    (hp2 : (if rGt r2.confidence 0.8 || r2.plaintext.length < 4 then []
      else (F r2.plaintext { options with maxResults := some 3 }).results.filterMap
        fun inner =>
          if rGt inner.confidence r2.confidence then
            some { inner with details :=
              { inner.details with
                  layers := some [⟨r2.cipherType, r2.key⟩,
                    ⟨inner.cipherType, inner.key⟩] } }
          else none) = p2) :
    tryRecursiveDecode F (r1 :: r2 :: []) options =
      sortGeB (fun a b => rGe a.confidence b.confidence)
        (r1 :: r2 :: (p1 ++ (p2 ++ []))) := by
  rw [tryRecursiveDecode]
  simp only [take3_pair]
  rw [List.flatMap_cons, List.flatMap_cons, List.flatMap_nil]
  rw [hp1, hp2]
  rw [List.cons_append, List.cons_append, List.nil_append]

end CodeCracker

namespace CodeCracker

/-! ## Concrete detection and level evaluations for the dot/space
counterexample ciphertexts -/

theorem solverPrintableRatio_all (s : Str) (hne : s ≠ [])
    (hall : s.filter (fun c =>
      (32 ≤ code c && code c ≤ 126) || code c = 9 || code c = 10 || code c = 13) = s) :
    solverPrintableRatio s = 1 := by
  rw [solverPrintableRatio, if_neg (by simpa using hne), hall]
  rw [div_self]
  exact Nat.cast_ne_zero.mpr (by simpa using hne)

theorem det_C1 : detect (str ".....  .. .....") =
    [⟨.morse, 0.9⟩, ⟨.railFence, 0.15⟩, ⟨.columnarTransposition, 0.15⟩] :=
  detect_dots _ (by decide) (by decide) (by decide) (by decide) (by decide) (by decide)
    (by decide) (by decide) (by decide) (by decide) (by decide) (by decide)
    (alphaRatio_letterless _ (by decide))

theorem det_P1 : detect (str "... ...... . ..") =
    [⟨.morse, 0.9⟩, ⟨.railFence, 0.15⟩, ⟨.columnarTransposition, 0.15⟩] :=
  detect_dots _ (by decide) (by decide) (by decide) (by decide) (by decide) (by decide)
    (by decide) (by decide) (by decide) (by decide) (by decide) (by decide)
    (alphaRatio_letterless _ (by decide))

theorem det_Q2 : detect (str "...... .....  .") =
    [⟨.morse, 0.9⟩, ⟨.railFence, 0.15⟩, ⟨.columnarTransposition, 0.15⟩] :=
  detect_dots _ (by decide) (by decide) (by decide) (by decide) (by decide) (by decide)
    (by decide) (by decide) (by decide) (by decide) (by decide) (by decide)
    (alphaRatio_letterless _ (by decide))

theorem det_Q3 : detect (str ". ...... ..... ") =
    [⟨.morse, 0.9⟩, ⟨.railFence, 0.15⟩, ⟨.columnarTransposition, 0.15⟩] := by
  rw [detect_eq_of_trim (str ". ...... ..... ") (str ". ...... .....")
    (by decide) (by decide)]
  exact detect_dots _ (by decide) (by decide) (by decide) (by decide) (by decide)
    (by decide) (by decide) (by decide) (by decide) (by decide) (by decide) (by decide)
    (alphaRatio_letterless _ (by decide))

theorem det_C6 : detect (str ". ........") =
    [⟨.morse, 0.9⟩, ⟨.railFence, 0.15⟩, ⟨.columnarTransposition, 0.15⟩] :=
  detect_dots _ (by decide) (by decide) (by decide) (by decide) (by decide) (by decide)
    (by decide) (by decide) (by decide) (by decide) (by decide) (by decide)
    (alphaRatio_letterless _ (by decide))

theorem det_D : detect (str ".. .......") =
    [⟨.morse, 0.9⟩, ⟨.railFence, 0.15⟩, ⟨.columnarTransposition, 0.15⟩] :=
  detect_dots _ (by decide) (by decide) (by decide) (by decide) (by decide) (by decide)
    (by decide) (by decide) (by decide) (by decide) (by decide) (by decide)
    (alphaRatio_letterless _ (by decide))

theorem det_E1 : detect (str ".... .....") =
    [⟨.morse, 0.9⟩, ⟨.railFence, 0.15⟩, ⟨.columnarTransposition, 0.15⟩] :=
  detect_dots _ (by decide) (by decide) (by decide) (by decide) (by decide) (by decide)
    (by decide) (by decide) (by decide) (by decide) (by decide) (by decide)
    (alphaRatio_letterless _ (by decide))

theorem det_E2 : detect (str "........ .") =
    [⟨.morse, 0.9⟩, ⟨.railFence, 0.15⟩, ⟨.columnarTransposition, 0.15⟩] :=
  detect_dots _ (by decide) (by decide) (by decide) (by decide) (by decide) (by decide)
    (by decide) (by decide) (by decide) (by decide) (by decide) (by decide)
    (alphaRatio_letterless _ (by decide))

end CodeCracker

namespace CodeCracker

/-- Depth-1 crack of `".....  .. ....."`: Morse decode `"5I5"` leads,
then the first two rail decrypts. -/
theorem crackGo_C_depth1 (env : Env) (fuel : ℕ) (opts : CrackOptions)
    (hdep : opts.maxDepth = some 1) (hmr : opts.maxResults = some 3)
    (hmc : opts.minConfidence = none) :
    (crackGo env fuel (str ".....  .. .....") opts).results =
      [mkRes env.words 0.9 .morse (str "5I5") none,
       mkRes env.words 0.15 .railFence (str "... ...... . ..") (some (.num 2)),
       mkRes env.words 0.15 .railFence (str "... . ..... ...") (some (.num 3))] := by
  have h := crackGo_morse3 env fuel (str ".....  .. .....") (str "5I5") opts hdep hmr hmc
    det_C1 (by decide) (by decide) (by decide) (by decide) (by decide)
    ⟨by decide, by decide⟩ (by decide) (by decide)
    (by rw [solverPrintableRatio_all _ (by decide) (by decide)]; norm_num)
    (by decide) (by decide) (by decide)
  rw [h]
  rw [show railDecrypt (str ".....  .. .....") 2 = str "... ...... . .." from by decide,
      show railDecrypt (str ".....  .. .....") 3 = str "... . ..... ..." from by decide]

/-- Depth-1 crack of `".... ....."`: Morse decode `"H5"` leads, then
the first two rail decrypts. -/
theorem crackGo_E1_depth1 (env : Env) (fuel : ℕ) (opts : CrackOptions)
    (hdep : opts.maxDepth = some 1) (hmr : opts.maxResults = some 3)
    (hmc : opts.minConfidence = none) :
    (crackGo env fuel (str ".... .....") opts).results =
      [mkRes env.words 0.9 .morse (str "H5") none,
       mkRes env.words 0.15 .railFence (str "........ .") (some (.num 2)),
       mkRes env.words 0.15 .railFence (str "... ......") (some (.num 3))] := by
  have h := crackGo_morse3 env fuel (str ".... .....") (str "H5") opts hdep hmr hmc
    det_E1 (by decide) (by decide) (by decide) (by decide) (by decide)
    ⟨by decide, by decide⟩ (by decide) (by decide)
    (by rw [solverPrintableRatio_all _ (by decide) (by decide)]; norm_num)
    (by decide) (by decide) (by decide)
  rw [h]
  rw [show railDecrypt (str ".... .....") 2 = str "........ ." from by decide,
      show railDecrypt (str ".... .....") 3 = str "... ......" from by decide]

/-- The recursive push of a parent whose plaintext decodes to nothing
by Morse: every inner result ties the parent confidence, so the
`filterMap` pushes nothing. -/
theorem push_nil_of_fail (env : Env) (X : Str) (fuel : ℕ) (opts : CrackOptions)
    {parent : CrackResult}
    (hdet : detect X =
      [⟨.morse, 0.9⟩, ⟨.railFence, 0.15⟩, ⟨.columnarTransposition, 0.15⟩])
    (htne : trim X ≠ []) (hXne : X ≠ [])
    (hmorse : morseSolve X { key := opts.key, iv := opts.iv } = [])
    (hll : ∀ c ∈ X, isAlphaCh c = false)
    (hperm : ∀ r ∈ (List.range' 2 9).takeWhile (· < X.length),
      (railDecrypt X r).Perm X)
    (hkey : opts.key = none) (hiv : opts.iv = none) (hdep : opts.maxDepth = some 1)
    (hconf : parent.confidence =
      finalConfidence 0.15 ((scorePlaintext env.words X).total)) :
    ((crackGo env fuel X opts).results.filterMap fun inner =>
      if rGt inner.confidence parent.confidence then
        some { inner with details :=
          { inner.details with
              layers := some [⟨parent.cipherType, parent.key⟩,
                ⟨inner.cipherType, inner.key⟩] } }
      else none) = [] := by
  apply filterMap_eq_nil_of
  intro x hx
  have hc := crackGo_fail_class env X fuel opts hdet htne hXne hmorse hll hperm
    hkey hiv hdep x hx
  simp [hc, hconf, rGt_irrefl]

end CodeCracker

namespace CodeCracker

/-- Base candidate level of `"... ...... . .."` (Morse fails): the
first three rail decrypts survive slice-filter-sort. -/
theorem base_P1 (env : Env) (sOpts : SolverOptions) (hsmr : sOpts.maxResults = none) :
    jsSliceEnd 3 (crackFilter 0.01 []
      (sortGeB (fun a b => rGe a.confidence b.confidence)
        ((detect (str "... ...... . ..")).flatMap
          (candidateResults env (str "... ...... . ..") sOpts)))) =
      [mkRes env.words 0.15 .railFence (str ".....  .. .....") (some (.num 2)),
       mkRes env.words 0.15 .railFence (str "...... .....  .") (some (.num 3)),
       mkRes env.words 0.15 .railFence (str ". ...... ..... ") (some (.num 4))] := by
  have hll : ∀ c ∈ str "... ...... . ..", isAlphaCh c = false := by decide
  rw [det_P1, List.flatMap_cons, List.flatMap_cons, List.flatMap_cons, List.flatMap_nil,
    List.append_nil]
  rw [candidateResults_morse_eval, morseSolve_nil _ (by decide), List.map_nil,
    List.nil_append]
  rw [candidateResults_rail_eval, railFenceSolve_eval env _ _ hsmr (by decide) hll,
    List.map_map,
    show ((List.range' 2 9).takeWhile (· < (str "... ...... . ..").length)).take 5
      = [2, 3, 4, 5, 6] from by decide,
    rail_map_mkRes]
  rw [candidateResults_col_eval, columnarSolve_eval env _ _ hsmr (by decide) hll,
    List.map_map]
  rw [List.cons_append, List.cons_append, List.cons_append, List.cons_append,
    List.cons_append, List.nil_append]
  rw [show railDecrypt (str "... ...... . ..") 2 = str ".....  .. ....." from by decide,
      show railDecrypt (str "... ...... . ..") 3 = str "...... .....  ." from by decide,
      show railDecrypt (str "... ...... . ..") 4 = str ". ...... ..... " from by decide]
  refine sortFilterSlice3_perm
    (finalConfidence 0.15 (scorePlaintext env.words (str "... ...... . ..")).total)
    rfl ?_ ?_ ?_ ?_ ?_ ?_ ?_ ?_
  · rw [mkRes_confidence, scoreTotal_eq_of_perm_letterless env.words
      (show (str ".....  .. .....").Perm (str "... ...... . ..") from by decide)
      (by decide)]
  · rw [mkRes_confidence, scoreTotal_eq_of_perm_letterless env.words
      (show (str "...... .....  .").Perm (str "... ...... . ..") from by decide)
      (by decide)]
  · rw [mkRes_confidence, scoreTotal_eq_of_perm_letterless env.words
      (show (str ". ...... ..... ").Perm (str "... ...... . ..") from by decide)
      (by decide)]
  · intro x hx
    rcases List.mem_cons.mp hx with rfl | hx'
    · rw [mkRes_confidence, scoreTotal_eq_of_perm_letterless env.words
        (show (railDecrypt (str "... ...... . ..") 5).Perm (str "... ...... . ..")
          from by decide) (by decide)]
    rcases List.mem_cons.mp hx' with rfl | hx''
    · rw [mkRes_confidence, scoreTotal_eq_of_perm_letterless env.words
        (show (railDecrypt (str "... ...... . ..") 6).Perm (str "... ...... . ..")
          from by decide) (by decide)]
    rcases List.mem_map.mp hx'' with ⟨t, ht, rfl⟩
    have ht' := List.mem_of_mem_take ht
    rcases List.mem_flatMap.mp ht' with ⟨keyLength, hkL, htm⟩
    rcases List.mem_map.mp htm with ⟨perm, hpm, heq⟩
    have hp : (columnarDecrypt (str "... ...... . ..") perm).Perm (str "... ...... . ..") :=
      columnarGen_perm _ keyLength hkL perm hpm
    simp only [Function.comp_apply]
    rw [← heq]
    simp only
    congr 1
    exact scoreTotal_eq_of_perm_letterless env.words hp
      (fun c hc => hll c (hp.mem_iff.mp hc))
  · exact rGe_perm_min (scoreTotal_nonneg _ _) (scoreTotal_le_one _ _)
  · rw [mkRes_plaintext, mkRes_plaintext]
    decide
  · rw [mkRes_plaintext, mkRes_plaintext]
    decide
  · rw [mkRes_plaintext, mkRes_plaintext]
    decide

end CodeCracker

namespace CodeCracker

/-- Base candidate level of `".. ......."` (Morse fails): the first
three rail decrypts survive slice-filter-sort. -/
theorem base_D (env : Env) (sOpts : SolverOptions) (hsmr : sOpts.maxResults = none) :
    jsSliceEnd 3 (crackFilter 0.01 []
      (sortGeB (fun a b => rGe a.confidence b.confidence)
        ((detect (str ".. .......")).flatMap
          (candidateResults env (str ".. .......") sOpts)))) =
      [mkRes env.words 0.15 .railFence (str ".... .....") (some (.num 2)),
       mkRes env.words 0.15 .railFence (str "........ .") (some (.num 3)),
       mkRes env.words 0.15 .railFence (str ". ........") (some (.num 4))] := by
  have hll : ∀ c ∈ str ".. .......", isAlphaCh c = false := by decide
  rw [det_D, List.flatMap_cons, List.flatMap_cons, List.flatMap_cons, List.flatMap_nil,
    List.append_nil]
  rw [candidateResults_morse_eval, morseSolve_nil _ (by decide), List.map_nil,
    List.nil_append]
  rw [candidateResults_rail_eval, railFenceSolve_eval env _ _ hsmr (by decide) hll,
    List.map_map,
    show ((List.range' 2 9).takeWhile (· < (str ".. .......").length)).take 5
      = [2, 3, 4, 5, 6] from by decide,
    rail_map_mkRes]
  rw [candidateResults_col_eval, columnarSolve_eval env _ _ hsmr (by decide) hll,
    List.map_map]
  rw [List.cons_append, List.cons_append, List.cons_append, List.cons_append,
    List.cons_append, List.nil_append]
  rw [show railDecrypt (str ".. .......") 2 = str ".... ....." from by decide,
      show railDecrypt (str ".. .......") 3 = str "........ ." from by decide,
      show railDecrypt (str ".. .......") 4 = str ". ........" from by decide]
  refine sortFilterSlice3_perm
    (finalConfidence 0.15 (scorePlaintext env.words (str ".. .......")).total)
    rfl ?_ ?_ ?_ ?_ ?_ ?_ ?_ ?_
  · rw [mkRes_confidence, scoreTotal_eq_of_perm_letterless env.words
      (show (str ".... .....").Perm (str ".. .......") from by decide) (by decide)]
  · rw [mkRes_confidence, scoreTotal_eq_of_perm_letterless env.words
      (show (str "........ .").Perm (str ".. .......") from by decide) (by decide)]
  · rw [mkRes_confidence, scoreTotal_eq_of_perm_letterless env.words
      (show (str ". ........").Perm (str ".. .......") from by decide) (by decide)]
  · intro x hx
    rcases List.mem_cons.mp hx with rfl | hx'
    · rw [mkRes_confidence, scoreTotal_eq_of_perm_letterless env.words
        (show (railDecrypt (str ".. .......") 5).Perm (str ".. .......")
          from by decide) (by decide)]
    rcases List.mem_cons.mp hx' with rfl | hx''
    · rw [mkRes_confidence, scoreTotal_eq_of_perm_letterless env.words
        (show (railDecrypt (str ".. .......") 6).Perm (str ".. .......")
          from by decide) (by decide)]
    rcases List.mem_map.mp hx'' with ⟨t, ht, rfl⟩
    have ht' := List.mem_of_mem_take ht
    rcases List.mem_flatMap.mp ht' with ⟨keyLength, hkL, htm⟩
    rcases List.mem_map.mp htm with ⟨perm, hpm, heq⟩
    have hp : (columnarDecrypt (str ".. .......") perm).Perm (str ".. .......") :=
      columnarGen_perm _ keyLength hkL perm hpm
    simp only [Function.comp_apply]
    rw [← heq]
    simp only
    congr 1
    exact scoreTotal_eq_of_perm_letterless env.words hp
      (fun c hc => hll c (hp.mem_iff.mp hc))
  · exact rGe_perm_min (scoreTotal_nonneg _ _) (scoreTotal_le_one _ _)
  · rw [mkRes_plaintext, mkRes_plaintext]
    decide
  · rw [mkRes_plaintext, mkRes_plaintext]
    decide
  · rw [mkRes_plaintext, mkRes_plaintext]
    decide

/-- Base candidate level of `".....  .. ....."` (Morse gives `"5I5"`),
sliced to two: Morse leads, the first rail decrypt follows. -/
theorem base_C (env : Env) (sOpts : SolverOptions) (hsmr : sOpts.maxResults = none) :
    jsSliceEnd 2 (crackFilter 0.01 []
      (sortGeB (fun a b => rGe a.confidence b.confidence)
        ((detect (str ".....  .. .....")).flatMap
          (candidateResults env (str ".....  .. .....") sOpts)))) =
      [mkRes env.words 0.9 .morse (str "5I5") none,
       mkRes env.words 0.15 .railFence (str "... ...... . ..") (some (.num 2))] := by
  have hll : ∀ c ∈ str ".....  .. .....", isAlphaCh c = false := by decide
  rw [det_C1, List.flatMap_cons, List.flatMap_cons, List.flatMap_cons, List.flatMap_nil,
    List.append_nil]
  rw [candidateResults_morse_eval,
    morseSolve_success _ ⟨by decide, by decide⟩
      (show decodeMorse (trim (str ".....  .. .....")) = str "5I5" from by decide)
      (by decide)
      (by rw [solverPrintableRatio_all _ (by decide) (by decide)]; norm_num),
    morse_map_mkRes]
  rw [candidateResults_rail_eval, railFenceSolve_eval env _ _ hsmr (by decide) hll,
    List.map_map,
    show ((List.range' 2 9).takeWhile (· < (str ".....  .. .....").length)).take 5
      = [2, 3, 4, 5, 6] from by decide,
    rail_map_mkRes]
  rw [candidateResults_col_eval, columnarSolve_eval env _ _ hsmr (by decide) hll,
    List.map_map]
  rw [List.singleton_append, List.cons_append, List.cons_append, List.cons_append,
    List.cons_append, List.cons_append, List.nil_append]
  rw [show railDecrypt (str ".....  .. .....") 2 = str "... ...... . .." from by decide]
  refine sortFilterSlice2_head
    (finalConfidence 0.15 (scorePlaintext env.words (str ".....  .. .....")).total)
    ?_ ?_ ?_ ?_ ?_ ?_ ?_
  · rfl
  · rw [mkRes_confidence, scoreTotal_eq_of_perm_letterless env.words
      (show (str "... ...... . ..").Perm (str ".....  .. .....") from by decide)
      (by decide)]
  · intro x hx
    rcases List.mem_cons.mp hx with rfl | hx'
    · rw [mkRes_confidence, scoreTotal_eq_of_perm_letterless env.words
        (show (railDecrypt (str ".....  .. .....") 3).Perm (str ".....  .. .....")
          from by decide) (by decide)]
    rcases List.mem_cons.mp hx' with rfl | hx''
    · rw [mkRes_confidence, scoreTotal_eq_of_perm_letterless env.words
        (show (railDecrypt (str ".....  .. .....") 4).Perm (str ".....  .. .....")
          from by decide) (by decide)]
    rcases List.mem_cons.mp hx'' with rfl | hx'''
    · rw [mkRes_confidence, scoreTotal_eq_of_perm_letterless env.words
        (show (railDecrypt (str ".....  .. .....") 5).Perm (str ".....  .. .....")
          from by decide) (by decide)]
    rcases List.mem_cons.mp hx''' with rfl | hx''''
    · rw [mkRes_confidence, scoreTotal_eq_of_perm_letterless env.words
        (show (railDecrypt (str ".....  .. .....") 6).Perm (str ".....  .. .....")
          from by decide) (by decide)]
    rcases List.mem_map.mp hx'''' with ⟨t, ht, rfl⟩
    have ht' := List.mem_of_mem_take ht
    rcases List.mem_flatMap.mp ht' with ⟨keyLength, hkL, htm⟩
    rcases List.mem_map.mp htm with ⟨perm, hpm, heq⟩
    have hp : (columnarDecrypt (str ".....  .. .....") perm).Perm
        (str ".....  .. .....") := columnarGen_perm _ keyLength hkL perm hpm
    simp only [Function.comp_apply]
    rw [← heq]
    simp only
    congr 1
    exact scoreTotal_eq_of_perm_letterless env.words hp
      (fun c hc => hll c (hp.mem_iff.mp hc))
  · rw [mkRes_confidence]
    exact rGe_morse_perm (scoreTotal_nonneg _ _) (scoreTotal_le_one _ _)
      (scoreTotal_nonneg _ _) (scoreTotal_letterless_le env.words _ hll)
  · rw [mkRes_confidence]
    exact rGe_morse_min (scoreTotal_nonneg _ _) (scoreTotal_le_one _ _)
  · exact rGe_perm_min (scoreTotal_nonneg _ _) (scoreTotal_le_one _ _)
  · rw [mkRes_plaintext, mkRes_plaintext]
    decide

/-- Base candidate level of `". ........"` (Morse fails), sliced to
one: the first rail decrypt only. -/
theorem base_C6 (env : Env) (sOpts : SolverOptions) (hsmr : sOpts.maxResults = none) :
    jsSliceEnd 1 (crackFilter 0.01 []
      (sortGeB (fun a b => rGe a.confidence b.confidence)
        ((detect (str ". ........")).flatMap
          (candidateResults env (str ". ........") sOpts)))) =
      [mkRes env.words 0.15 .railFence (str ".. .......") (some (.num 2))] := by
  have hll : ∀ c ∈ str ". ........", isAlphaCh c = false := by decide
  rw [det_C6, List.flatMap_cons, List.flatMap_cons, List.flatMap_cons, List.flatMap_nil,
    List.append_nil]
  rw [candidateResults_morse_eval, morseSolve_nil _ (by decide), List.map_nil,
    List.nil_append]
  rw [candidateResults_rail_eval, railFenceSolve_eval env _ _ hsmr (by decide) hll,
    List.map_map,
    show ((List.range' 2 9).takeWhile (· < (str ". ........").length)).take 5
      = [2, 3, 4, 5, 6] from by decide,
    rail_map_mkRes]
  rw [candidateResults_col_eval, columnarSolve_eval env _ _ hsmr (by decide) hll,
    List.map_map]
  rw [List.cons_append, List.cons_append, List.cons_append, List.cons_append,
    List.cons_append, List.nil_append]
  rw [show railDecrypt (str ". ........") 2 = str ".. ......." from by decide]
  refine sortFilterSlice1_perm
    (finalConfidence 0.15 (scorePlaintext env.words (str ". ........")).total)
    ?_ ?_ ?_ ?_
  · rfl
  · rw [mkRes_confidence, scoreTotal_eq_of_perm_letterless env.words
      (show (str ".. .......").Perm (str ". ........") from by decide) (by decide)]
  · intro x hx
    rcases List.mem_cons.mp hx with rfl | hx'
    · rw [mkRes_confidence, scoreTotal_eq_of_perm_letterless env.words
        (show (railDecrypt (str ". ........") 3).Perm (str ". ........")
          from by decide) (by decide)]
    rcases List.mem_cons.mp hx' with rfl | hx''
    · rw [mkRes_confidence, scoreTotal_eq_of_perm_letterless env.words
        (show (railDecrypt (str ". ........") 4).Perm (str ". ........")
          from by decide) (by decide)]
    rcases List.mem_cons.mp hx'' with rfl | hx'''
    · rw [mkRes_confidence, scoreTotal_eq_of_perm_letterless env.words
        (show (railDecrypt (str ". ........") 5).Perm (str ". ........")
          from by decide) (by decide)]
    rcases List.mem_cons.mp hx''' with rfl | hx''''
    · rw [mkRes_confidence, scoreTotal_eq_of_perm_letterless env.words
        (show (railDecrypt (str ". ........") 6).Perm (str ". ........")
          from by decide) (by decide)]
    rcases List.mem_map.mp hx'''' with ⟨t, ht, rfl⟩
    have ht' := List.mem_of_mem_take ht
    rcases List.mem_flatMap.mp ht' with ⟨keyLength, hkL, htm⟩
    rcases List.mem_map.mp htm with ⟨perm, hpm, heq⟩
    have hp : (columnarDecrypt (str ". ........") perm).Perm (str ". ........") :=
      columnarGen_perm _ keyLength hkL perm hpm
    simp only [Function.comp_apply]
    rw [← heq]
    simp only
    congr 1
    exact scoreTotal_eq_of_perm_letterless env.words hp
      (fun c hc => hll c (hp.mem_iff.mp hc))
  · exact rGe_perm_min (scoreTotal_nonneg _ _) (scoreTotal_le_one _ _)

end CodeCracker

namespace CodeCracker

/-- Depth-2 crack of `"... ...... . .."` (maxResults 3): the recursion
on the first rail decrypt finds Morse `"5I5"` and pushes it with a
two-entry layers annotation to the front. -/
theorem crackGo_P1_eval (env : Env) (opts : CrackOptions)
    (hkey : opts.key = none) (hiv : opts.iv = none)
    (hdep : opts.maxDepth = some 2) (hmr : opts.maxResults = some 3)
    (hmc : opts.minConfidence = none) :
    (crackGo env 2 (str "... ...... . ..") opts).results =
      [mkResL env.words 0.9 .morse (str "5I5") none
        [⟨.railFence, some (.num 2)⟩, ⟨.morse, none⟩],
       mkRes env.words 0.15 .railFence (str ".....  .. .....") (some (.num 2)),
       mkRes env.words 0.15 .railFence (str "...... .....  .") (some (.num 3))] := by
  rw [show (2:ℕ) = 1 + 1 from rfl]
  rw [crackGo_depthN env 1 (str "... ...... . ..") opts 2
    (by rw [hdep, Option.getD_some]) (by norm_num) (by decide) (by rw [det_P1]; simp)]
  simp only [CrackResponse.results]
  rw [hmr, Option.getD_some, hmc, Option.getD_none]
  rw [base_P1 env _ rfl]
  rw [tryRecursiveDecode_eval3 (crackGo env 1) _ _ _ _
    [mkResL env.words 0.9 .morse (str "5I5") none
      [⟨.railFence, some (.num 2)⟩, ⟨.morse, none⟩]] [] []
    (by
      rw [mkRes_guard_false _ _ _ _ _
        (rGt_perm_high (scoreTotal_nonneg _ _)
          (scoreTotal_letterless_le env.words (str ".....  .. .....") (by decide)))
        (by decide)]
      rw [if_neg (by decide)]
      rw [mkRes_plaintext]
      rw [crackGo_C_depth1 env 1 _ (by rfl) (by rfl) (by rfl)]
      rw [layersMap_eval _ _ _ _
        (by simp only [mkRes_confidence]
            exact rGt_morse_perm (scoreTotal_nonneg _ _) (scoreTotal_le_one _ _)
              (scoreTotal_nonneg _ _)
              (scoreTotal_letterless_le env.words (str ".....  .. .....") (by decide)))
        (by simp only [mkRes_confidence]
            rw [scoreTotal_eq_of_perm_letterless env.words
              (show (str "... ...... . ..").Perm (str ".....  .. .....")
                from by decide) (by decide)]
            exact rGt_irrefl _)
        (by simp only [mkRes_confidence]
            rw [scoreTotal_eq_of_perm_letterless env.words
              (show (str "... . ..... ...").Perm (str ".....  .. .....")
                from by decide) (by decide)]
            exact rGt_irrefl _)]
      rw [mkRes_with_layers]
      rfl)
    (by
      rw [mkRes_guard_false _ _ _ _ _
        (rGt_perm_high (scoreTotal_nonneg _ _)
          (scoreTotal_letterless_le env.words (str "...... .....  .") (by decide)))
        (by decide)]
      rw [if_neg (by decide)]
      rw [mkRes_plaintext]
      exact push_nil_of_fail env (str "...... .....  .") 1 _ det_Q2 (by decide)
        (by decide) (morseSolve_nil _ (by decide)) (by decide) (by decide)
        hkey hiv (by rfl) (by rw [mkRes_confidence]))
    (by
      rw [mkRes_guard_false _ _ _ _ _
        (rGt_perm_high (scoreTotal_nonneg _ _)
          (scoreTotal_letterless_le env.words (str ". ...... ..... ") (by decide)))
        (by decide)]
      rw [if_neg (by decide)]
      rw [mkRes_plaintext]
      exact push_nil_of_fail env (str ". ...... ..... ") 1 _ det_Q3 (by decide)
        (by decide) (morseSolve_nil _ (by decide)) (by decide) (by decide)
        hkey hiv (by rfl) (by rw [mkRes_confidence]))]
  rw [List.nil_append, List.nil_append, List.append_nil]
  rw [sortGeB_four _ _ _ _ _
    (by simp only [mkRes_confidence]
        rw [scoreTotal_eq_of_perm_letterless env.words
          (show (str ".....  .. .....").Perm (str "...... .....  .")
            from by decide) (by decide)]
        exact rGe_refl _)
    (by simp only [mkRes_confidence]
        rw [scoreTotal_eq_of_perm_letterless env.words
          (show (str "...... .....  .").Perm (str ". ...... ..... ")
            from by decide) (by decide)]
        exact rGe_refl _)
    (by simp only [mkRes_confidence, mkResL_confidence]
        exact rGe_perm_morse_false (scoreTotal_nonneg _ _) (scoreTotal_le_one _ _)
          (scoreTotal_nonneg _ _)
          (scoreTotal_letterless_le env.words (str ".....  .. .....") (by decide)))
    (by simp only [mkRes_confidence, mkResL_confidence]
        exact rGe_perm_morse_false (scoreTotal_nonneg _ _) (scoreTotal_le_one _ _)
          (scoreTotal_nonneg _ _)
          (scoreTotal_letterless_le env.words (str "...... .....  .") (by decide)))
    (by simp only [mkRes_confidence, mkResL_confidence]
        exact rGe_perm_morse_false (scoreTotal_nonneg _ _) (scoreTotal_le_one _ _)
          (scoreTotal_nonneg _ _)
          (scoreTotal_letterless_le env.words (str ". ...... ..... ") (by decide)))]
  rw [jsSliceEnd_eq_take (by norm_num), show ((3:ℤ)).toNat = 3 from rfl, take3_cons]

end CodeCracker

namespace CodeCracker

/-- Depth-2 crack of `".. ......."` (maxResults 3): the recursion on
the first rail decrypt finds Morse `"H5"` and pushes it with a
two-entry layers annotation to the front. -/
theorem crackGo_D_eval (env : Env) (opts : CrackOptions)
    (hkey : opts.key = none) (hiv : opts.iv = none)
    (hdep : opts.maxDepth = some 2) (hmr : opts.maxResults = some 3)
    (hmc : opts.minConfidence = none) :
    (crackGo env 2 (str ".. .......") opts).results =
      [mkResL env.words 0.9 .morse (str "H5") none
        [⟨.railFence, some (.num 2)⟩, ⟨.morse, none⟩],
       mkRes env.words 0.15 .railFence (str ".... .....") (some (.num 2)),
       mkRes env.words 0.15 .railFence (str "........ .") (some (.num 3))] := by
  rw [show (2:ℕ) = 1 + 1 from rfl]
  rw [crackGo_depthN env 1 (str ".. .......") opts 2
    (by rw [hdep, Option.getD_some]) (by norm_num) (by decide) (by rw [det_D]; simp)]
  simp only [CrackResponse.results]
  rw [hmr, Option.getD_some, hmc, Option.getD_none]
  rw [base_D env _ rfl]
  rw [tryRecursiveDecode_eval3 (crackGo env 1) _ _ _ _
    [mkResL env.words 0.9 .morse (str "H5") none
      [⟨.railFence, some (.num 2)⟩, ⟨.morse, none⟩]] [] []
    (by
      rw [mkRes_guard_false _ _ _ _ _
        (rGt_perm_high (scoreTotal_nonneg _ _)
          (scoreTotal_letterless_le env.words (str ".... .....") (by decide)))
        (by decide)]
      rw [if_neg (by decide)]
      rw [mkRes_plaintext]
      rw [crackGo_E1_depth1 env 1 _ (by rfl) (by rfl) (by rfl)]
      rw [layersMap_eval _ _ _ _
        (by simp only [mkRes_confidence]
            exact rGt_morse_perm (scoreTotal_nonneg _ _) (scoreTotal_le_one _ _)
              (scoreTotal_nonneg _ _)
              (scoreTotal_letterless_le env.words (str ".... .....") (by decide)))
        (by simp only [mkRes_confidence]
            rw [scoreTotal_eq_of_perm_letterless env.words
              (show (str "........ .").Perm (str ".... .....")
                from by decide) (by decide)]
            exact rGt_irrefl _)
        (by simp only [mkRes_confidence]
            rw [scoreTotal_eq_of_perm_letterless env.words
              (show (str "... ......").Perm (str ".... .....")
                from by decide) (by decide)]
            exact rGt_irrefl _)]
      rw [mkRes_with_layers]
      rfl)
    (by
      rw [mkRes_guard_false _ _ _ _ _
        (rGt_perm_high (scoreTotal_nonneg _ _)
          (scoreTotal_letterless_le env.words (str "........ .") (by decide)))
        (by decide)]
      rw [if_neg (by decide)]
      rw [mkRes_plaintext]
      exact push_nil_of_fail env (str "........ .") 1 _ det_E2 (by decide)
        (by decide) (morseSolve_nil _ (by decide)) (by decide) (by decide)
        hkey hiv (by rfl) (by rw [mkRes_confidence]))
    (by
      rw [mkRes_guard_false _ _ _ _ _
        (rGt_perm_high (scoreTotal_nonneg _ _)
          (scoreTotal_letterless_le env.words (str ". ........") (by decide)))
        (by decide)]
      rw [if_neg (by decide)]
      rw [mkRes_plaintext]
      exact push_nil_of_fail env (str ". ........") 1 _ det_C6 (by decide)
        (by decide) (morseSolve_nil _ (by decide)) (by decide) (by decide)
        hkey hiv (by rfl) (by rw [mkRes_confidence]))]
  rw [List.nil_append, List.nil_append, List.append_nil]
  rw [sortGeB_four _ _ _ _ _
    (by simp only [mkRes_confidence]
        rw [scoreTotal_eq_of_perm_letterless env.words
          (show (str ".... .....").Perm (str "........ .")
            from by decide) (by decide)]
        exact rGe_refl _)
    (by simp only [mkRes_confidence]
        rw [scoreTotal_eq_of_perm_letterless env.words
          (show (str "........ .").Perm (str ". ........")
            from by decide) (by decide)]
        exact rGe_refl _)
    (by simp only [mkRes_confidence, mkResL_confidence]
        exact rGe_perm_morse_false (scoreTotal_nonneg _ _) (scoreTotal_le_one _ _)
          (scoreTotal_nonneg _ _)
          (scoreTotal_letterless_le env.words (str ".... .....") (by decide)))
    (by simp only [mkRes_confidence, mkResL_confidence]
        exact rGe_perm_morse_false (scoreTotal_nonneg _ _) (scoreTotal_le_one _ _)
          (scoreTotal_nonneg _ _)
          (scoreTotal_letterless_le env.words (str "........ .") (by decide)))
    (by simp only [mkRes_confidence, mkResL_confidence]
        exact rGe_perm_morse_false (scoreTotal_nonneg _ _) (scoreTotal_le_one _ _)
          (scoreTotal_nonneg _ _)
          (scoreTotal_letterless_le env.words (str ". ........") (by decide)))]
  rw [jsSliceEnd_eq_take (by norm_num), show ((3:ℤ)).toNat = 3 from rfl, take3_cons]

end CodeCracker

namespace CodeCracker

theorem take3_single {α : Type _} (a : α) : ([a] : List α).take 3 = [a] := rfl

theorem mkRes_guard_short (w : Str → Bool) (d : ℝ) (t : CipherType) (p : Str)
    (k : Option KeyV) (hlen : decide (p.length < 4) = true) :
    (rGt (mkRes w d t p k).confidence 0.8 ||
      decide ((mkRes w d t p k).plaintext.length < 4)) = true := by
  rw [mkRes_plaintext, hlen, Bool.or_true]

theorem mkResL_with_layers (w : Str → Bool) (d : ℝ) (t : CipherType) (p : Str)
    (k : Option KeyV) (ls0 ls : List LayerEntry) :
    ({ mkResL w d t p k ls0 with details :=
      { (mkResL w d t p k ls0).details with layers := some ls } } : CrackResult) =
    mkResL w d t p k ls := rfl

theorem mkResL_details_layers (w : Str → Bool) (d : ℝ) (t : CipherType) (p : Str)
    (k : Option KeyV) (ls : List LayerEntry) :
    (mkResL w d t p k ls).details.layers = some ls := rfl

/-- `tryRecursiveDecode` over a single-result level. -/
theorem tryRecursiveDecode_eval1 (F : Str → CrackOptions → CrackResponse)
    (r1 : CrackResult) (options : CrackOptions) (p1 : List CrackResult)
    (hp1 : (if rGt r1.confidence 0.8 || r1.plaintext.length < 4 then []
      else (F r1.plaintext { options with maxResults := some 3 }).results.filterMap
        fun inner =>
          if rGt inner.confidence r1.confidence then
            some { inner with details :=
              { inner.details with
                  layers := some [⟨r1.cipherType, r1.key⟩,
                    ⟨inner.cipherType, inner.key⟩] } }
          else none) = p1) :
    tryRecursiveDecode F (r1 :: []) options =
      sortGeB (fun a b => rGe a.confidence b.confidence) (r1 :: (p1 ++ [])) := by
  rw [tryRecursiveDecode]
  simp only [take3_single]
  rw [List.flatMap_cons, List.flatMap_nil]
  rw [hp1]
  rw [List.cons_append, List.nil_append]

end CodeCracker

namespace CodeCracker

/-- Full evaluation of `crack` on the Morse/rail ciphertext
`".....  .. ....."` with `maxResults := 2`, for any environment: the
base Morse decode and the same decode re-discovered through a
rail-fence layer. -/
theorem crack_C1_results (env : Env) :
    (crack env (str ".....  .. .....") { maxResults := some 2 }).results =
      [mkRes env.words 0.9 .morse (str "5I5") none,
       mkResL env.words 0.9 .morse (str "5I5") none
         [⟨.railFence, some (.num 2)⟩, ⟨.morse, none⟩]] := by
  rw [crack]
  rw [show ((({ maxResults := some 2 } : CrackOptions).maxDepth.getD 3).toNat)
    = 2 + 1 from rfl]
  rw [crackGo_depthN env 2 (str ".....  .. .....")
    ({ maxResults := some 2 } : CrackOptions) 3 rfl (by norm_num) (by decide)
    (by rw [det_C1]; simp)]
  simp only [CrackResponse.results]
  rw [show (({ maxResults := some 2 } : CrackOptions).maxResults.getD 10) = (2:ℤ)
      from rfl,
    show (({ maxResults := some 2 } : CrackOptions).minConfidence.getD 0.01) = (0.01:ℝ)
      from rfl]
  rw [base_C env _ rfl]
  rw [tryRecursiveDecode_eval2 (crackGo env 2) _ _ _ []
    [mkResL env.words 0.9 .morse (str "5I5") none
      [⟨.railFence, some (.num 2)⟩, ⟨.morse, none⟩]]
    (by
      rw [mkRes_guard_short _ _ _ _ _ (by decide)]
      rw [if_pos (by decide)])
    (by
      rw [mkRes_guard_false _ _ _ _ _
        (rGt_perm_high (scoreTotal_nonneg _ _)
          (scoreTotal_letterless_le env.words (str "... ...... . ..") (by decide)))
        (by decide)]
      rw [if_neg (by decide)]
      rw [mkRes_plaintext]
      rw [crackGo_P1_eval env _ (by rfl) (by rfl) (by rfl) (by rfl) (by rfl)]
      rw [layersMap_eval _ _ _ _
        (by simp only [mkRes_confidence, mkResL_confidence]
            exact rGt_morse_perm (scoreTotal_nonneg _ _) (scoreTotal_le_one _ _)
              (scoreTotal_nonneg _ _)
              (scoreTotal_letterless_le env.words (str "... ...... . ..") (by decide)))
        (by simp only [mkRes_confidence]
            rw [scoreTotal_eq_of_perm_letterless env.words
              (show (str ".....  .. .....").Perm (str "... ...... . ..")
                from by decide) (by decide)]
            exact rGt_irrefl _)
        (by simp only [mkRes_confidence]
            rw [scoreTotal_eq_of_perm_letterless env.words
              (show (str "...... .....  .").Perm (str "... ...... . ..")
                from by decide) (by decide)]
            exact rGt_irrefl _)]
      rw [mkResL_with_layers]
      rfl)]
  rw [List.nil_append, List.append_nil]
  rw [sortGeB_three _ _ _ _
    (by simp only [mkRes_confidence, mkResL_confidence]
        exact rGe_refl _)
    (by simp only [mkRes_confidence, mkResL_confidence]
        exact rGe_perm_morse_false (scoreTotal_nonneg _ _) (scoreTotal_le_one _ _)
          (scoreTotal_nonneg _ _)
          (scoreTotal_letterless_le env.words (str "... ...... . ..") (by decide)))]
  rw [jsSliceEnd_eq_take (by norm_num), show ((2:ℤ)).toNat = 2 from rfl, take2_cons]

/-- The sort-filter pipeline on a dominant head over an
equal-confidence tail with distinct leading trims, without slicing:
the first three entries survive in place. -/
theorem sortFilter_cons3 (mc : ℝ) (M R2 R3 : CrackResult)
    (rest : List CrackResult) (cP : ℝ)
    (h2c : R2.confidence = cP) (h3c : R3.confidence = cP)
    (hrest : ∀ x ∈ rest, x.confidence = cP)
    (hM : rGe M.confidence cP = true)
    (hMmc : rGe M.confidence mc = true) (hPmc : rGe cP mc = true)
    (ht1 : trim R2.plaintext ≠ trim M.plaintext)
    (ht2 : trim R3.plaintext ≠ trim M.plaintext)
    (ht3 : trim R3.plaintext ≠ trim R2.plaintext) :
    crackFilter mc []
      (sortGeB (fun a b => rGe a.confidence b.confidence)
        (M :: R2 :: R3 :: rest)) =
      M :: R2 :: R3 :: crackFilter mc
        [trim R3.plaintext, trim R2.plaintext, trim M.plaintext] rest := by
  have hall : ∀ x ∈ R2 :: R3 :: rest, x.confidence = cP := by
    intro x hx
    rcases List.mem_cons.mp hx with rfl | hx'
    · exact h2c
    rcases List.mem_cons.mp hx' with rfl | hx''
    · exact h3c
    · exact hrest x hx''
  rw [sortGeB_eq_self_of_chain' (chain'_cons_of_all_eq M hall hM)]
  have k2 : rGe R2.confidence mc = true := by rw [h2c]; exact hPmc
  have k3 : rGe R3.confidence mc = true := by rw [h3c]; exact hPmc
  have m1 : trim M.plaintext ∉ ([] : List Str) := by simp
  have m2 : trim R2.plaintext ∉ ([trim M.plaintext] : List Str) := by simpa using ht1
  have m3 : trim R3.plaintext ∉
      ([trim R2.plaintext, trim M.plaintext] : List Str) := by simp [ht2, ht3]
  rw [crackFilter_keep _ hMmc m1]
  rw [crackFilter_keep _ k2 m2]
  rw [crackFilter_keep _ k3 m3]

/-- The unsliced candidate level of `".....  .. ....."`: the Morse
decode leads, the first two rail decrypts follow, and everything after
them carries the permutation-class confidence. -/
theorem base_C_shape (env : Env) (sOpts : SolverOptions)
    (hsmr : sOpts.maxResults = none) :
    ∃ rest : List CrackResult,
      (detect (str ".....  .. .....")).flatMap
          (candidateResults env (str ".....  .. .....") sOpts) =
        mkRes env.words 0.9 .morse (str "5I5") none ::
        mkRes env.words 0.15 .railFence (str "... ...... . ..") (some (.num 2)) ::
        mkRes env.words 0.15 .railFence (str "... . ..... ...") (some (.num 3)) :: rest ∧
      ∀ x ∈ rest, x.confidence =
        finalConfidence 0.15 (scorePlaintext env.words (str ".....  .. .....")).total := by
  have hsX : ∀ {Y : Str}, Y.Perm (str ".....  .. .....") →
      (scorePlaintext env.words Y).total =
        (scorePlaintext env.words (str ".....  .. .....")).total :=
    fun {Y} hp => scoreTotal_eq_of_perm_letterless env.words hp
      (fun c hc => (by decide :
        ∀ c ∈ (str ".....  .. ....."), isAlphaCh c = false) c (hp.mem_iff.mp hc))
  rw [det_C1, List.flatMap_cons, List.flatMap_cons, List.flatMap_cons, List.flatMap_nil,
    List.append_nil]
  rw [candidateResults_morse_eval,
    morseSolve_success _ ⟨by decide, by decide⟩
      (show decodeMorse (trim (str ".....  .. .....")) = str "5I5" from by decide)
      (by decide)
      (by rw [solverPrintableRatio_all _ (by decide) (by decide)]; norm_num),
    morse_map_mkRes]
  rw [candidateResults_rail_eval, railFenceSolve_eval env _ _ hsmr (by decide) (by decide),
    List.map_map]
  rw [show ((List.range' 2 9).takeWhile (· < (str ".....  .. .....").length)).take 5
      = [2, 3, 4, 5, 6] from by decide]
  rw [rail_map_mkRes]
  rw [candidateResults_col_eval, columnarSolve_eval env _ _ hsmr (by decide) (by decide),
    List.map_map]
  rw [show railDecrypt (str ".....  .. .....") 2 = str "... ...... . .." from by decide,
      show railDecrypt (str ".....  .. .....") 3 = str "... . ..... ..." from by decide]
  rw [List.singleton_append, List.cons_append, List.cons_append, List.cons_append,
    List.cons_append, List.cons_append, List.nil_append]
  refine ⟨_, rfl, ?_⟩
  intro x hx
  rcases List.mem_cons.mp hx with rfl | hx'
  · rw [mkRes_confidence, hsX (by decide)]
  rcases List.mem_cons.mp hx' with rfl | hx''
  · rw [mkRes_confidence, hsX (by decide)]
  rcases List.mem_cons.mp hx'' with rfl | hx'''
  · rw [mkRes_confidence, hsX (by decide)]
  rcases List.mem_map.mp hx''' with ⟨t, ht, rfl⟩
  have ht' := List.mem_of_mem_take ht
  rcases List.mem_flatMap.mp ht' with ⟨keyLength, hkL, htm⟩
  rcases List.mem_map.mp htm with ⟨perm, hpm, heq⟩
  have hp : (columnarDecrypt (str ".....  .. .....") perm).Perm
      (str ".....  .. .....") :=
    columnarGen_perm _ keyLength hkL perm hpm
  simp only [Function.comp_apply]
  rw [← heq]
  simp only
  congr 1
  exact hsX hp

/-- A JS slice with end `-1` drops exactly the last element. -/
theorem jsSliceEnd_neg_one_length {α : Type _} (l : List α) :
    (jsSliceEnd (-1) l).length = l.length - 1 := by
  rw [jsSliceEnd, if_pos (by norm_num)]
  rw [List.length_take]
  omega

/-- A negative `maxResults` makes the final slice a drop of trailing
elements, so the returned list outgrows `maxResults.toNat`. -/
theorem crack_C1_overflow (env : Env) :
    ¬ ((crack env (str ".....  .. .....")
        { maxResults := some (-1), maxDepth := some 1 }).results.length ≤
      (({ maxResults := some (-1), maxDepth := some 1 } :
        CrackOptions).maxResults.getD 10).toNat) := by
  obtain ⟨rest, heq, hall⟩ := base_C_shape env
    { key := ({ maxResults := some (-1), maxDepth := some 1 } : CrackOptions).key,
      iv := ({ maxResults := some (-1), maxDepth := some 1 } : CrackOptions).iv } rfl
  rw [crack]
  rw [crackGo_depth1 env _ _ _ rfl (by decide) (by rw [det_C1]; simp)]
  simp only [CrackResponse.results]
  rw [show (({ maxResults := some (-1), maxDepth := some 1 } :
      CrackOptions).maxResults.getD 10) = (-1 : ℤ) from rfl,
    show (({ maxResults := some (-1), maxDepth := some 1 } :
      CrackOptions).minConfidence.getD 0.01) = (0.01 : ℝ) from rfl]
  rw [heq]
  rw [sortFilter_cons3 0.01 _ _ _ rest
    (finalConfidence 0.15 (scorePlaintext env.words (str ".....  .. .....")).total)
    (by rw [mkRes_confidence,
      scoreTotal_eq_of_perm_letterless env.words
        (show (str "... ...... . ..").Perm (str ".....  .. .....") from by decide)
        (by decide)])
    (by rw [mkRes_confidence,
      scoreTotal_eq_of_perm_letterless env.words
        (show (str "... . ..... ...").Perm (str ".....  .. .....") from by decide)
        (by decide)])
    hall
    (by rw [mkRes_confidence]
        exact rGe_morse_perm (scoreTotal_nonneg _ _) (scoreTotal_le_one _ _)
          (scoreTotal_nonneg _ _) (scoreTotal_letterless_le env.words _ (by decide)))
    (by rw [mkRes_confidence]
        exact rGe_morse_min (scoreTotal_nonneg _ _) (scoreTotal_le_one _ _))
    (rGe_perm_min (scoreTotal_nonneg _ _) (scoreTotal_le_one _ _))
    (by rw [mkRes_plaintext, mkRes_plaintext]; decide)
    (by rw [mkRes_plaintext, mkRes_plaintext]; decide)
    (by rw [mkRes_plaintext, mkRes_plaintext]; decide)]
  rw [jsSliceEnd_neg_one_length, jsSliceEnd_neg_one_length]
  simp only [List.length_cons]
  rw [show ((-1 : ℤ)).toNat = 0 from rfl]
  omega

/-- C1: `crack` does **not** deduplicate across the recursive-decoding
push: on the Morse/rail ciphertext `".....  .. ....."` with
`maxResults := 2`, the returned list holds two results whose trimmed
plaintexts are both `"5I5"` (the base Morse decode, and the same
decode re-discovered through a rail-fence layer and re-added after the
dedup step), refuting the claimed no-duplicate invariant of the
results list.  Additionally, with `maxResults := -1` the final JS
slice drops trailing elements instead of bounding the list, so the
length-at-most-`maxResults` reading fails for negative `maxResults`. -/
theorem claim_C1_counterexample :
    (((crack envTrivial (str ".....  .. .....") { maxResults := some 2 }).results.map
      fun r => trim r.plaintext) = [str "5I5", str "5I5"]) ∧
    ¬ ((crack envTrivial (str ".....  .. .....")
        { maxResults := some (-1), maxDepth := some 1 }).results.length ≤
      (({ maxResults := some (-1), maxDepth := some 1 } :
        CrackOptions).maxResults.getD 10).toNat) := by
  constructor
  · rw [crack_C1_results]
    simp only [List.map_cons, List.map_nil, mkRes_plaintext, mkResL_plaintext]
    decide
  · exact crack_C1_overflow envTrivial

end CodeCracker

namespace CodeCracker

/-- Full evaluation of `crack` on `". ........"` with
`maxResults := 1`, for any environment, with the two Morse-decode
facts about single and double rail-fence unwrapping. -/
theorem crack_C6_eval (env : Env) :
    ((crack env (str ". ........") { maxResults := some 1 }).results.map
      fun r => (r.plaintext, r.details.layers)) =
      [(str "H5", some [⟨.railFence, some (.num 2)⟩, ⟨.morse, none⟩])] ∧
    decodeMorse (trim (railDecrypt (str ". ........") 2)) = [] ∧
    decodeMorse (trim (railDecrypt (railDecrypt (str ". ........") 2) 2)) =
      str "H5" := by
  refine ⟨?_, by decide, by decide⟩
  rw [crack]
  rw [show ((({ maxResults := some 1 } : CrackOptions).maxDepth.getD 3).toNat)
    = 2 + 1 from rfl]
  rw [crackGo_depthN env 2 (str ". ........")
    ({ maxResults := some 1 } : CrackOptions) 3 rfl (by norm_num) (by decide)
    (by rw [det_C6]; simp)]
  simp only [CrackResponse.results]
  rw [show (({ maxResults := some 1 } : CrackOptions).maxResults.getD 10) = (1:ℤ)
      from rfl,
    show (({ maxResults := some 1 } : CrackOptions).minConfidence.getD 0.01) = (0.01:ℝ)
      from rfl]
  rw [base_C6 env _ rfl]
  rw [tryRecursiveDecode_eval1 (crackGo env 2) _ _
    [mkResL env.words 0.9 .morse (str "H5") none
      [⟨.railFence, some (.num 2)⟩, ⟨.morse, none⟩]]
    (by
      rw [mkRes_guard_false _ _ _ _ _
        (rGt_perm_high (scoreTotal_nonneg _ _)
          (scoreTotal_letterless_le env.words (str ".. .......") (by decide)))
        (by decide)]
      rw [if_neg (by decide)]
      rw [mkRes_plaintext]
      rw [crackGo_D_eval env _ (by rfl) (by rfl) (by rfl) (by rfl) (by rfl)]
      rw [layersMap_eval _ _ _ _
        (by simp only [mkRes_confidence, mkResL_confidence]
            exact rGt_morse_perm (scoreTotal_nonneg _ _) (scoreTotal_le_one _ _)
              (scoreTotal_nonneg _ _)
              (scoreTotal_letterless_le env.words (str ".. .......") (by decide)))
        (by simp only [mkRes_confidence]
            rw [scoreTotal_eq_of_perm_letterless env.words
              (show (str ".... .....").Perm (str ".. .......")
                from by decide) (by decide)]
            exact rGt_irrefl _)
        (by simp only [mkRes_confidence]
            rw [scoreTotal_eq_of_perm_letterless env.words
              (show (str "........ .").Perm (str ".. .......")
                from by decide) (by decide)]
            exact rGt_irrefl _)]
      rw [mkResL_with_layers]
      rfl)]
  rw [List.append_nil]
  rw [sortGeB_two _ _ _
    (by simp only [mkRes_confidence, mkResL_confidence]
        exact rGe_perm_morse_false (scoreTotal_nonneg _ _) (scoreTotal_le_one _ _)
          (scoreTotal_nonneg _ _)
          (scoreTotal_letterless_le env.words (str ".. .......") (by decide)))]
  rw [jsSliceEnd_eq_take (by norm_num), show ((1:ℤ)).toNat = 1 from rfl, take1_cons]
  simp only [List.map_cons, List.map_nil, mkResL_plaintext, mkResL_details_layers]

/-- C6: the `layers` annotation does not record the full unwrapping
chain. `crack` on `". ........"` returns the single plaintext `"H5"`
whose true derivation has three stages (rail-fence 2, rail-fence 2,
Morse), but its `layers` list carries only two entries (one rail-fence
stage and Morse); correspondingly, the Morse decode of the single
recorded rail-fence unwrap is empty, while un-railing twice before the
Morse decode does yield `"H5"`. -/
theorem claim_C6_counterexample :
    ((crack envTrivial (str ". ........") { maxResults := some 1 }).results.map
      fun r => (r.plaintext, r.details.layers)) =
      [(str "H5", some [⟨.railFence, some (.num 2)⟩, ⟨.morse, none⟩])] ∧
    decodeMorse (trim (railDecrypt (str ". ........") 2)) = [] ∧
    decodeMorse (trim (railDecrypt (railDecrypt (str ". ........") 2) 2)) =
      str "H5" :=
  crack_C6_eval envTrivial

end CodeCracker

namespace CodeCracker

/-! ## Non-empty plaintexts: solver-level lemmas for C5 -/

theorem utf8Decode_ne_nil (b : ℕ) (rest : List ℕ) : utf8Decode (b :: rest) ≠ [] := by
  rcases rest with _ | ⟨b2, rest2⟩
  · rw [utf8Decode]
    repeat' split
    all_goals exact List.cons_ne_nil _ _
  rcases rest2 with _ | ⟨b3, rest3⟩
  · rw [utf8Decode]
    repeat' split
    all_goals exact List.cons_ne_nil _ _
  rcases rest3 with _ | ⟨b4, rest4⟩
  · rw [utf8Decode]
    repeat' split
    all_goals exact List.cons_ne_nil _ _
  rw [utf8Decode]
  repeat' split
  all_goals exact List.cons_ne_nil _ _

theorem caesarDecrypt_ne {s : Str} (hs : s ≠ []) (shift : ℤ) :
    caesarDecrypt s shift ≠ [] := by
  rw [caesarDecrypt]
  simpa using hs

theorem rot13_ne {s : Str} (hs : s ≠ []) : rot13 s ≠ [] := by
  rw [rot13]
  simpa using hs

theorem atbash_ne {s : Str} (hs : s ≠ []) : atbash s ≠ [] := by
  rw [atbash]
  simpa using hs

theorem applyCharMapping_ne (lookup : Char → Option Char) {s : Str} (hs : s ≠ []) :
    applyCharMapping lookup s ≠ [] := by
  rw [applyCharMapping]
  simpa using hs

theorem foldl_append_one_length {α : Type _} (f : (Str × ℕ) → α → (Str × ℕ))
    (hf : ∀ acc a, ((f acc a).1).length = acc.1.length + 1) :
    ∀ (t : List α) (acc : Str × ℕ), ((t.foldl f acc).1).length = acc.1.length + t.length := by
  intro t
  induction t with
  | nil => intro acc; simp
  | cons a tl ih =>
    intro acc
    rw [List.foldl_cons, ih, hf]
    simp
    omega

theorem vigenereDecrypt_length (text key : Str) :
    (vigenereDecrypt text key).length = text.length := by
  rw [vigenereDecrypt]
  rw [foldl_append_one_length _ (by
    intro acc a
    simp only []
    repeat' split
    all_goals simp) text ([], 0)]
  simp

theorem vigenereDecrypt_ne {text : Str} (hs : text ≠ []) (key : Str) :
    vigenereDecrypt text key ≠ [] := by
  intro h
  apply hs
  have := vigenereDecrypt_length text key
  rw [h] at this
  exact List.length_eq_zero.mp this.symm

theorem railDecrypt_ne {s : Str} (hs : s ≠ []) (rails : ℕ) :
    railDecrypt s rails ≠ [] := by
  rw [railDecrypt]
  split
  · exact hs
  next hcond =>
    rcases s with _ | ⟨c, s'⟩
    · exact absurd rfl hs
    obtain ⟨rs, rfl⟩ : ∃ rs, rails = rs + 1 := ⟨rails - 1, by omega⟩
    simp only [railAssignment, List.length_cons]
    obtain ⟨tl, htl⟩ : ∃ tl, railAssignGo (rs + 1) 0 1 (s'.length + 1) = 0 :: tl := by
      rw [railAssignGo]
      exact ⟨_, rfl⟩
    rw [htl, List.range_succ_eq_map, List.map_cons, splitByLens, zigzagRead]
    simp [List.filter_cons, List.take_succ_cons]

end CodeCracker

namespace CodeCracker

theorem utf8Decode_ne {l : List ℕ} (hl : l ≠ []) : utf8Decode l ≠ [] := by
  cases l with
  | nil => exact absurd rfl hl
  | cons b rest => exact utf8Decode_ne_nil b rest

theorem xorWithKey_ne {data : List ℕ} (hd : data ≠ []) (key : List ℕ) :
    xorWithKey data key ≠ [] := by
  cases data with
  | nil => exact absurd rfl hd
  | cons b rest =>
    rw [xorWithKey]
    simp [List.enum]

theorem base64Solve_ne (ct : Str) (opts : SolverOptions) :
    ∀ r ∈ base64Solve ct opts, r.plaintext ≠ [] := by
  intro r hr
  simp only [base64Solve] at hr
  split at hr
  · exact absurd hr (List.not_mem_nil r)
  split at hr
  · exact absurd hr (List.not_mem_nil r)
  next hlen =>
    split at hr
    · exact absurd hr (List.not_mem_nil r)
    · rw [List.mem_singleton] at hr
      subst hr
      intro h0
      exact hlen (List.length_eq_zero.mpr h0)

theorem base32Solve_ne (ct : Str) (opts : SolverOptions) :
    ∀ r ∈ base32Solve ct opts, r.plaintext ≠ [] := by
  intro r hr
  simp only [base32Solve] at hr
  split at hr
  · exact absurd hr (List.not_mem_nil r)
  split at hr
  · exact absurd hr (List.not_mem_nil r)
  next bytes heq =>
    split at hr
    · exact absurd hr (List.not_mem_nil r)
    next hlen =>
      split at hr
      · exact absurd hr (List.not_mem_nil r)
      · rw [List.mem_singleton] at hr
        subst hr
        intro h0
        exact hlen (List.length_eq_zero.mpr h0)

theorem hexSolve_ne (ct : Str) (opts : SolverOptions) :
    ∀ r ∈ hexSolve ct opts, r.plaintext ≠ [] := by
  intro r hr
  simp only [hexSolve] at hr
  split at hr
  · exact absurd hr (List.not_mem_nil r)
  split at hr
  · exact absurd hr (List.not_mem_nil r)
  next hlen =>
    split at hr
    · exact absurd hr (List.not_mem_nil r)
    · rw [List.mem_singleton] at hr
      subst hr
      intro h0
      exact hlen (List.length_eq_zero.mpr h0)

theorem binarySolve_ne (ct : Str) (opts : SolverOptions) :
    ∀ r ∈ binarySolve ct opts, r.plaintext ≠ [] := by
  intro r hr
  simp only [binarySolve] at hr
  split at hr
  · exact absurd hr (List.not_mem_nil r)
  split at hr
  · exact absurd hr (List.not_mem_nil r)
  next hlen =>
    split at hr
    · exact absurd hr (List.not_mem_nil r)
    · rw [List.mem_singleton] at hr
      subst hr
      intro h0
      exact hlen (List.length_eq_zero.mpr h0)

theorem urlSolve_ne (ct : Str) (opts : SolverOptions) :
    ∀ r ∈ urlSolve ct opts, r.plaintext ≠ [] := by
  intro r hr
  simp only [urlSolve] at hr
  split at hr
  · exact absurd hr (List.not_mem_nil r)
  split at hr
  · exact absurd hr (List.not_mem_nil r)
  next decoded heq =>
    split at hr
    · exact absurd hr (List.not_mem_nil r)
    split at hr
    · exact absurd hr (List.not_mem_nil r)
    next hlen =>
      split at hr
      · exact absurd hr (List.not_mem_nil r)
      · rw [List.mem_singleton] at hr
        subst hr
        intro h0
        exact hlen (List.length_eq_zero.mpr h0)

theorem morseSolve_ne (ct : Str) (opts : SolverOptions) :
    ∀ r ∈ morseSolve ct opts, r.plaintext ≠ [] := by
  intro r hr
  simp only [morseSolve] at hr
  split at hr
  · exact absurd hr (List.not_mem_nil r)
  split at hr
  · exact absurd hr (List.not_mem_nil r)
  next hlen =>
    split at hr
    · exact absurd hr (List.not_mem_nil r)
    · rw [List.mem_singleton] at hr
      subst hr
      intro h0
      exact hlen (List.length_eq_zero.mpr h0)

end CodeCracker

namespace CodeCracker

theorem caesarSolve_ne (env : Env) {ct : Str} (hct : ct ≠ []) (opts : SolverOptions) :
    ∀ r ∈ caesarSolve env ct opts, r.plaintext ≠ [] := by
  intro r hr
  simp only [caesarSolve] at hr
  rcases List.mem_map.mp hr with ⟨t, ht, rfl⟩
  have ht2 := mem_sortGeB.mp ((jsSliceEnd_sublist _ _).mem ht)
  rcases List.mem_map.mp ht2 with ⟨shift, _, rfl⟩
  exact caesarDecrypt_ne hct _

theorem vigenereNoKey_ne (env : Env) {ct : Str} (hct : ct ≠ []) (m : ℤ) :
    ∀ r ∈ vigenereNoKey env ct m, r.plaintext ≠ [] := by
  intro r hr
  simp only [vigenereNoKey] at hr
  split at hr
  · exact absurd hr (List.not_mem_nil r)
  · rcases List.mem_map.mp hr with ⟨t, ht, rfl⟩
    have ht2 := mem_sortGeB.mp ((jsSliceEnd_sublist _ _).mem ht)
    rcases List.mem_map.mp ht2 with ⟨keyLength, _, rfl⟩
    exact vigenereDecrypt_ne hct _

theorem vigenereSolve_ne (env : Env) {ct : Str} (hct : ct ≠ []) (opts : SolverOptions) :
    ∀ r ∈ vigenereSolve env ct opts, r.plaintext ≠ [] := by
  intro r hr
  simp only [vigenereSolve] at hr
  split at hr
  · split at hr
    · rw [List.mem_singleton] at hr
      subst hr
      exact vigenereDecrypt_ne hct _
    · exact vigenereNoKey_ne env hct _ r hr
  · exact vigenereNoKey_ne env hct _ r hr

theorem substDecryptWithAlphabet_ne {ct : Str} (hct : ct ≠ []) (k : Str) :
    substDecryptWithAlphabet ct k ≠ [] := by
  rw [substDecryptWithAlphabet]
  exact applyCharMapping_ne _ hct

theorem subNK_eq (env : Env) (ct : Str) : substitutionNoKey env ct =
      [{ plaintext := substNKPlain ct,
         cipherType := .substitution,
         confidence := (scorePlaintext env.words (substNKPlain ct)).total,
         key := some (.strv (mappingToAlphabet (frequencyAnalysisMapping ct))) }] :=
  rfl

theorem substNKPlain_ne {ct : Str} (hct : ct ≠ []) : substNKPlain ct ≠ [] := by
  rw [substNKPlain]
  exact applyCharMapping_ne _ hct

attribute [irreducible] substNKPlain

theorem substitutionNoKey_ne (env : Env) {ct : Str} (hct : ct ≠ []) :
    ∀ r ∈ substitutionNoKey env ct, r.plaintext ≠ [] := by
  intro r hr
  rw [subNK_eq, List.mem_singleton] at hr
  subst hr
  exact substNKPlain_ne hct

theorem substitutionSolve_ne (env : Env) {ct : Str} (hct : ct ≠ [])
    (opts : SolverOptions) :
    ∀ r ∈ substitutionSolve env ct opts, r.plaintext ≠ [] := by
  intro r hr
  simp only [substitutionSolve] at hr
  split at hr
  · split at hr
    · rw [List.mem_singleton] at hr
      subst hr
      exact substDecryptWithAlphabet_ne hct _
    · exact substitutionNoKey_ne env hct r hr
  · exact substitutionNoKey_ne env hct r hr

theorem railFenceSolve_ne (env : Env) {ct : Str} (hct : ct ≠ [])
    (opts : SolverOptions) :
    ∀ r ∈ railFenceSolve env ct opts, r.plaintext ≠ [] := by
  intro r hr
  simp only [railFenceSolve] at hr
  rcases List.mem_map.mp hr with ⟨t, ht, rfl⟩
  have ht2 := mem_sortGeB.mp ((jsSliceEnd_sublist _ _).mem ht)
  rcases List.mem_map.mp ht2 with ⟨rails, _, rfl⟩
  exact railDecrypt_ne hct _

theorem columnarSolve_ne (env : Env) {ct : Str} (hct : ct ≠ [])
    (opts : SolverOptions) :
    ∀ r ∈ columnarSolve env ct opts, r.plaintext ≠ [] := by
  intro r hr
  simp only [columnarSolve] at hr
  rcases List.mem_map.mp hr with ⟨t, ht, rfl⟩
  have ht2 := mem_sortGeB.mp ((jsSliceEnd_sublist _ _).mem ht)
  rcases List.mem_flatMap.mp ht2 with ⟨keyLength, hkL, htm⟩
  rcases List.mem_map.mp htm with ⟨perm, hpm, rfl⟩
  have hp := columnarGen_perm ct keyLength hkL perm hpm
  intro h0
  have h0' : columnarDecrypt ct perm = [] := h0
  have hlen := hp.length_eq
  rw [h0'] at hlen
  exact hct (List.length_eq_zero.mp hlen.symm)

set_option maxRecDepth 8000 in
theorem hashLookupSolve_ne (env : Env) (ct : Str) (opts : SolverOptions) :
    ∀ r ∈ hashLookupSolve env ct opts, r.plaintext ≠ [] := by
  intro r hr
  simp only [hashLookupSolve] at hr
  split at hr
  · exact absurd hr (List.not_mem_nil r)
  split at hr
  · exact absurd hr (List.not_mem_nil r)
  next h heq =>
    split at hr
    · exact absurd hr (List.not_mem_nil r)
    next pw hfind =>
      rw [List.mem_singleton] at hr
      subst hr
      have hall : ∀ p ∈ COMMON_PASSWORDS, p ≠ [] := by decide
      exact hall pw (List.mem_of_find?_eq_some hfind)

theorem xorBruteForce_ne (env : Env) {inputBytes : List ℕ} (hb : inputBytes ≠ []) :
    ∀ r ∈ xorBruteForce env inputBytes, r.plaintext ≠ [] := by
  intro r hr
  simp only [xorBruteForce] at hr
  rcases List.mem_map.mp hr with ⟨t, ht, rfl⟩
  have ht2 := mem_sortGeB.mp (List.mem_of_mem_take ht)
  rcases List.mem_map.mp ht2 with ⟨keyByte, _, rfl⟩
  refine utf8Decode_ne ?_
  simpa using hb

theorem xorDecryptWithKey_ne (env : Env) {inputBytes : List ℕ} (hb : inputBytes ≠ [])
    (key : KeyIn) :
    ∀ r ∈ xorDecryptWithKey env inputBytes key, r.plaintext ≠ [] := by
  intro r hr
  simp only [xorDecryptWithKey] at hr
  split at hr
  · exact absurd hr (List.not_mem_nil r)
  · rw [List.mem_singleton] at hr
    subst hr
    exact utf8Decode_ne (xorWithKey_ne hb _)

theorem xorSolve_ne (env : Env) (ct : Str) (opts : SolverOptions) :
    ∀ r ∈ xorSolve env ct opts, r.plaintext ≠ [] := by
  intro r hr
  simp only [xorSolve] at hr
  split at hr
  · exact absurd hr (List.not_mem_nil r)
  split at hr
  · exact absurd hr (List.not_mem_nil r)
  next hbytes =>
    have hb : xorToBytes (trim ct) ≠ [] := fun h0 => hbytes (by rw [h0]; rfl)
    split at hr
    · exact xorBruteForce_ne env hb r hr
    · exact xorBruteForce_ne env hb r hr
    · exact xorDecryptWithKey_ne env hb _ r hr

end CodeCracker

namespace CodeCracker

/-! ## C5: every ranked result of `crack` has a non-empty plaintext -/

theorem rot13Solver_solve_ne (env : Env) {ct : Str} (hct : ct ≠ [])
    (opts : SolverOptions) :
    ∀ r ∈ (rot13Solver env).solve ct opts, r.plaintext ≠ [] := by
  intro r hr
  simp only [rot13Solver] at hr
  rw [List.mem_singleton] at hr
  subst hr
  exact rot13_ne hct

theorem atbashSolver_solve_ne (env : Env) {ct : Str} (hct : ct ≠ [])
    (opts : SolverOptions) :
    ∀ r ∈ (atbashSolver env).solve ct opts, r.plaintext ≠ [] := by
  intro r hr
  simp only [atbashSolver] at hr
  rw [List.mem_singleton] at hr
  subst hr
  exact atbash_ne hct

/-- The fixed-type candidate constructor never carries the three
types absent from detection. -/
theorem detCand_types_of {t : CipherType} (conf : ℝ)
    (h1 : t ≠ CipherType.playfair) (h2 : t ≠ CipherType.aes)
    (h3 : t ≠ CipherType.rsa) :
    (⟨t, conf⟩ : DetectionCandidate).cipherType ≠ CipherType.playfair ∧
      (⟨t, conf⟩ : DetectionCandidate).cipherType ≠ CipherType.aes ∧
      (⟨t, conf⟩ : DetectionCandidate).cipherType ≠ CipherType.rsa :=
  ⟨h1, h2, h3⟩

/-- `detectByPattern` never proposes `playfair`, `aes` or `rsa`. -/
theorem detectByPattern_types (t : Str) :
    ∀ c ∈ detectByPattern t,
      c.cipherType ≠ CipherType.playfair ∧ c.cipherType ≠ CipherType.aes ∧
        c.cipherType ≠ CipherType.rsa := by
  intro c h
  rw [detectByPattern, mem_sortGeB] at h
  revert c h
  show ∀ c ∈ _ ++ _, _
  refine List.forall_mem_append.mpr ⟨?_, ?_⟩
  · refine List.forall_mem_append.mpr ⟨?_, ?_⟩
    · refine List.forall_mem_append.mpr ⟨?_, ?_⟩
      · refine List.forall_mem_append.mpr ⟨?_, ?_⟩
        · refine List.forall_mem_append.mpr ⟨?_, ?_⟩
          · refine List.forall_mem_append.mpr ⟨?_, ?_⟩
            · refine List.forall_mem_append.mpr ⟨?_, ?_⟩
              · exact forall_mem_ite_nil (by
                  rintro c hc; simp at hc; rw [hc]
                  exact detCand_types_of _ (by decide) (by decide) (by decide))
              · exact forall_mem_ite_nil (by
                  rintro c hc; simp at hc; rw [hc]
                  exact detCand_types_of _ (by decide) (by decide) (by decide))
            · exact forall_mem_ite_nil (by
                rintro c hc; simp at hc; rw [hc]
                exact detCand_types_of _ (by decide) (by decide) (by decide))
          · intro c hc
            split at hc
            · split at hc
              · simp at hc; rw [hc]
                exact detCand_types_of _ (by decide) (by decide) (by decide)
              · split at hc
                · simp at hc; rw [hc]
                  exact detCand_types_of _ (by decide) (by decide) (by decide)
                · simp at hc
            · simp at hc
        · exact forall_mem_ite_nil (by
            rintro c hc; simp at hc; rw [hc]
            exact detCand_types_of _ (by decide) (by decide) (by decide))
      · refine forall_mem_ite_nil ?_
        rintro c hc
        simp at hc
        rw [hc]
        exact detCand_types_of _ (by decide) (by decide) (by decide)
    · refine forall_mem_ite_nil ?_
      rintro c hc
      simp only [List.mem_cons, List.mem_singleton, List.not_mem_nil, or_false] at hc
      rcases hc with rfl | rfl | rfl | rfl | rfl <;>
        exact detCand_types_of _ (by decide) (by decide) (by decide)
  · refine forall_mem_ite_nil ?_
    rintro c hc
    simp only [List.mem_cons, List.mem_singleton, List.not_mem_nil, or_false] at hc
    rcases hc with rfl | rfl <;>
      exact detCand_types_of _ (by decide) (by decide) (by decide)

/-- `detect` never proposes `playfair`, `aes` or `rsa` (those types
are reached only through explicit `decrypt` calls). -/
theorem detect_types (ct : Str) :
    ∀ c ∈ detect ct,
      c.cipherType ≠ CipherType.playfair ∧ c.cipherType ≠ CipherType.aes ∧
        c.cipherType ≠ CipherType.rsa := by
  intro c h
  rw [detect] at h
  split at h
  · simp at h
  · rw [mem_sortGeB] at h
    have h' := mergeCands_mem h
    rcases List.mem_append.mp h' with h'' | h''
    · exact detectByPattern_types _ c h''
    · have h3 := mem_ite_nil h''
      rcases List.mem_append.mp h3 with h4 | h4
      · split at h4
        · simp only [List.mem_singleton] at h4
          rw [h4]
          exact detCand_types_of _ (by decide) (by decide) (by decide)
        · simp only [List.mem_cons, List.mem_singleton, List.not_mem_nil,
            or_false] at h4
          rcases h4 with rfl | rfl | rfl | rfl <;>
            exact detCand_types_of _ (by decide) (by decide) (by decide)
        · simp at h4
      · have h5 := mem_ite_nil h4
        simp only [List.mem_singleton] at h5
        rw [h5]
        exact detCand_types_of _ (by decide) (by decide) (by decide)

/-- Any registered solver for a detectable cipher type only emits
non-empty plaintexts on non-empty input. -/
theorem getSolver_solve_ne (env : Env) {t : CipherType}
    (h1 : t ≠ CipherType.playfair) (h2 : t ≠ CipherType.aes)
    (h3 : t ≠ CipherType.rsa) {solver : Solver}
    (hs : getSolver env t = some solver) {ct : Str} (hct : ct ≠ [])
    (opts : SolverOptions) :
    ∀ r ∈ solver.solve ct opts, r.plaintext ≠ [] := by
  cases t with
  | caesar =>
    rw [show getSolver env CipherType.caesar = some (caesarSolver env) from rfl] at hs
    injection hs with h
    subst h
    exact caesarSolve_ne env hct opts
  | rot13 =>
    rw [show getSolver env CipherType.rot13 = some (rot13Solver env) from rfl] at hs
    injection hs with h
    subst h
    exact rot13Solver_solve_ne env hct opts
  | atbash =>
    rw [show getSolver env CipherType.atbash = some (atbashSolver env) from rfl] at hs
    injection hs with h
    subst h
    exact atbashSolver_solve_ne env hct opts
  | vigenere =>
    rw [show getSolver env CipherType.vigenere = some (vigenereSolver env) from rfl] at hs
    injection hs with h
    subst h
    exact vigenereSolve_ne env hct opts
  | substitution =>
    rw [show getSolver env CipherType.substitution = some (substitutionSolver env)
      from rfl] at hs
    injection hs with h
    subst h
    exact substitutionSolve_ne env hct opts
  | railFence =>
    rw [show getSolver env CipherType.railFence = some (railFenceSolver env)
      from rfl] at hs
    injection hs with h
    subst h
    exact railFenceSolve_ne env hct opts
  | playfair => exact absurd rfl h1
  | columnarTransposition =>
    rw [show getSolver env CipherType.columnarTransposition = some (columnarSolver env)
      from rfl] at hs
    injection hs with h
    subst h
    exact columnarSolve_ne env hct opts
  | base64 =>
    rw [show getSolver env CipherType.base64 = some base64Solver from rfl] at hs
    injection hs with h
    subst h
    exact base64Solve_ne ct opts
  | base32 =>
    rw [show getSolver env CipherType.base32 = some base32Solver from rfl] at hs
    injection hs with h
    subst h
    exact base32Solve_ne ct opts
  | hex =>
    rw [show getSolver env CipherType.hex = some hexSolver from rfl] at hs
    injection hs with h
    subst h
    exact hexSolve_ne ct opts
  | binary =>
    rw [show getSolver env CipherType.binary = some binarySolver from rfl] at hs
    injection hs with h
    subst h
    exact binarySolve_ne ct opts
  | urlEncoding =>
    rw [show getSolver env CipherType.urlEncoding = some urlSolver from rfl] at hs
    injection hs with h
    subst h
    exact urlSolve_ne ct opts
  | morse =>
    rw [show getSolver env CipherType.morse = some morseSolver from rfl] at hs
    injection hs with h
    subst h
    exact morseSolve_ne ct opts
  | xor =>
    rw [show getSolver env CipherType.xor = some (xorSolver env) from rfl] at hs
    injection hs with h
    subst h
    exact xorSolve_ne env ct opts
  | hashLookup =>
    rw [show getSolver env CipherType.hashLookup = some (hashLookupSolver env)
      from rfl] at hs
    injection hs with h
    subst h
    exact hashLookupSolve_ne env ct opts
  | aes => exact absurd rfl h2
  | rsa => exact absurd rfl h3

/-- Rescoring in `candidateResults` keeps the solver plaintext, so
every candidate-loop result for a detectable type has a non-empty
plaintext. -/
theorem candidateResults_ne (env : Env) {ct : Str} (hct : ct ≠ [])
    (sopts : SolverOptions) (cand : DetectionCandidate)
    (h1 : cand.cipherType ≠ CipherType.playfair)
    (h2 : cand.cipherType ≠ CipherType.aes)
    (h3 : cand.cipherType ≠ CipherType.rsa) :
    ∀ r ∈ candidateResults env ct sopts cand, r.plaintext ≠ [] := by
  intro r hr
  rw [candidateResults] at hr
  split at hr
  · exact absurd hr (List.not_mem_nil r)
  next solver hsol =>
    rcases List.mem_map.mp hr with ⟨r0, hr0, rfl⟩
    exact getSolver_solve_ne env h1 h2 h3 hsol hct sopts r0 hr0

/-- The whole per-level solver sweep of `crack` only produces
non-empty plaintexts. -/
theorem flatMap_candidateResults_ne (env : Env) {ct : Str} (hct : ct ≠ [])
    (sopts : SolverOptions) :
    ∀ r ∈ (detect ct).flatMap (candidateResults env ct sopts),
      r.plaintext ≠ [] := by
  intro r hr
  rcases List.mem_flatMap.mp hr with ⟨cand, hcand, hr2⟩
  obtain ⟨h1, h2, h3⟩ := detect_types ct cand hcand
  exact candidateResults_ne env hct sopts cand h1 h2 h3 r hr2

/-- Every result of a `crackGo` level, at any recursion fuel, has a
non-empty plaintext. -/
theorem crackGo_plaintext_ne (env : Env) :
    ∀ (fuel : ℕ) (ct : Str) (opts : CrackOptions),
      ∀ r ∈ (crackGo env fuel ct opts).results, r.plaintext ≠ [] := by
  intro fuel
  induction fuel with
  | zero =>
    intro ct opts r hr
    rw [crackGo] at hr
    dsimp only at hr
    split at hr
    · exact absurd hr (List.not_mem_nil r)
    next hne =>
      split at hr
      · exact absurd hr (List.not_mem_nil r)
      next hcands =>
        have hct : ct ≠ [] := fun h => hne (by rw [h]; decide)
        dsimp only at hr
        split at hr
        · exact flatMap_candidateResults_ne env hct _ r
            (mem_of_mem_slice_filter_sort ((jsSliceEnd_sublist _ _).mem hr))
        · exact flatMap_candidateResults_ne env hct _ r
            (mem_of_mem_slice_filter_sort ((jsSliceEnd_sublist _ _).mem hr))
  | succ f ih =>
    intro ct opts r hr
    rw [crackGo] at hr
    dsimp only at hr
    split at hr
    · exact absurd hr (List.not_mem_nil r)
    next hne =>
      split at hr
      · exact absurd hr (List.not_mem_nil r)
      next hcands =>
        have hct : ct ≠ [] := fun h => hne (by rw [h]; decide)
        dsimp only at hr
        split at hr
        · rw [tryRecursiveDecode] at hr
          dsimp only at hr
          have hr1 := (jsSliceEnd_sublist _ _).mem hr
          rw [mem_sortGeB] at hr1
          rcases List.mem_append.mp hr1 with h | h
          · exact flatMap_candidateResults_ne env hct _ r
              (mem_of_mem_slice_filter_sort h)
          · rcases List.mem_flatMap.mp h with ⟨parent, hp, hr3⟩
            split at hr3
            · exact absurd hr3 (List.not_mem_nil r)
            · rcases List.mem_filterMap.mp hr3 with ⟨inner, hinner, hsome⟩
              split at hsome
              · injection hsome with h4
                subst h4
                exact ih _ _ inner hinner
              · exact Option.noConfusion hsome
        · exact flatMap_candidateResults_ne env hct _ r
            (mem_of_mem_slice_filter_sort ((jsSliceEnd_sublist _ _).mem hr))

/-- C5: **confirmed**.  For every environment, input and options,
every `CrackResult` in the `results` list of the `CrackResponse`
returned by `crack` has a non-empty plaintext.  (The source has no
explicit empty-plaintext filter before ranking; the invariant holds
because every solver reachable from `detect` only emits non-empty
plaintexts on the non-empty input that reaches it.) -/
theorem claim_C5 (env : Env) (ciphertext : Str) (options : CrackOptions) :
    ∀ r ∈ (crack env ciphertext options).results, r.plaintext ≠ [] := by
  rw [crack]
  exact crackGo_plaintext_ne env _ ciphertext options

/-- Closed witness for C5: the head result of `crack` on the Morse
ciphertext `".....  .. ....."` is a member of the response and its
plaintext `"5I5"` is non-empty. -/
theorem claim_C5_witness :
    mkRes envTrivial.words 0.9 .morse (str "5I5") none ∈
        (crack envTrivial (str ".....  .. .....") { maxResults := some 2 }).results ∧
    (mkRes envTrivial.words 0.9 .morse (str "5I5") none).plaintext ≠ [] := by
  have hm : mkRes envTrivial.words 0.9 CipherType.morse (str "5I5") none ∈
      (crack envTrivial (str ".....  .. .....") { maxResults := some 2 }).results := by
    rw [crack_C1_results]
    exact List.mem_cons_self _ _
  exact ⟨hm, claim_C5 envTrivial (str ".....  .. .....") { maxResults := some 2 } _ hm⟩

end CodeCracker

namespace CodeCracker

/-! ## Amended statements for the corrected claims -/

/-- C4: **corrected statement**.  For every text, the
printable-ASCII-ratio primitive of `utils/text.ts` returns the number
of characters whose codepoint lies in 32-126 (tab, CR and LF are *not*
counted), divided by the text's length, and `0` for the empty text. -/
theorem claim_C4 (s : Str) :
    printableRatio s = if s.length = 0 then 0
      else ((s.countP fun c => decide (32 ≤ code c ∧ code c ≤ 126)) : ℚ) / s.length := by
  rw [printableRatio]
  rcases Nat.eq_zero_or_pos s.length with h0 | h0
  · rw [if_pos h0, if_pos h0]
  · rw [if_neg (Nat.pos_iff_ne_zero.mp h0), if_neg (Nat.pos_iff_ne_zero.mp h0)]
    rw [List.countP_eq_length_filter]
    have hf : (fun c => decide (32 ≤ code c ∧ code c ≤ 126)) =
        (fun c => (32 ≤ code c && code c ≤ 126 : Bool)) := by
      funext c
      by_cases h1 : 32 ≤ code c
      · by_cases h2 : code c ≤ 126 <;> simp [h1, h2]
      · simp [h1]
    rw [hf]

/-! ## Encoding round-trips over printable ASCII (C2) -/

theorem utf8EncodeChar_ascii {c : Char} (h : code c < 128) :
    utf8EncodeChar c = [code c] := by
  simp only [utf8EncodeChar]
  rw [if_pos h]

theorem utf8Encode_ascii {p : Str} (h : ∀ c ∈ p, code c < 128) :
    utf8Encode p = p.map code := by
  induction p with
  | nil => rfl
  | cons c t ih =>
    rw [utf8Encode, List.flatMap_cons, utf8EncodeChar_ascii (h c (List.mem_cons_self c t)),
      List.map_cons, List.singleton_append]
    exact congrArg _ (ih fun x hx => h x (List.mem_cons_of_mem c hx))

theorem utf8Decode_ascii_go :
    ∀ (n : ℕ) (l : List ℕ), l.length ≤ n → (∀ b ∈ l, b < 128) →
      utf8Decode l = l.map Char.ofNat := by
  intro n
  induction n with
  | zero =>
    intro l hl _
    have h0 : l = [] := List.length_eq_zero.mp (by omega)
    subst h0
    rfl
  | succ n ih =>
    intro l hl h
    match l with
    | [] => rfl
    | [b] =>
      rw [utf8Decode, if_pos (h b (by simp))]
      rfl
    | [b, b2] =>
      rw [utf8Decode, if_pos (h b (by simp))]
      rw [ih [b2] (by simp at hl ⊢; omega) (fun x hx => h x (List.mem_cons_of_mem b hx))]
      rfl
    | [b, b2, b3] =>
      rw [utf8Decode, if_pos (h b (by simp))]
      rw [ih [b2, b3] (by simp at hl ⊢; omega)
        (fun x hx => h x (List.mem_cons_of_mem b hx))]
      rfl
    | b :: b2 :: b3 :: b4 :: rest =>
      rw [utf8Decode, if_pos (h b (by simp))]
      rw [ih (b2 :: b3 :: b4 :: rest) (by simp at hl ⊢; omega)
        (fun x hx => h x (List.mem_cons_of_mem b hx))]
      rfl

theorem utf8Decode_ascii {l : List ℕ} (h : ∀ b ∈ l, b < 128) :
    utf8Decode l = l.map Char.ofNat :=
  utf8Decode_ascii_go l.length l le_rfl h

theorem map_ofNat_code (p : Str) : (p.map code).map Char.ofNat = p := by
  rw [List.map_map]
  have h : Char.ofNat ∘ code = id := funext fun c => Char.ofNat_toNat c
  rw [h, List.map_id]

/-- `trim` is the identity when both ends are not whitespace. -/
theorem trim_eq_self_of_ends {s : Str}
    (h1 : ∀ c ∈ s.take 1, isWhite c = false)
    (h2 : ∀ c ∈ s.reverse.take 1, isWhite c = false) : trim s = s := by
  rw [trim]
  have d1 : s.dropWhile isWhite = s := by
    cases s with
    | nil => rfl
    | cons a t =>
      rw [List.dropWhile_cons, if_neg (by simp [h1 a (by simp)])]
  rw [d1]
  have d2 : s.reverse.dropWhile isWhite = s.reverse := by
    cases hrev : s.reverse with
    | nil => rfl
    | cons a t =>
      rw [List.dropWhile_cons, if_neg (by simp [h2 a (by rw [hrev]; simp)])]
  rw [d2, List.reverse_reverse]

theorem trim_eq_self_of_all {s : Str} (h : ∀ c ∈ s, isWhite c = false) :
    trim s = s :=
  trim_eq_self_of_ends (fun c hc => h c (List.mem_of_mem_take hc))
    (fun c hc => h c (List.mem_reverse.mp (List.mem_of_mem_take hc)))

theorem solverPrintableRatio_printable {p : Str} (hne : p ≠ [])
    (h : ∀ c ∈ p, 32 ≤ code c ∧ code c ≤ 126) : solverPrintableRatio p = 1 :=
  solverPrintableRatio_all p hne (List.filter_eq_self.mpr fun c hc => by
    have hb := h c hc
    simp only [Bool.or_eq_true, Bool.and_eq_true, decide_eq_true_eq]
    exact Or.inl (Or.inl (Or.inl ⟨hb.1, hb.2⟩)))

theorem printable_bytes {p : Str} (hp : ∀ c ∈ p, 32 ≤ code c ∧ code c ≤ 126) :
    ∀ b ∈ utf8Encode p, 32 ≤ b ∧ b ≤ 126 := by
  rw [utf8Encode_ascii (fun c hc => by have := hp c hc; omega)]
  intro b hb
  rcases List.mem_map.mp hb with ⟨c, hc, rfl⟩
  exact hp c hc

theorem utf8Decode_encode_ascii {p : Str} (hp : ∀ c ∈ p, code c < 128) :
    utf8Decode (utf8Encode p) = p := by
  rw [utf8Encode_ascii hp, utf8Decode_ascii (by
    intro b hb
    rcases List.mem_map.mp hb with ⟨c, hc, rfl⟩
    exact hp c hc), map_ofNat_code]

/-! ### hex round-trip -/

theorem hexDigitLower_spec : ∀ n, n < 16 →
    ((isHexDigitCh (hexDigitLower n) = true ∧ isWhite (hexDigitLower n) = false) ∧
      hexDigitVal (hexDigitLower n) = some n) := by decide

theorem hexEncode_cons (b : ℕ) (t : List ℕ) :
    hexEncode (b :: t) = hexDigitLower (b / 16) :: hexDigitLower (b % 16) :: hexEncode t :=
  rfl

theorem hexEncode_length (l : List ℕ) : (hexEncode l).length = 2 * l.length := by
  induction l with
  | nil => rfl
  | cons b t ih =>
    rw [hexEncode_cons]
    simp only [List.length_cons, ih]
    omega

theorem hexEncode_mem {l : List ℕ} (hb : ∀ b ∈ l, b < 256) :
    ∀ c ∈ hexEncode l, isHexDigitCh c = true ∧ isWhite c = false := by
  induction l with
  | nil => intro c hc; exact absurd hc (List.not_mem_nil c)
  | cons b t ih =>
    intro c hc
    rw [hexEncode_cons] at hc
    have hb0 := hb b (List.mem_cons_self b t)
    rcases List.mem_cons.mp hc with rfl | hc'
    · exact (hexDigitLower_spec (b / 16) (by omega)).1
    rcases List.mem_cons.mp hc' with rfl | hc''
    · exact (hexDigitLower_spec (b % 16) (by omega)).1
    · exact ih (fun x hx => hb x (List.mem_cons_of_mem b hx)) c hc''

theorem hexDecode_encode {l : List ℕ} (hb : ∀ b ∈ l, b < 256) :
    hexDecodeBytes (hexEncode l) = l := by
  induction l with
  | nil => rfl
  | cons b t ih =>
    rw [hexEncode_cons, hexDecodeBytes]
    have hb0 := hb b (List.mem_cons_self b t)
    rw [(hexDigitLower_spec (b / 16) (by omega)).2, (hexDigitLower_spec (b % 16) (by omega)).2]
    show (16 * (b / 16) + b % 16) :: hexDecodeBytes (hexEncode t) = b :: t
    rw [ih (fun x hx => hb x (List.mem_cons_of_mem b hx))]
    congr 1
    omega

/-- The hex round-trip: `solve` on the canonical hex encoding returns
exactly the original printable-ASCII plaintext. -/
theorem hexSolve_roundtrip {p : Str} (hne : p ≠ [])
    (hp : ∀ c ∈ p, 32 ≤ code c ∧ code c ≤ 126) :
    (hexSolve (hexEncode (utf8Encode p)) {}).map (fun r => r.plaintext) = [p] := by
  have hascii : ∀ c ∈ p, code c < 128 := fun c hc => by have := hp c hc; omega
  have hbytes : ∀ b ∈ utf8Encode p, b < 256 := fun b hb => by
    have := printable_bytes hp b hb; omega
  have hlen0 : (utf8Encode p).length ≠ 0 := by
    rw [utf8Encode_ascii hascii, List.length_map]
    simpa using hne
  have htrim : trim (hexEncode (utf8Encode p)) = hexEncode (utf8Encode p) :=
    trim_eq_self_of_all fun c hc => (hexEncode_mem hbytes c hc).2
  have hfil : (hexEncode (utf8Encode p)).filter (!isWhite ·) = hexEncode (utf8Encode p) :=
    List.filter_eq_self.mpr fun c hc => by
      simp [(hexEncode_mem hbytes c hc).2]
  simp only [hexSolve, htrim, hfil]
  rw [if_neg (not_not_intro ⟨⟨by rw [hexEncode_length]; omega,
      by rw [hexEncode_length]; omega⟩,
    List.all_eq_true.mpr fun c hc => (hexEncode_mem hbytes c hc).1⟩)]
  rw [hexDecode_encode hbytes, utf8Decode_encode_ascii hascii]
  rw [if_neg (by simpa using hne)]
  rw [if_neg (by rw [solverPrintableRatio_printable hne hp]; norm_num)]
  simp only [List.map_cons, List.map_nil]

/-! ### base64 round-trip -/

set_option maxRecDepth 8000 in
theorem b64Chr_spec : ∀ i, i < 64 →
    ((isB64Ch (b64Chr i) = true ∧ isWhite (b64Chr i) = false) ∧
      (decide (b64Chr i = '=') = false ∧ b64Index (b64Chr i) = some i)) := by decide

theorem base64Encode_chunk (a b c : ℕ) (rest : List ℕ) :
    base64Encode (a :: b :: c :: rest) =
      b64Chr (a / 4) :: b64Chr (a % 4 * 16 + b / 16) :: b64Chr (b % 16 * 4 + c / 64) ::
        b64Chr (c % 64) :: base64Encode rest := rfl

theorem base64Encode_len4 : ∀ l : List ℕ, (base64Encode l).length % 4 = 0 := by
  intro l
  induction l using base64Encode.induct with
  | case1 => rfl
  | case2 a => simp [base64Encode]
  | case3 a b => simp [base64Encode]
  | case4 a b c rest ih =>
    rw [base64Encode_chunk]
    simp only [List.length_cons]
    omega

theorem base64Encode_split :
    ∀ l : List ℕ, (∀ b ∈ l, b < 256) →
      ∃ core k, base64Encode l = core ++ List.replicate k '=' ∧
        (∀ c ∈ core, (isB64Ch c = true ∧ isWhite c = false) ∧ ¬(c = '=')) ∧
        (l ≠ [] → core ≠ []) := by
  intro l
  induction l using base64Encode.induct with
  | case1 => intro _; exact ⟨[], 0, rfl, by simp, by simp⟩
  | case2 a =>
    intro h
    have ha := h a (by simp)
    refine ⟨[b64Chr (a / 4), b64Chr (a % 4 * 16)], 2, rfl, ?_, by simp⟩
    intro c hc
    rcases List.mem_cons.mp hc with rfl | hc'
    · have hs := b64Chr_spec (a / 4) (by omega)
      exact ⟨hs.1, of_decide_eq_false hs.2.1⟩
    rcases List.mem_cons.mp hc' with rfl | hc''
    · have hs := b64Chr_spec (a % 4 * 16) (by omega)
      exact ⟨hs.1, of_decide_eq_false hs.2.1⟩
    · exact absurd hc'' (List.not_mem_nil c)
  | case3 a b =>
    intro h
    have ha := h a (by simp)
    have hb := h b (by simp)
    refine ⟨[b64Chr (a / 4), b64Chr (a % 4 * 16 + b / 16), b64Chr (b % 16 * 4)], 1,
      rfl, ?_, by simp⟩
    intro c hc
    rcases List.mem_cons.mp hc with rfl | hc'
    · have hs := b64Chr_spec (a / 4) (by omega)
      exact ⟨hs.1, of_decide_eq_false hs.2.1⟩
    rcases List.mem_cons.mp hc' with rfl | hc''
    · have hs := b64Chr_spec (a % 4 * 16 + b / 16) (by omega)
      exact ⟨hs.1, of_decide_eq_false hs.2.1⟩
    rcases List.mem_cons.mp hc'' with rfl | hc3
    · have hs := b64Chr_spec (b % 16 * 4) (by omega)
      exact ⟨hs.1, of_decide_eq_false hs.2.1⟩
    · exact absurd hc3 (List.not_mem_nil c)
  | case4 a b c rest ih =>
    intro h
    obtain ⟨core, k, heq, hmem, _⟩ := ih fun x hx => h x (by simp [hx])
    have ha := h a (by simp)
    have hb := h b (by simp)
    have hc0 := h c (by simp)
    refine ⟨b64Chr (a / 4) :: b64Chr (a % 4 * 16 + b / 16) ::
        b64Chr (b % 16 * 4 + c / 64) :: b64Chr (c % 64) :: core, k, ?_, ?_, by simp⟩
    · rw [base64Encode_chunk, heq]
      rfl
    · intro x hx
      rcases List.mem_cons.mp hx with rfl | hx'
      · have hs := b64Chr_spec (a / 4) (by omega)
        exact ⟨hs.1, of_decide_eq_false hs.2.1⟩
      rcases List.mem_cons.mp hx' with rfl | hx''
      · have hs := b64Chr_spec (a % 4 * 16 + b / 16) (by omega)
        exact ⟨hs.1, of_decide_eq_false hs.2.1⟩
      rcases List.mem_cons.mp hx'' with rfl | hx3
      · have hs := b64Chr_spec (b % 16 * 4 + c / 64) (by omega)
        exact ⟨hs.1, of_decide_eq_false hs.2.1⟩
      rcases List.mem_cons.mp hx3 with rfl | hx4
      · have hs := b64Chr_spec (c % 64) (by omega)
        exact ⟨hs.1, of_decide_eq_false hs.2.1⟩
      · exact hmem x hx4

theorem trailingEq_append_rep (core : Str) (k : ℕ)
    (h : ∀ c ∈ core, ¬(c = '=')) :
    trailingEq (core ++ List.replicate k '=') = k := by
  rw [trailingEq, List.reverse_append, List.reverse_replicate]
  have hrep : ∀ m : ℕ, (List.replicate m '=' ++ core.reverse).takeWhile
      (fun c => c = '=') =
      List.replicate m '=' ++ core.reverse.takeWhile (fun c => c = '=') := by
    intro m
    induction m with
    | zero => simp
    | succ m ih =>
      rw [List.replicate_succ, List.cons_append, List.takeWhile_cons, if_pos (by decide)]
      rw [ih]
      rfl
  rw [hrep k]
  have hrev : core.reverse.takeWhile (fun c => c = '=') = [] := by
    cases hc : core.reverse with
    | nil => rfl
    | cons a t =>
      rw [List.takeWhile_cons,
        if_neg (by simp [h a (List.mem_reverse.mp (hc ▸ List.mem_cons_self a t))])]
  rw [hrev, List.append_nil, List.length_replicate]

theorem b64ShapeStar_append_rep {core : Str} {k : ℕ}
    (hmem : ∀ c ∈ core, isB64Ch c = true) (hne2 : ∀ c ∈ core, ¬(c = '='))
    (hne : core ≠ []) :
    b64ShapeStar (core ++ List.replicate k '=') = true := by
  simp only [b64ShapeStar]
  rw [trailingEq_append_rep core k hne2]
  rw [List.length_append, List.length_replicate]
  rw [show core.length + k - k = core.length from by omega, List.take_left]
  rw [Bool.and_eq_true]
  refine ⟨decide_eq_true ?_, List.all_eq_true.mpr hmem⟩
  have := List.length_pos.mpr hne
  omega

theorem b64_strip_cons {x : Char} {s : Str} (hx : ¬(x = '=')) :
    (x :: s).filter (· ≠ '=') = x :: s.filter (· ≠ '=') := by
  rw [List.filter_cons, if_pos (by simpa using hx)]

theorem b64_strip_eq {s : Str} :
    ('=' :: s).filter (· ≠ '=') = s.filter (· ≠ '=') := by
  rw [List.filter_cons, if_neg (by simp)]

theorem b64_idx_cons {x : Char} {i : ℕ} {s : Str} (hx : b64Index x = some i) :
    (x :: s).filterMap b64Index = i :: s.filterMap b64Index := by
  rw [List.filterMap_cons, hx]

theorem b64_decode_encode :
    ∀ l : List ℕ, (∀ b ∈ l, b < 256) → base64DecodeBytes (base64Encode l) = l := by
  intro l
  induction l using base64Encode.induct with
  | case1 => intro _; rfl
  | case2 a =>
    intro h
    have ha := h a (by simp)
    have f1 := b64Chr_spec (a / 4) (by omega)
    have f2 := b64Chr_spec (a % 4 * 16) (by omega)
    rw [show base64Encode [a] = b64Chr (a / 4) :: b64Chr (a % 4 * 16) :: '=' :: '=' :: []
        from rfl,
      base64DecodeBytes,
      b64_strip_cons (of_decide_eq_false f1.2.1), b64_strip_cons (of_decide_eq_false f2.2.1),
      b64_strip_eq, b64_strip_eq, List.filter_nil,
      b64_idx_cons f1.2.2, b64_idx_cons f2.2.2, List.filterMap_nil]
    show [a / 4 * 4 + a % 4 * 16 / 16] = [a]
    rw [show a / 4 * 4 + a % 4 * 16 / 16 = a from by omega]
  | case3 a b =>
    intro h
    have ha := h a (by simp)
    have hb := h b (by simp)
    have f1 := b64Chr_spec (a / 4) (by omega)
    have f2 := b64Chr_spec (a % 4 * 16 + b / 16) (by omega)
    have f3 := b64Chr_spec (b % 16 * 4) (by omega)
    rw [show base64Encode [a, b] = b64Chr (a / 4) :: b64Chr (a % 4 * 16 + b / 16) ::
        b64Chr (b % 16 * 4) :: '=' :: [] from rfl,
      base64DecodeBytes,
      b64_strip_cons (of_decide_eq_false f1.2.1), b64_strip_cons (of_decide_eq_false f2.2.1),
      b64_strip_cons (of_decide_eq_false f3.2.1), b64_strip_eq, List.filter_nil,
      b64_idx_cons f1.2.2, b64_idx_cons f2.2.2, b64_idx_cons f3.2.2, List.filterMap_nil]
    show [a / 4 * 4 + (a % 4 * 16 + b / 16) / 16,
      (a % 4 * 16 + b / 16) % 16 * 16 + b % 16 * 4 / 4] = [a, b]
    rw [show a / 4 * 4 + (a % 4 * 16 + b / 16) / 16 = a from by omega,
      show (a % 4 * 16 + b / 16) % 16 * 16 + b % 16 * 4 / 4 = b from by omega]
  | case4 a b c rest ih =>
    intro h
    have ha := h a (by simp)
    have hb := h b (by simp)
    have hc0 := h c (by simp)
    have f1 := b64Chr_spec (a / 4) (by omega)
    have f2 := b64Chr_spec (a % 4 * 16 + b / 16) (by omega)
    have f3 := b64Chr_spec (b % 16 * 4 + c / 64) (by omega)
    have f4 := b64Chr_spec (c % 64) (by omega)
    rw [base64Encode_chunk, base64DecodeBytes,
      b64_strip_cons (of_decide_eq_false f1.2.1), b64_strip_cons (of_decide_eq_false f2.2.1),
      b64_strip_cons (of_decide_eq_false f3.2.1), b64_strip_cons (of_decide_eq_false f4.2.1),
      b64_idx_cons f1.2.2, b64_idx_cons f2.2.2, b64_idx_cons f3.2.2, b64_idx_cons f4.2.2]
    rw [b64DecodeSextets]
    rw [← base64DecodeBytes, ih fun x hx => h x (by simp [hx])]
    show (a / 4 * 4 + (a % 4 * 16 + b / 16) / 16) ::
      ((a % 4 * 16 + b / 16) % 16 * 16 + (b % 16 * 4 + c / 64) / 4) ::
      ((b % 16 * 4 + c / 64) % 4 * 64 + c % 64) :: rest = a :: b :: c :: rest
    rw [show a / 4 * 4 + (a % 4 * 16 + b / 16) / 16 = a from by omega,
      show (a % 4 * 16 + b / 16) % 16 * 16 + (b % 16 * 4 + c / 64) / 4 = b from by omega,
      show (b % 16 * 4 + c / 64) % 4 * 64 + c % 64 = c from by omega]

/-- The base64 round-trip: `solve` on the canonical base64 encoding
returns exactly the original printable-ASCII plaintext. -/
theorem base64Solve_roundtrip {p : Str} (hne : p ≠ [])
    (hp : ∀ c ∈ p, 32 ≤ code c ∧ code c ≤ 126) :
    (base64Solve (base64Encode (utf8Encode p)) {}).map (fun r => r.plaintext) = [p] := by
  have hascii : ∀ c ∈ p, code c < 128 := fun c hc => by have := hp c hc; omega
  have hbytes : ∀ b ∈ utf8Encode p, b < 256 := fun b hb => by
    have := printable_bytes hp b hb; omega
  have hnb : utf8Encode p ≠ [] := by
    rw [utf8Encode_ascii hascii]
    simpa using hne
  obtain ⟨core, k, heq, hmem, hnecore⟩ := base64Encode_split (utf8Encode p) hbytes
  have hcore := hnecore hnb
  have htrim : trim (base64Encode (utf8Encode p)) = base64Encode (utf8Encode p) := by
    refine trim_eq_self_of_all fun c hc => ?_
    rw [heq] at hc
    rcases List.mem_append.mp hc with h | h
    · exact (hmem c h).1.2
    · rw [List.eq_of_mem_replicate h]
      decide
  have hshape : b64ShapeStar (base64Encode (utf8Encode p)) = true := by
    rw [heq]
    exact b64ShapeStar_append_rep (fun c hc => (hmem c hc).1.1)
      (fun c hc => (hmem c hc).2) hcore
  have hlen0 : (base64Encode (utf8Encode p)).length ≠ 0 := by
    rw [heq, List.length_append]
    have := List.length_pos.mpr hcore
    omega
  simp only [base64Solve, htrim]
  rw [if_neg (not_not_intro ⟨hlen0, base64Encode_len4 _, hshape⟩)]
  rw [b64_decode_encode _ hbytes, utf8Decode_encode_ascii hascii]
  rw [if_neg (by simpa using hne)]
  rw [if_neg (by rw [solverPrintableRatio_printable hne hp]; norm_num)]
  simp only [List.map_cons, List.map_nil]

/-! ### binary round-trip -/

theorem bitsOfNat_length (w n : ℕ) : (bitsOfNat w n).length = w := by
  simp [bitsOfNat]

set_option maxRecDepth 8000 in
theorem natOfBits_bitsOfNat8 : ∀ b, b < 256 → natOfBits (bitsOfNat 8 b) = b := by decide

theorem flatMap_bits_length :
    ∀ bytes : List ℕ, (bytes.flatMap (bitsOfNat 8)).length = 8 * bytes.length := by
  intro bytes
  induction bytes with
  | nil => rfl
  | cons b t ih =>
    rw [List.flatMap_cons, List.length_append, bitsOfNat_length, ih, List.length_cons]
    omega

theorem bytesOfBits_flat :
    ∀ bytes : List ℕ, (∀ b ∈ bytes, b < 256) → ∀ pad : List Bool, pad.length < 8 →
      bytesOfBits (bytes.flatMap (bitsOfNat 8) ++ pad) = bytes := by
  intro bytes
  induction bytes with
  | nil =>
    intro _ pad hpad
    rw [List.flatMap_nil, List.nil_append, bytesOfBits]
    rw [if_neg (by omega)]
  | cons b t ih =>
    intro h pad hpad
    rw [List.flatMap_cons, List.append_assoc, bytesOfBits]
    have hb8 : (bitsOfNat 8 b).length = 8 := bitsOfNat_length 8 b
    rw [if_pos (by
      rw [List.length_append, hb8]
      omega)]
    have ht := List.take_left (bitsOfNat 8 b) (t.flatMap (bitsOfNat 8) ++ pad)
    rw [hb8] at ht
    have hd := List.drop_left (bitsOfNat 8 b) (t.flatMap (bitsOfNat 8) ++ pad)
    rw [hb8] at hd
    rw [ht, hd, natOfBits_bitsOfNat8 b (h b (List.mem_cons_self b t))]
    rw [ih (fun x hx => h x (List.mem_cons_of_mem b hx)) pad hpad]

theorem mem_intersperse {α : Type _} {sep g : α} :
    ∀ {gs : List α}, g ∈ gs.intersperse sep → g ∈ gs ∨ g = sep := by
  intro gs
  induction gs with
  | nil => intro h; exact absurd h (List.not_mem_nil g)
  | cons a t ih =>
    intro h
    cases t with
    | nil =>
      rw [show List.intersperse sep [a] = [a] from rfl] at h
      exact Or.inl h
    | cons b t2 =>
      rw [show List.intersperse sep (a :: b :: t2) =
          a :: sep :: List.intersperse sep (b :: t2) from rfl] at h
      rcases List.mem_cons.mp h with rfl | h'
      · exact Or.inl (List.mem_cons_self _ _)
      rcases List.mem_cons.mp h' with rfl | h''
      · exact Or.inr rfl
      · rcases ih h'' with h3 | h3
        · exact Or.inl (List.mem_cons_of_mem a h3)
        · exact Or.inr h3

/-- Filtering whitespace out of the space-joined groups recovers the
concatenated groups. -/
theorem flat_inter_filter (gs : List Str)
    (hg : ∀ g ∈ gs, ∀ c ∈ g, isWhite c = false) :
    ((gs.intersperse (str " ")).flatten).filter (!isWhite ·) = gs.flatten := by
  induction gs with
  | nil => rfl
  | cons g gs ih =>
    cases gs with
    | nil =>
      rw [show List.intersperse (str " ") [g] = [g] from rfl, List.flatten_cons,
        List.flatten_nil, List.append_nil]
      exact List.filter_eq_self.mpr fun c hc => by
        simp [hg g (List.mem_cons_self g []) c hc]
    | cons g2 t =>
      rw [show List.intersperse (str " ") (g :: g2 :: t) =
          g :: (str " ") :: List.intersperse (str " ") (g2 :: t) from rfl]
      rw [List.flatten_cons, List.flatten_cons, List.filter_append, List.filter_append]
      rw [List.filter_eq_self.mpr (fun c hc => by
        simp [hg g (List.mem_cons_self g (g2 :: t)) c hc])]
      rw [show (str " ").filter (!isWhite ·) = [] from rfl]
      rw [List.nil_append, ih fun g' hg' => hg g' (List.mem_cons_of_mem g hg')]
      simp only [List.flatten_cons]

/-- The last character of the space-joined groups is the last
character of one of the groups. -/
theorem flat_inter_last (sep : Str) :
    ∀ gs : List Str, gs ≠ [] → (∀ g ∈ gs, g ≠ []) →
      ∃ g ∈ gs, ((gs.intersperse sep).flatten).getLast? = g.getLast? := by
  intro gs
  induction gs with
  | nil => intro h _; exact absurd rfl h
  | cons g gs ih =>
    intro _ hne
    cases gs with
    | nil =>
      refine ⟨g, List.mem_cons_self g [], ?_⟩
      rw [show List.intersperse sep [g] = [g] from rfl, List.flatten_cons,
        List.flatten_nil, List.append_nil]
    | cons g2 t =>
      obtain ⟨g', hg', heq⟩ := ih (by simp)
        (fun x hx => hne x (List.mem_cons_of_mem g hx))
      refine ⟨g', List.mem_cons_of_mem g hg', ?_⟩
      have hfne : (List.intersperse sep (g2 :: t)).flatten ≠ [] := by
        intro h0
        rw [h0] at heq
        have hg'ne := hne g' (List.mem_cons_of_mem g hg')
        cases hg'l : g'.getLast? with
        | none => exact hg'ne (by simpa using hg'l)
        | some x => rw [hg'l] at heq; exact Option.noConfusion heq
      rw [show List.intersperse sep (g :: g2 :: t) =
          g :: sep :: List.intersperse sep (g2 :: t) from rfl]
      rw [List.flatten_cons, List.flatten_cons]
      rw [List.getLast?_append_of_ne_nil _ (fun h0 =>
        hfne (List.append_eq_nil.mp h0).2)]
      rw [List.getLast?_append_of_ne_nil _ hfne]
      exact heq

theorem mem_take_one_head {c : Char} {l : Str} (h : c ∈ l.take 1) :
    l.head? = some c := by
  cases l with
  | nil => exact absurd h (List.not_mem_nil c)
  | cons a t =>
    rw [show (a :: t).take 1 = [a] from rfl, List.mem_singleton] at h
    rw [h]
    rfl

/-- The binary round-trip: `solve` on the space-joined 8-bit encoding
returns exactly the original printable-ASCII plaintext. -/
theorem binarySolve_roundtrip {p : Str} (hne : p ≠ [])
    (hp : ∀ c ∈ p, 32 ≤ code c ∧ code c ≤ 126) :
    (binarySolve ((((utf8Encode p).map (fun b => (bitsOfNat 8 b).map
        fun bit => if bit then '1' else '0')).intersperse (str " ")).flatten)
      {}).map (fun r => r.plaintext) = [p] := by
  have hascii : ∀ c ∈ p, code c < 128 := fun c hc => by have := hp c hc; omega
  have hbytes : ∀ b ∈ utf8Encode p, b < 256 := fun b hb => by
    have := printable_bytes hp b hb; omega
  have hnb : utf8Encode p ≠ [] := by
    rw [utf8Encode_ascii hascii]
    simpa using hne
  set gs := (utf8Encode p).map (fun b => (bitsOfNat 8 b).map
    fun bit => if bit then '1' else '0') with hgs
  have hgmem : ∀ g ∈ gs, ∃ b, b ∈ utf8Encode p ∧
      g = (bitsOfNat 8 b).map fun bit => if bit then '1' else '0' := by
    intro g hg
    rcases List.mem_map.mp hg with ⟨b, hb, rfl⟩
    exact ⟨b, hb, rfl⟩
  have hgbit : ∀ g ∈ gs, ∀ c ∈ g, c = '0' ∨ c = '1' := by
    intro g hg c hc
    obtain ⟨b, _, rfl⟩ := hgmem g hg
    rcases List.mem_map.mp hc with ⟨bit, _, rfl⟩
    cases bit
    · exact Or.inl rfl
    · exact Or.inr rfl
  have hgw : ∀ g ∈ gs, ∀ c ∈ g, isWhite c = false := by
    intro g hg c hc
    rcases hgbit g hg c hc with rfl | rfl <;> rfl
  have hgne : ∀ g ∈ gs, g ≠ [] := by
    intro g hg
    obtain ⟨b, _, rfl⟩ := hgmem g hg
    intro h0
    have := congrArg List.length h0
    rw [List.length_map, bitsOfNat_length, List.length_nil] at this
    exact absurd this (by omega)
  have hgsne : gs ≠ [] := by
    rw [hgs]
    intro h0
    have := congrArg List.length h0
    rw [List.length_map] at this
    exact hnb (List.length_eq_zero.mp this)
  set e := (gs.intersperse (str " ")).flatten with he
  -- membership in e
  have hemem : ∀ c ∈ e, c = '0' ∨ c = '1' ∨ isWhite c = true := by
    intro c hc
    rw [he] at hc
    rcases List.mem_flatten.mp hc with ⟨g, hg, hcg⟩
    rcases mem_intersperse hg with h | h
    · rcases hgbit g h c hcg with h1 | h1
      · exact Or.inl h1
      · exact Or.inr (Or.inl h1)
    · subst h
      rw [show (str " ") = [' '] from rfl, List.mem_singleton] at hcg
      subst hcg
      exact Or.inr (Or.inr rfl)
  -- trim e = e
  have hhead : ∀ c ∈ e.take 1, isWhite c = false := by
    intro c hc
    have hh := mem_take_one_head hc
    rw [he] at hh
    rcases hgsexp : gs with _ | ⟨g1, gr⟩
    · rw [hgsexp] at hh; exact absurd hh (by simp)
    · have hg1 : g1 ∈ gs := by rw [hgsexp]; exact List.mem_cons_self g1 gr
      have : (gs.intersperse (str " ")).flatten = g1 ++
          ((gs.intersperse (str " ")).flatten).drop g1.length := by
        rw [hgsexp]
        cases gr with
        | nil =>
          rw [show List.intersperse (str " ") [g1] = [g1] from rfl, List.flatten_cons,
            List.flatten_nil, List.append_nil, List.drop_length, List.append_nil]
        | cons g2 t =>
          rw [show List.intersperse (str " ") (g1 :: g2 :: t) =
              g1 :: (str " ") :: List.intersperse (str " ") (g2 :: t) from rfl]
          rw [List.flatten_cons, List.drop_left]
      rw [this] at hh
      cases hg1e : g1 with
      | nil => exact absurd hg1e (hgne g1 hg1)
      | cons a t =>
        rw [hg1e, List.cons_append] at hh
        injection hh with hh2
        subst hh2
        exact hgw g1 hg1 a (by rw [hg1e]; exact List.mem_cons_self a t)
  have hlast : ∀ c ∈ e.reverse.take 1, isWhite c = false := by
    intro c hc
    have hh := mem_take_one_head hc
    rw [List.head?_reverse] at hh
    obtain ⟨g, hg, hgl⟩ := flat_inter_last (str " ") gs hgsne hgne
    rw [he, hgl] at hh
    have := List.mem_of_mem_getLast? hh
    exact hgw g hg c this
  have htrim : trim e = e := trim_eq_self_of_ends hhead hlast
  have hene : e ≠ [] := by
    intro h0
    rcases hgsexp : gs with _ | ⟨g1, gr⟩
    · exact hgsne hgsexp
    · have hg1 : g1 ∈ gs := by rw [hgsexp]; exact List.mem_cons_self g1 gr
      have hmem1 : ∀ c ∈ g1, c ∈ e := by
        intro c hc
        rw [he]
        refine List.mem_flatten.mpr ⟨g1, ?_, hc⟩
        rw [hgsexp]
        cases gr with
        | nil => rw [show List.intersperse (str " ") [g1] = [g1] from rfl]
                 exact List.mem_cons_self g1 []
        | cons g2 t =>
          rw [show List.intersperse (str " ") (g1 :: g2 :: t) =
              g1 :: (str " ") :: List.intersperse (str " ") (g2 :: t) from rfl]
          exact List.mem_cons_self g1 _
      cases hg1e : g1 with
      | nil => exact hgne g1 hg1 hg1e
      | cons a t =>
        have := hmem1 a (by rw [hg1e]; exact List.mem_cons_self a t)
        rw [h0] at this
        exact absurd this (List.not_mem_nil a)
  -- the filtered bit string
  have hfil : e.filter (!isWhite ·) = gs.flatten := by
    rw [he]
    exact flat_inter_filter gs hgw
  have hcomp : ∀ b : ℕ, (((bitsOfNat 8 b).map fun bit => if bit then '1' else '0').map
      fun c : Char => (c = '1' : Bool)) = bitsOfNat 8 b := by
    intro b
    rw [List.map_map]
    have hid : ((fun c => (c = '1' : Bool)) ∘ fun bit : Bool => if bit then '1' else '0') =
        id := by
      funext bit
      cases bit <;> rfl
    rw [hid, List.map_id]
  have hflat : gs.flatten.map (fun c : Char => (c = '1' : Bool)) =
      (utf8Encode p).flatMap (bitsOfNat 8) := by
    rw [hgs]
    rw [show ((utf8Encode p).map (fun b => (bitsOfNat 8 b).map
        fun bit => if bit then '1' else '0')).flatten =
      (utf8Encode p).flatMap (fun b => (bitsOfNat 8 b).map
        fun bit => if bit then '1' else '0') from rfl]
    rw [List.map_flatMap]
    simp only [hcomp]
  have hblen : gs.flatten.length % 8 = 0 := by
    have h1 := congrArg List.length hflat
    rw [List.length_map, flatMap_bits_length] at h1
    omega
  have hdec : binaryDecode e = p := by
    simp only [binaryDecode, hfil]
    rw [if_neg (not_not_intro hblen)]
    rw [hflat]
    have hpad := bytesOfBits_flat (utf8Encode p) hbytes [] (by decide)
    rw [List.append_nil] at hpad
    rw [hpad, utf8Encode_ascii hascii, map_ofNat_code]
  simp only [binarySolve, htrim]
  rw [if_neg (not_not_intro ⟨hene, List.all_eq_true.mpr fun c hc => by
    rcases hemem c hc with rfl | rfl | hw
    · simp
    · simp
    · simp [hw]⟩)]
  rw [hdec]
  rw [if_neg (by simpa using hne)]
  rw [if_neg (by rw [solverPrintableRatio_printable hne hp]; norm_num)]
  simp only [List.map_cons, List.map_nil]

/-! ### base32 round-trip -/

set_option maxRecDepth 8000 in
/-- For every index `i < 32`, the alphabet character `B32_ALPHABET[i]`
is in the `[A-Z2-7]` class, is not `'='`, is fixed by uppercasing, is
not whitespace, and `findIdx?` recovers `i`. -/
theorem b32Chr_spec : ∀ i < 32,
    (((65 ≤ code (B32_ALPHABET.getD i 'A') && code (B32_ALPHABET.getD i 'A') ≤ 90) ||
      (50 ≤ code (B32_ALPHABET.getD i 'A') && code (B32_ALPHABET.getD i 'A') ≤ 55)) = true ∧
     ¬(B32_ALPHABET.getD i 'A' = '=')) ∧
    (toUpperCh (B32_ALPHABET.getD i 'A') = B32_ALPHABET.getD i 'A' ∧
     isWhite (B32_ALPHABET.getD i 'A') = false) ∧
    B32_ALPHABET.findIdx? (· = B32_ALPHABET.getD i 'A') = some i := by decide

/-- Five bits encode a value below `32`, and `bitsOfNat 5` inverts
`natOfBits` on five-bit lists. -/
theorem natOfBits5_spec : ∀ b0 b1 b2 b3 b4 : Bool,
    natOfBits [b0, b1, b2, b3, b4] < 32 ∧
    bitsOfNat 5 (natOfBits [b0, b1, b2, b3, b4]) = [b0, b1, b2, b3, b4] := by decide

theorem list5_exists {α : Type _} : ∀ c : List α, c.length = 5 →
    ∃ b0 b1 b2 b3 b4, c = [b0, b1, b2, b3, b4] := by
  intro c h
  rcases c with _ | ⟨b0, c⟩
  · simp only [List.length_nil] at h
    omega
  rcases c with _ | ⟨b1, c⟩
  · simp only [List.length_cons, List.length_nil] at h
    omega
  rcases c with _ | ⟨b2, c⟩
  · simp only [List.length_cons, List.length_nil] at h
    omega
  rcases c with _ | ⟨b3, c⟩
  · simp only [List.length_cons, List.length_nil] at h
    omega
  rcases c with _ | ⟨b4, c⟩
  · simp only [List.length_cons, List.length_nil] at h
    omega
  rcases c with _ | ⟨b5, c⟩
  · exact ⟨b0, b1, b2, b3, b4, rfl⟩
  · simp only [List.length_cons] at h
    omega

/-- Every chunk produced by `chunks5` has exactly five bits. -/
theorem chunks5_mem_length : ∀ l : List Bool, ∀ c ∈ chunks5 l, c.length = 5 := by
  intro l
  induction l using chunks5.induct with
  | case1 => intro c hc; rw [chunks5, if_pos rfl] at hc; exact absurd hc (List.not_mem_nil c)
  | case2 l hne ih =>
    intro c hc
    rw [chunks5, if_neg hne] at hc
    rcases List.mem_cons.mp hc with rfl | hc2
    · have hle : (l.take 5).length ≤ 5 := List.length_take_le 5 l
      rw [List.length_append, List.length_replicate]
      omega
    · exact ih c hc2

/-- Concatenating the five-bit chunks recovers the bit stream plus its
zero padding. -/
theorem chunks5_flatten : ∀ l : List Bool,
    (chunks5 l).flatten = l ++ List.replicate ((5 - l.length % 5) % 5) false := by
  intro l
  induction l using chunks5.induct with
  | case1 =>
    rw [chunks5, if_pos rfl]
    rfl
  | case2 l hne ih =>
    rw [chunks5, if_neg hne, List.flatten_cons, ih]
    have hpos : 0 < l.length := List.length_pos.mpr hne
    by_cases h5 : 5 ≤ l.length
    · have ht5 : (l.take 5).length = 5 := by rw [List.length_take]; omega
      rw [ht5, show (5 : ℕ) - 5 = 0 from rfl, List.replicate_zero, List.append_nil]
      rw [← List.append_assoc, List.take_append_drop]
      have hd : (l.drop 5).length = l.length - 5 := List.length_drop 5 l
      rw [hd, show (5 - (l.length - 5) % 5) % 5 = (5 - l.length % 5) % 5 from by omega]
    · have htl : l.take 5 = l := List.take_of_length_le (by omega)
      have hdl : l.drop 5 = ([] : List Bool) := List.drop_eq_nil_of_le (by omega)
      rw [htl, hdl,
        show ((5 - ([] : List Bool).length % 5) % 5) = 0 from rfl,
        List.replicate_zero, List.append_nil, List.append_nil,
        show (5 - l.length % 5) % 5 = 5 - l.length from by omega]

/-- `mapM` over a mapped list succeeds pointwise. -/
theorem mapM_map_eq_some {α β γ : Type _} (f : β → Option γ) (e : α → β) (g : α → γ) :
    ∀ l : List α, (∀ x ∈ l, f (e x) = some (g x)) →
      (l.map e).mapM f = some (l.map g) := by
  intro l
  induction l with
  | nil => intro _; rfl
  | cons a t ih =>
    intro h
    rw [List.map_cons, List.mapM_cons, h a (List.mem_cons_self a t),
      ih fun x hx => h x (List.mem_cons_of_mem a hx)]
    rfl

/-- Re-expanding the chunk values with `bitsOfNat 5` recovers the
concatenated chunks. -/
theorem flatMap_bits5_map :
    ∀ l : List (List Bool), (∀ c ∈ l, bitsOfNat 5 (natOfBits c) = c) →
      (l.map natOfBits).flatMap (bitsOfNat 5) = l.flatten := by
  intro l
  induction l with
  | nil => intro _; rfl
  | cons a t ih =>
    intro h
    rw [List.map_cons, List.flatMap_cons, h a (List.mem_cons_self a t),
      ih fun c hc => h c (List.mem_cons_of_mem a hc), List.flatten_cons]

theorem b32ShapeStar_append_rep {core : Str} {k : ℕ}
    (hmem : ∀ c ∈ core,
      ((65 ≤ code c && code c ≤ 90) || (50 ≤ code c && code c ≤ 55)) = true)
    (hne2 : ∀ c ∈ core, ¬(c = '=')) (hne : core ≠ []) :
    b32ShapeStar (core ++ List.replicate k '=') = true := by
  simp only [b32ShapeStar]
  rw [trailingEq_append_rep core k hne2]
  rw [List.length_append, List.length_replicate]
  rw [show core.length + k - k = core.length from by omega, List.take_left]
  rw [Bool.and_eq_true]
  refine ⟨decide_eq_true ?_, List.all_eq_true.mpr hmem⟩
  have := List.length_pos.mpr hne
  omega

/-- The base32 round-trip: `solve` on the canonical base32 encoding
returns exactly the original printable-ASCII plaintext. -/
theorem base32Solve_roundtrip {p : Str} (hne : p ≠ [])
    (hp : ∀ c ∈ p, 32 ≤ code c ∧ code c ≤ 126) :
    (base32Solve (base32Encode (utf8Encode p)) {}).map (fun r => r.plaintext) = [p] := by
  have hascii : ∀ c ∈ p, code c < 128 := fun c hc => by have := hp c hc; omega
  have hbytes : ∀ b ∈ utf8Encode p, b < 256 := fun b hb => by
    have := printable_bytes hp b hb; omega
  have hnb : utf8Encode p ≠ [] := by
    rw [utf8Encode_ascii hascii]
    simpa using hne
  set L := (utf8Encode p).flatMap (bitsOfNat 8) with hL
  have hLlen : L.length = 8 * (utf8Encode p).length := flatMap_bits_length _
  have hLne : L ≠ [] := by
    intro h0
    have h1 := congrArg List.length h0
    rw [hLlen, List.length_nil] at h1
    have h2 : (utf8Encode p).length = 0 := by omega
    exact hnb (List.length_eq_zero.mp h2)
  set cs := chunks5 L with hcs
  have hclen5 : ∀ c ∈ cs, c.length = 5 := chunks5_mem_length L
  have hcfacts : ∀ c ∈ cs, natOfBits c < 32 ∧ bitsOfNat 5 (natOfBits c) = c := by
    intro c hc
    obtain ⟨b0, b1, b2, b3, b4, rfl⟩ := list5_exists c (hclen5 c hc)
    exact natOfBits5_spec b0 b1 b2 b3 b4
  set core := cs.map (fun c => B32_ALPHABET.getD (natOfBits c) 'A') with hcore
  have hcmem : ∀ ch ∈ core,
      (((65 ≤ code ch && code ch ≤ 90) || (50 ≤ code ch && code ch ≤ 55)) = true ∧
        ¬(ch = '=')) ∧ toUpperCh ch = ch ∧ isWhite ch = false := by
    intro ch hch
    rcases List.mem_map.mp hch with ⟨c, hc, rfl⟩
    have hspec := b32Chr_spec (natOfBits c) (hcfacts c hc).1
    exact ⟨hspec.1, hspec.2.1⟩
  have hcsne : cs ≠ [] := by
    rw [hcs, chunks5, if_neg hLne]
    exact List.cons_ne_nil _ _
  have hcorene : core ≠ [] := by
    intro h0
    have h1 := congrArg List.length h0
    rw [hcore, List.length_map, List.length_nil] at h1
    exact hcsne (List.length_eq_zero.mp h1)
  set pad := (8 - core.length % 8) % 8 with hpadd
  have henc : base32Encode (utf8Encode p) = core ++ List.replicate pad '=' := rfl
  have htrim : trim (base32Encode (utf8Encode p)) = base32Encode (utf8Encode p) := by
    refine trim_eq_self_of_all fun c hc => ?_
    rw [henc] at hc
    rcases List.mem_append.mp hc with h | h
    · exact (hcmem c h).2.2
    · rw [List.eq_of_mem_replicate h]
      decide
  have hupper : toUpperStr (base32Encode (utf8Encode p)) = base32Encode (utf8Encode p) := by
    rw [toUpperStr]
    have hfix : ∀ c ∈ base32Encode (utf8Encode p), toUpperCh c = c := by
      intro c hc
      rw [henc] at hc
      rcases List.mem_append.mp hc with h | h
      · exact (hcmem c h).2.1
      · rw [List.eq_of_mem_replicate h]
        decide
    rw [List.map_congr_left (g := id) hfix, List.map_id]
  have hlenE : (base32Encode (utf8Encode p)).length = core.length + pad := by
    rw [henc, List.length_append, List.length_replicate]
  have hlen8 : (base32Encode (utf8Encode p)).length % 8 = 0 := by
    rw [hlenE, hpadd]
    omega
  have hlen0 : (base32Encode (utf8Encode p)).length ≠ 0 := by
    rw [hlenE]
    have := List.length_pos.mpr hcorene
    omega
  have hshape : b32ShapeStar (base32Encode (utf8Encode p)) = true := by
    rw [henc]
    exact b32ShapeStar_append_rep (fun c hc => (hcmem c hc).1.1)
      (fun c hc => (hcmem c hc).1.2) hcorene
  have htr : trailingEq (base32Encode (utf8Encode p)) = pad := by
    rw [henc]
    exact trailingEq_append_rep core pad fun c hc => (hcmem c hc).1.2
  have hstrip : (base32Encode (utf8Encode p)).take
      ((base32Encode (utf8Encode p)).length - trailingEq (base32Encode (utf8Encode p))) =
      core := by
    rw [htr, hlenE, henc, show core.length + pad - pad = core.length from by omega,
      List.take_left]
  have hmapm : core.mapM (fun c => B32_ALPHABET.findIdx? (· = c)) =
      some (cs.map natOfBits) := by
    rw [hcore]
    refine mapM_map_eq_some _ _ _ cs ?_
    intro c hc
    exact (b32Chr_spec (natOfBits c) (hcfacts c hc).1).2.2
  have hq : (List.replicate ((5 - L.length % 5) % 5) false).length < 8 := by
    rw [List.length_replicate]
    omega
  have hdecbytes : base32DecodeBytes (base32Encode (utf8Encode p)) =
      some (utf8Encode p) := by
    simp only [base32DecodeBytes]
    rw [hstrip, hmapm]
    show some (bytesOfBits ((cs.map natOfBits).flatMap (bitsOfNat 5))) =
      some (utf8Encode p)
    rw [flatMap_bits5_map cs fun c hc => (hcfacts c hc).2]
    rw [hcs, chunks5_flatten L, hL]
    rw [bytesOfBits_flat (utf8Encode p) hbytes _ (by rw [← hL]; exact hq)]
  simp only [base32Solve, htrim, hupper]
  rw [if_neg (not_not_intro ⟨hlen0, hlen8, hshape⟩)]
  simp only [hdecbytes]
  rw [utf8Decode_encode_ascii hascii]
  rw [if_neg (by simpa using hne)]
  rw [if_neg (by rw [solverPrintableRatio_printable hne hp]; norm_num)]
  simp only [List.map_cons, List.map_nil]

/-- C2: **corrected statement**.  For each of the Base64, Base32, Hex
and Binary solvers, encoding any nonempty printable-ASCII text with
the solver's `encrypt` and then running the same solver's `solve` on
the resulting ciphertext returns exactly one result, whose plaintext
is the original text.  The claimed universal over all six encoding
solvers is false: the URL solver fails the round-trip
(`claim_C2_counterexample`). -/
theorem claim_C2 :
    (∃ enc, base64Solver.encrypt = some enc ∧
      ∀ p : Str, p ≠ [] → (∀ c ∈ p, 32 ≤ code c ∧ code c ≤ 126) →
        ∃ er, enc p {} = Except.ok er ∧
          (base64Solve er.ciphertext {}).map (fun r => r.plaintext) = [p]) ∧
    (∃ enc, base32Solver.encrypt = some enc ∧
      ∀ p : Str, p ≠ [] → (∀ c ∈ p, 32 ≤ code c ∧ code c ≤ 126) →
        ∃ er, enc p {} = Except.ok er ∧
          (base32Solve er.ciphertext {}).map (fun r => r.plaintext) = [p]) ∧
    (∃ enc, hexSolver.encrypt = some enc ∧
      ∀ p : Str, p ≠ [] → (∀ c ∈ p, 32 ≤ code c ∧ code c ≤ 126) →
        ∃ er, enc p {} = Except.ok er ∧
          (hexSolve er.ciphertext {}).map (fun r => r.plaintext) = [p]) ∧
    (∃ enc, binarySolver.encrypt = some enc ∧
      ∀ p : Str, p ≠ [] → (∀ c ∈ p, 32 ≤ code c ∧ code c ≤ 126) →
        ∃ er, enc p {} = Except.ok er ∧
          (binarySolve er.ciphertext {}).map (fun r => r.plaintext) = [p]) := by
  refine ⟨⟨_, rfl, fun p hne hp => ⟨_, rfl, base64Solve_roundtrip hne hp⟩⟩,
    ⟨_, rfl, fun p hne hp => ⟨_, rfl, base32Solve_roundtrip hne hp⟩⟩,
    ⟨_, rfl, fun p hne hp => ⟨_, rfl, hexSolve_roundtrip hne hp⟩⟩,
    ⟨_, rfl, fun p hne hp => ⟨_, rfl, binarySolve_roundtrip hne hp⟩⟩⟩

/-- Witness for C2: the text `"Hello"` is nonempty printable ASCII,
and the Base64 round-trip of `claim_C2` holds on it. -/
theorem claim_C2_witness :
    (str "Hello" ≠ [] ∧ ∀ c ∈ str "Hello", 32 ≤ code c ∧ code c ≤ 126) ∧
    (∃ enc, base64Solver.encrypt = some enc ∧
      ∃ er, enc (str "Hello") {} = Except.ok er ∧
        (base64Solve er.ciphertext {}).map (fun r => r.plaintext) = [str "Hello"]) := by
  refine ⟨⟨by decide, by decide⟩, ?_⟩
  obtain ⟨⟨enc, henc, hall⟩, _⟩ := claim_C2
  exact ⟨enc, henc, hall (str "Hello") (by decide) (by decide)⟩

/-- The sort of `crack` levels is `Pairwise`-descending on
confidences. -/
theorem sortGeB_pairwise_conf (l : List CrackResult) :
    (sortGeB (fun a b => rGe a.confidence b.confidence) l).Pairwise
      (fun a b => b.confidence ≤ a.confidence) := by
  have h := sortGeB_chain' (rGe_total (fun r : CrackResult => r.confidence)) l
  have h2 : (sortGeB (fun a b => rGe a.confidence b.confidence) l).Chain'
      (fun a b => b.confidence ≤ a.confidence) :=
    List.Chain'.imp (fun a b hab => rGe_true_iff.mp hab) h
  haveI : IsTrans CrackResult (fun a b => b.confidence ≤ a.confidence) :=
    ⟨fun a b c hab hbc => le_trans hbc hab⟩
  exact List.chain'_iff_pairwise.mp h2

/-- A nonnegative JS slice of a `Pairwise`-sorted list is sorted and
bounded by the slice length. -/
theorem slice_sorted_len {m : ℤ} (hm : 0 ≤ m) {X : List CrackResult}
    (hX : X.Pairwise (fun a b => b.confidence ≤ a.confidence)) :
    (jsSliceEnd m X).Pairwise (fun a b => b.confidence ≤ a.confidence) ∧
      (jsSliceEnd m X).length ≤ m.toNat := by
  constructor
  · exact List.Pairwise.sublist (jsSliceEnd_sublist m X) hX
  · rw [jsSliceEnd_eq_take hm]
    exact List.length_take_le _ _

/-- Every `crackGo` level returns a confidence-descending list of at
most `maxResults` results (for a nonnegative effective `maxResults`). -/
theorem crackGo_sorted_len (env : Env) (fuel : ℕ) (ct : Str) (opts : CrackOptions)
    (h : 0 ≤ opts.maxResults.getD 10) :
    (crackGo env fuel ct opts).results.Pairwise
        (fun a b => b.confidence ≤ a.confidence) ∧
      (crackGo env fuel ct opts).results.length ≤ (opts.maxResults.getD 10).toNat := by
  rw [crackGo]
  dsimp only
  split
  · exact ⟨List.Pairwise.nil, by simp⟩
  · split
    · exact ⟨List.Pairwise.nil, by simp⟩
    · refine slice_sorted_len h ?_
      split
      · cases fuel with
        | zero =>
          exact List.Pairwise.sublist (jsSliceEnd_sublist _ _)
            (List.Pairwise.sublist (crackFilter_sublist _ _ _) (sortGeB_pairwise_conf _))
        | succ f =>
          dsimp only
          rw [tryRecursiveDecode]
          dsimp only
          exact sortGeB_pairwise_conf _
      · exact List.Pairwise.sublist (jsSliceEnd_sublist _ _)
          (List.Pairwise.sublist (crackFilter_sublist _ _ _) (sortGeB_pairwise_conf _))

theorem rGt_true_iff {a b : ℝ} : rGt a b = true ↔ b < a := by
  simp [rGt]

theorem rEq_eq_true {a b : ℝ} (h : a = b) : rEq a b = true := by
  simp [rEq, h]

theorem rEq_eq_false {a b : ℝ} (h : a ≠ b) : rEq a b = false := by
  simp [rEq, h]

/-- Every survivor of the `crack` filter passes the confidence
threshold. -/
theorem crackFilter_conf (mc : ℝ) :
    ∀ (l : List CrackResult) (seen : List Str) (r : CrackResult),
      r ∈ crackFilter mc seen l → rGe r.confidence mc = true := by
  intro l
  induction l with
  | nil =>
    intro seen r hr
    exact absurd hr (List.not_mem_nil r)
  | cons x xs ih =>
    intro seen r hr
    rw [crackFilter] at hr
    split at hr
    · exact ih _ r hr
    next h1 =>
      split at hr
      · exact ih _ r hr
      · rcases List.mem_cons.mp hr with rfl | h
        · exact not_not.mp h1
        · exact ih _ r h

/-- Every result of a `crackGo` level has confidence at least the
effective `minConfidence`: pass-through results survived the filter,
and recursion pushes strictly beat a parent that survived it. -/
theorem crackGo_conf_ge (env : Env) (fuel : ℕ) (ct : Str) (opts : CrackOptions) :
    ∀ r ∈ (crackGo env fuel ct opts).results,
      opts.minConfidence.getD 0.01 ≤ r.confidence := by
  cases fuel with
  | zero =>
    intro r hr
    rw [crackGo] at hr
    dsimp only at hr
    split at hr
    · exact absurd hr (List.not_mem_nil r)
    · split at hr
      · exact absurd hr (List.not_mem_nil r)
      · dsimp only at hr
        split at hr
        · exact rGe_true_iff.mp (crackFilter_conf _ _ _ r
            ((jsSliceEnd_sublist _ _).mem ((jsSliceEnd_sublist _ _).mem hr)))
        · exact rGe_true_iff.mp (crackFilter_conf _ _ _ r
            ((jsSliceEnd_sublist _ _).mem ((jsSliceEnd_sublist _ _).mem hr)))
  | succ f =>
    intro r hr
    rw [crackGo] at hr
    dsimp only at hr
    split at hr
    · exact absurd hr (List.not_mem_nil r)
    · split at hr
      · exact absurd hr (List.not_mem_nil r)
      · dsimp only at hr
        split at hr
        · rw [tryRecursiveDecode] at hr
          dsimp only at hr
          have hr1 := (jsSliceEnd_sublist _ _).mem hr
          rw [mem_sortGeB] at hr1
          rcases List.mem_append.mp hr1 with h | h
          · exact rGe_true_iff.mp (crackFilter_conf _ _ _ r
              ((jsSliceEnd_sublist _ _).mem h))
          · rcases List.mem_flatMap.mp h with ⟨parent, hp, hr3⟩
            split at hr3
            · exact absurd hr3 (List.not_mem_nil r)
            · rcases List.mem_filterMap.mp hr3 with ⟨inner, hinner, hsome⟩
              split at hsome
              next hgt =>
                injection hsome with h4
                subst h4
                have hparent : opts.minConfidence.getD 0.01 ≤ parent.confidence :=
                  rGe_true_iff.mp (crackFilter_conf _ _ _ parent
                    ((jsSliceEnd_sublist _ _).mem (List.mem_of_mem_take hp)))
                exact le_of_lt (lt_of_le_of_lt hparent (rGt_true_iff.mp hgt))
              · exact Option.noConfusion hsome
        · exact rGe_true_iff.mp (crackFilter_conf _ _ _ r
            ((jsSliceEnd_sublist _ _).mem ((jsSliceEnd_sublist _ _).mem hr)))

/-- Stability of the insertion step: inserting an element does not
reorder its confidence tie class (elements it passes over are strictly
greater). -/
theorem insertGeB_filter_conf (c : ℝ) (x : CrackResult) (l : List CrackResult) :
    List.filter (fun r => rEq r.confidence c)
        (insertGeB (fun a b => rGe a.confidence b.confidence) x l) =
      List.filter (fun r => rEq r.confidence c) (x :: l) := by
  induction l with
  | nil => rfl
  | cons y ys ih =>
    by_cases hxy : rGe x.confidence y.confidence = true
    · rw [@insertGeB_cons_true _ (fun a b => rGe a.confidence b.confidence) x y ys hxy]
    · have hxy2 : rGe x.confidence y.confidence = false :=
        Bool.not_eq_true _ ▸ eq_false_of_ne_true hxy
      have hlt : x.confidence < y.confidence := by
        rcases lt_or_ge x.confidence y.confidence with h | h
        · exact h
        · exact absurd (rGe_eq_true h) hxy
      rw [@insertGeB_cons_false _ (fun a b => rGe a.confidence b.confidence) x y ys hxy2]
      by_cases hy : y.confidence = c
      · have hx : x.confidence ≠ c := by
          intro h0
          rw [h0, hy] at hlt
          exact absurd hlt (lt_irrefl c)
        simp only [List.filter_cons, rEq_eq_true hy, rEq_eq_false hx, ih]
        simp
      · simp only [List.filter_cons, rEq_eq_false hy, ih]
        simp [List.filter_cons, rEq_eq_false hy]

/-- The confidence sort of `crack` is stable: each confidence tie
class comes out in its input order. -/
theorem sortGeB_filter_conf (c : ℝ) (l : List CrackResult) :
    (sortGeB (fun a b => rGe a.confidence b.confidence) l).filter
        (fun r => rEq r.confidence c) =
      l.filter (fun r => rEq r.confidence c) := by
  induction l with
  | nil => rfl
  | cons x xs ih =>
    show (insertGeB _ x (sortGeB _ xs)).filter _ = _
    rw [insertGeB_filter_conf]
    by_cases h : (rEq x.confidence c) = true
    · rw [List.filter_cons, List.filter_cons, if_pos h, if_pos h, ih]
    · rw [List.filter_cons, List.filter_cons, if_neg h, if_neg h, ih]

/-- C1: **corrected statement**.  For every environment, ciphertext
and options: the results of `crack` are sorted by confidence
descending; every result's confidence is at least the effective
`minConfidence` (default 0.01); the list's length is at most the
effective `maxResults` (default 10) whenever that value is
nonnegative (for a negative `maxResults` the JS slice drops trailing
elements instead, see `claim_C1_counterexample`); and the sort `crack`
employs is stable — each confidence tie class comes out in its input
(insertion) order.  The no-duplicate part of the original claim is
false: `claim_C1_counterexample` returns two results with the same
trimmed plaintext, re-added by the recursive-decoding push after the
per-level dedup. -/
theorem claim_C1 (env : Env) (ciphertext : Str) (options : CrackOptions)
    (h : 0 ≤ options.maxResults.getD 10) :
    (crack env ciphertext options).results.Chain'
        (fun a b => b.confidence ≤ a.confidence) ∧
      (∀ r ∈ (crack env ciphertext options).results,
        options.minConfidence.getD 0.01 ≤ r.confidence) ∧
      (crack env ciphertext options).results.length ≤
        (options.maxResults.getD 10).toNat ∧
      ∀ (l : List CrackResult) (c : ℝ),
        (sortGeB (fun a b => rGe a.confidence b.confidence) l).filter
            (fun r => rEq r.confidence c) =
          l.filter (fun r => rEq r.confidence c) := by
  rw [crack]
  have h2 := crackGo_sorted_len env ((options.maxDepth.getD 3).toNat) ciphertext options h
  exact ⟨h2.1.chain', crackGo_conf_ge env _ ciphertext options, h2.2,
    fun l c => sortGeB_filter_conf c l⟩

/-- Closed witness for C1: on the Morse ciphertext with
`maxResults := 2` the returned list is sorted descending, every
confidence clears the default threshold, at most two results are
returned, and the employed sort is stable. -/
theorem claim_C1_witness :
    (0 : ℤ) ≤ (({ maxResults := some 2 } : CrackOptions).maxResults.getD 10) ∧
    ((crack envTrivial (str ".....  .. .....") { maxResults := some 2 }).results.Chain'
        (fun a b => b.confidence ≤ a.confidence) ∧
      (∀ r ∈ (crack envTrivial (str ".....  .. .....")
          { maxResults := some 2 }).results,
        (({ maxResults := some 2 } : CrackOptions).minConfidence.getD 0.01) ≤
          r.confidence) ∧
      (crack envTrivial (str ".....  .. .....")
          { maxResults := some 2 }).results.length ≤
        (({ maxResults := some 2 } : CrackOptions).maxResults.getD 10).toNat ∧
      ∀ (l : List CrackResult) (c : ℝ),
        (sortGeB (fun a b => rGe a.confidence b.confidence) l).filter
            (fun r => rEq r.confidence c) =
          l.filter (fun r => rEq r.confidence c)) :=
  ⟨by decide, claim_C1 envTrivial (str ".....  .. .....") { maxResults := some 2 }
    (by decide)⟩

/-- C6: **corrected statement**.  Every result that the
recursive-decoding step adds beyond the incoming level carries a
`layers` annotation of exactly two entries (the parent stage and the
inner stage) — never the `k` entries of a `k`-stage unwrapping chain,
which is what `claim_C6_counterexample` exhibits concretely. -/
theorem claim_C6 (crackF : Str → CrackOptions → CrackResponse)
    (results : List CrackResult) (options : CrackOptions) :
    ∀ r ∈ tryRecursiveDecode crackF results options,
      r ∈ results ∨ ∃ ls, r.details.layers = some ls ∧ ls.length = 2 := by
  intro r hr
  rw [tryRecursiveDecode] at hr
  dsimp only at hr
  rw [mem_sortGeB] at hr
  rcases List.mem_append.mp hr with h | h
  · exact Or.inl h
  · rcases List.mem_flatMap.mp h with ⟨parent, hp, hr3⟩
    split at hr3
    · exact absurd hr3 (List.not_mem_nil r)
    · rcases List.mem_filterMap.mp hr3 with ⟨inner, hinner, hsome⟩
      split at hsome
      · injection hsome with h4
        subst h4
        exact Or.inr ⟨_, rfl, rfl⟩
      · exact Option.noConfusion hsome

/-- Closed witness for C6: a short singleton level passes through the
recursion untouched and is (trivially) in the incoming level. -/
theorem claim_C6_witness :
    mkRes envTrivial.words 0.9 .morse (str "5I5") none ∈
        tryRecursiveDecode (fun _ _ => { results := [], warnings := [] })
          [mkRes envTrivial.words 0.9 .morse (str "5I5") none] {} ∧
      (mkRes envTrivial.words 0.9 .morse (str "5I5") none ∈
          [mkRes envTrivial.words 0.9 .morse (str "5I5") none] ∨
        ∃ ls, (mkRes envTrivial.words 0.9 .morse
          (str "5I5") none).details.layers = some ls ∧ ls.length = 2) := by
  have hm : mkRes envTrivial.words 0.9 CipherType.morse (str "5I5") none ∈
      tryRecursiveDecode (fun _ _ => { results := [], warnings := [] })
        [mkRes envTrivial.words 0.9 CipherType.morse (str "5I5") none] {} := by
    rw [tryRecursiveDecode_eval1 _ _ _ []
      (by rw [mkRes_guard_short _ _ _ _ _ (by decide)]; rw [if_pos (by decide)])]
    exact mem_sortGeB.mpr (List.mem_cons_self _ _)
  exact ⟨hm, claim_C6 _ _ _ _ hm⟩

end CodeCracker
